import Mathlib

/-!
# Task and reward ledgers of `todo_cli_app`

A shallow embedding of `internal/models`, of the methods of `TaskHandler` and
`RewardHandler` in `internal/handlers`, of the helpers of `internal/utils`, of
`internal/storage` and `internal/loaders`, and of the commands `complete` and
`not-complete` of `cmd/tasks/tasksCmd.go`, followed by theorems about them.

Modelling conventions.

* Go `int` is `Int`: ids, points, prices and the balance are taken as
  mathematical integers.  Wrap-around at 2^63 is modelled where the sign of a
  result is at stake: `CalculateIsAvailableReward64` and `BuyRewards64` carry
  the subtraction of a 64-bit `int`, and agree with `CalculateIsAvailableReward`
  and `BuyRewards` as long as the difference stays in the range of `int`.
* A Go slice is a `List`; `append(s, x)` is `s ++ [x]`.  The `nil` slice and the
  empty slice are both `[]` (the handlers only ever look at `len`).
* A method with a pointer receiver becomes a function from the ledger before the
  call to the ledger after it.  A returned `error` is an `Option String`
  (`none` is Go's `nil`), paired with the ledger after the call.
* Indexing a slice out of range panics in Go; a method that indexes with a
  caller-supplied index returns `Option`, and `none` is that panic.  An index is
  a `Nat`: the commands only pass indices found by a `range` loop over the list.
* A Go `string` is a `String` in the ledgers the handlers work on, so a text
  there is valid Unicode.  A Go `string` is a sequence of bytes that need not be
  UTF-8, and what is written to a file depends on the bytes: the storage layer
  has the ledgers with their texts as bytes too (`RawTask`, `RawTodoList`,
  `RawReward`, `RawRewardSystem`), and `Task.toRaw` maps a ledger with valid
  texts to the bytes the program holds for it.
* A command is a function from the documents in the two files to the state of
  the files after the run; what it prints and logs is left out.
-/

namespace TodoCli

/-- The struct `models.Task`. -/
structure Task where
  ID : Int
  Text : String
  IsComplete : Bool
  TaskPoints : Int
  IsTaskPointsReceive : Bool
deriving DecidableEq, Repr

/-- The struct `models.TodoList`. -/
structure TodoList where
  Tasks : List Task
  DeletedTasks : List Task
  NextID : Int
deriving DecidableEq, Repr

/-- The zero value of `models.TodoList`, which `loaders.LoadTodoList` hands out
when there is no file yet. -/
def zeroTodoList : TodoList :=
  { Tasks := [], DeletedTasks := [], NextID := 0 }

/-- `TaskHandler.Add`. -/
def Add (h : TodoList) (text : String) (points : Int) : TodoList :=
  let h1 : TodoList := if h.Tasks.length = 0 then { h with NextID := 1 } else h
  let task : Task :=
    { ID := h1.NextID
      Text := text
      IsComplete := false
      TaskPoints := points
      IsTaskPointsReceive := false }
  let h2 : TodoList := { h1 with Tasks := h1.Tasks ++ [task] }
  { h2 with NextID := h2.NextID + 1 }

/-- `TaskHandler.Complete`. -/
def Complete (h : TodoList) (indexCompElem : Nat) : Option (TodoList × Option String) :=
  match h.Tasks[indexCompElem]? with
  | none => none
  | some t =>
    if t.IsComplete then
      some (h, some "the task has already been completed")
    else
      some ({ h with Tasks := h.Tasks.set indexCompElem { t with IsComplete := true } }, none)

/-- `TaskHandler.NotCompleted`. -/
def NotCompleted (h : TodoList) (indexNotCompElem : Nat) : Option (TodoList × Option String) :=
  match h.Tasks[indexNotCompElem]? with
  | none => none
  | some t =>
    if !t.IsComplete then
      some (h, some "the task has not been completed yet")
    else
      some ({ h with Tasks := h.Tasks.set indexNotCompElem { t with IsComplete := false } }, none)

/-- `TaskHandler.Edit`. -/
def Edit (h : TodoList) (indexEditElem : Nat) (newText : String) : Option TodoList :=
  match h.Tasks[indexEditElem]? with
  | none => none
  | some t => some { h with Tasks := h.Tasks.set indexEditElem { t with Text := newText } }

/-- `TaskHandler.EditTaskPoints`. -/
def EditTaskPoints (h : TodoList) (indexPointsElem : Nat) (newTaskPoints : Int) :
    Option TodoList :=
  match h.Tasks[indexPointsElem]? with
  | none => none
  | some t =>
    some { h with Tasks := h.Tasks.set indexPointsElem { t with TaskPoints := newTaskPoints } }

/-- `TaskHandler.ClearAllTasks`. -/
def ClearAllTasks (h : TodoList) : TodoList :=
  { h with Tasks := [], NextID := 1 }

/-- `TaskHandler.Delete`. -/
def Delete (h : TodoList) (indexDelElem : Nat) : Option TodoList :=
  match h.Tasks[indexDelElem]? with
  | none => none
  | some t =>
    let h1 : TodoList := { h with DeletedTasks := h.DeletedTasks ++ [t] }
    some { h1 with Tasks := h1.Tasks.take indexDelElem ++ h1.Tasks.drop (indexDelElem + 1) }

/-- `TaskHandler.CancelLastDelete`. -/
def CancelLastDelete (h : TodoList) : TodoList × Option String :=
  if hlen : h.DeletedTasks.length = 0 then
    (h, some "no deleted tasks")
  else
    let last : Task :=
      h.DeletedTasks.get ⟨h.DeletedTasks.length - 1, Nat.sub_lt (Nat.pos_of_ne_zero hlen) Nat.one_pos⟩
    let last1 : Task := { last with ID := h.NextID }
    let h1 : TodoList := { h with NextID := h.NextID + 1 }
    let last2 : Task := { last1 with IsComplete := false }
    let h2 : TodoList := { h1 with Tasks := h1.Tasks ++ [last2] }
    ({ h2 with DeletedTasks := [] }, none)

/-! ## Sequences of operations -/

/-- One call of a mutating method of `TaskHandler`, with its arguments. -/
inductive TaskOp where
  | add (text : String) (points : Int)
  | complete (index : Nat)
  | notCompleted (index : Nat)
  | edit (index : Nat) (newText : String)
  | editTaskPoints (index : Nat) (newTaskPoints : Int)
  | delete (index : Nat)
  | cancelLastDelete
  | clearAllTasks
deriving DecidableEq, Repr

/-- The ledger after one call; `none` when the call indexes out of range.  A call
that returns an error still counts as a step (it leaves the ledger as it is). -/
def applyOp (h : TodoList) : TaskOp → Option TodoList
  | .add text points => some (Add h text points)
  | .complete i => (Complete h i).map Prod.fst
  | .notCompleted i => (NotCompleted h i).map Prod.fst
  | .edit i newText => Edit h i newText
  | .editTaskPoints i p => EditTaskPoints h i p
  | .delete i => Delete h i
  | .cancelLastDelete => some (CancelLastDelete h).1
  | .clearAllTasks => some (ClearAllTasks h)

/-- The ledger after a sequence of calls, `none` if one of them indexes out of
range. -/
def runOps (h : TodoList) : List TaskOp → Option TodoList
  | [] => some h
  | op :: ops =>
    match applyOp h op with
    | none => none
    | some h1 => runOps h1 ops

/-- The ledger after a sequence of `Add` calls, given as (text, points) pairs. -/
def addAll (h : TodoList) : List (String × Int) → TodoList
  | [] => h
  | a :: rest => addAll (Add h a.1 a.2) rest

/-! ## Bookkeeping of the ids handed out -/

/-- The ids handed out by one call: `Add` hands out the id of the task it
appends, a successful `CancelLastDelete` the id of the task it restores; no
other method assigns an id. -/
def issuedIDs (h : TodoList) : TaskOp → List Int
  | .add text points => ((Add h text points).Tasks.getLast?).toList.map Task.ID
  | .cancelLastDelete =>
    if (CancelLastDelete h).2 = none then
      ((CancelLastDelete h).1.Tasks.getLast?).toList.map Task.ID
    else
      []
  | _ => []

/-- Whether a call sets `NextID` back to 1: `ClearAllTasks` always does, `Add`
does when the active list is empty. -/
def resetsCounter (h : TodoList) : TaskOp → Bool
  | .add _ _ => decide (h.Tasks.length = 0)
  | .clearAllTasks => true
  | _ => false

/-- A ledger together with the history of the ids handed out while it was
built: all of them, and those handed out since `NextID` was last set back
to 1.  Both are oldest first. -/
structure Trace where
  ledger : TodoList
  issued : List Int
  sinceReset : List Int
deriving DecidableEq, Repr

/-- A ledger with no history. -/
def Trace.start (h : TodoList) : Trace :=
  { ledger := h, issued := [], sinceReset := [] }

/-- One call, with the history kept up to date. -/
def stepTrace (s : Trace) (op : TaskOp) : Option Trace :=
  match applyOp s.ledger op with
  | none => none
  | some h1 =>
    some { ledger := h1
           issued := s.issued ++ issuedIDs s.ledger op
           sinceReset :=
             (if resetsCounter s.ledger op then [] else s.sinceReset) ++ issuedIDs s.ledger op }

/-- A sequence of calls, with the history kept up to date. -/
def runTrace (s : Trace) : List TaskOp → Option Trace
  | [] => some s
  | op :: ops =>
    match stepTrace s op with
    | none => none
    | some s1 => runTrace s1 ops

/-- The ids of the active tasks are all below `NextID` and pairwise distinct. -/
def ActiveIDsFresh (h : TodoList) : Prop :=
  (∀ i ∈ h.Tasks.map Task.ID, i < h.NextID) ∧ (h.Tasks.map Task.ID).Nodup

/-- Every id handed out since `NextID` was last set back to 1 is below
`NextID`. -/
def SinceResetBelowNext (s : Trace) : Prop :=
  ∀ i ∈ s.sinceReset, i < s.ledger.NextID

/-- Whether, after a call, the deleted buffer holds a task that was already in
it when `NextID` was last set back to 1: `stale` is the answer before the call,
`h` the ledger before the call and `h1` the ledger after it.  A call that sets
`NextID` back leaves the buffer as it is, and only a successful
`CancelLastDelete` empties the buffer. -/
def staleAfter (stale : Bool) (h : TodoList) (op : TaskOp) (h1 : TodoList) : Bool :=
  !h1.DeletedTasks.isEmpty && (stale || resetsCounter h op)

/-- Whether, at the end of a sequence of calls, the deleted buffer holds a task
that was already in it when `NextID` was last set back to 1. -/
def runStale (stale : Bool) (h : TodoList) : List TaskOp → Bool
  | [] => stale
  | op :: ops =>
    match applyOp h op with
    | none => stale
    | some h1 => runStale (staleAfter stale h op h1) h1 ops

/-- Whether no call of a sequence sets `NextID` back to 1 while the deleted
buffer holds a task. -/
def noResetOverDeleted (h : TodoList) : List TaskOp → Bool
  | [] => true
  | op :: ops =>
    !(resetsCounter h op && !h.DeletedTasks.isEmpty) &&
      match applyOp h op with
      | none => true
      | some h1 => noResetOverDeleted h1 ops

/-- The ids of the tasks in the deleted buffer are all below `NextID`. -/
def DeletedIDsBelowNext (h : TodoList) : Prop :=
  ∀ t ∈ h.DeletedTasks, t.ID < h.NextID

/-! ## Reward ledger

`internal/models/rewardModel.go`, `utils.CalculateIsAvailableReward` and the
methods of `RewardHandler` in `internal/handlers/rewardsHandlers.go`. -/

/-- The struct `models.Reward`. -/
structure Reward where
  ID : Int
  Description : String
  PriceOfReward : Int
  IsAvailable : Bool
deriving DecidableEq, Repr

/-- The struct `models.RewardSystem`. -/
structure RewardSystem where
  Rewards : List Reward
  UserPoints : Int
  IsUserPointsUpdate : Bool
  NextID : Int
deriving DecidableEq, Repr

/-- The zero value of `models.RewardSystem`, which `loaders.LoadRewardSystem`
hands out when there is no file yet. -/
def zeroRewardSystem : RewardSystem :=
  { Rewards := [], UserPoints := 0, IsUserPointsUpdate := false, NextID := 0 }

/-- `utils.CalculateIsAvailableReward`. -/
def CalculateIsAvailableReward (userPoints : Int) (price : Int) : Int × Bool :=
  if userPoints ≥ price then
    (userPoints - price, true)
  else
    (price - userPoints, false)

/-- `RewardHandler.AddReward`. -/
def AddReward (r : RewardSystem) (desrc : String) (price : Int) : RewardSystem :=
  let r1 : RewardSystem := if r.Rewards.length = 0 then { r with NextID := 1 } else r
  let isAvailable : Bool := (CalculateIsAvailableReward r1.UserPoints price).2
  let reward : Reward :=
    { ID := r1.NextID
      Description := desrc
      PriceOfReward := price
      IsAvailable := isAvailable }
  let r2 : RewardSystem := { r1 with Rewards := r1.Rewards ++ [reward] }
  { r2 with NextID := r2.NextID + 1 }

/-- `RewardHandler.BuyRewards`.  The error text is that of
`fmt.Errorf("not enough %d points", points)`. -/
def BuyRewards (r : RewardSystem) (indexBuyElem : Nat) :
    Option (RewardSystem × Option String) :=
  match r.Rewards[indexBuyElem]? with
  | none => none
  | some reward =>
    let res : Int × Bool := CalculateIsAvailableReward r.UserPoints reward.PriceOfReward
    if res.2 then
      some ({ r with UserPoints := res.1, IsUserPointsUpdate := true }, none)
    else
      some (r, some ("not enough " ++ toString res.1 ++ " points"))

/-- The values of a Go `int` on a 64-bit platform. -/
@[reducible] def InInt64Range (x : Int) : Prop :=
  -2 ^ 63 ≤ x ∧ x < 2 ^ 63

/-- The value a Go `int` of 64 bits holds for the mathematical integer `x`: the
one integer from -2^63 to 2^63 - 1 that differs from `x` by a multiple of
2^64. -/
def wrapInt64 (x : Int) : Int :=
  (x + 2 ^ 63) % 2 ^ 64 - 2 ^ 63

/-- `utils.CalculateIsAvailableReward` with the subtraction of a 64-bit `int`,
which wraps round.  It is `CalculateIsAvailableReward` whenever the difference
is in the range of `int`. -/
def CalculateIsAvailableReward64 (userPoints : Int) (price : Int) : Int × Bool :=
  if userPoints ≥ price then
    (wrapInt64 (userPoints - price), true)
  else
    (wrapInt64 (price - userPoints), false)

/-- `RewardHandler.BuyRewards` with the subtraction of a 64-bit `int`. -/
def BuyRewards64 (r : RewardSystem) (indexBuyElem : Nat) :
    Option (RewardSystem × Option String) :=
  match r.Rewards[indexBuyElem]? with
  | none => none
  | some reward =>
    let res : Int × Bool := CalculateIsAvailableReward64 r.UserPoints reward.PriceOfReward
    if res.2 then
      some ({ r with UserPoints := res.1, IsUserPointsUpdate := true }, none)
    else
      some (r, some ("not enough " ++ toString res.1 ++ " points"))

/-- `RewardHandler.UpdateUserPoints`. -/
def UpdateUserPoints (r : RewardSystem) (countPoints : Int) : RewardSystem :=
  if countPoints > 0 ∨ countPoints < 0 then
    { r with UserPoints := r.UserPoints + countPoints, IsUserPointsUpdate := true }
  else
    r

/-- `RewardHandler.EditDesrcRewards`. -/
def EditDesrcRewards (r : RewardSystem) (indexEditElem : Nat) (newDesrc : String) :
    Option RewardSystem :=
  match r.Rewards[indexEditElem]? with
  | none => none
  | some reward =>
    some { r with Rewards := r.Rewards.set indexEditElem { reward with Description := newDesrc } }

/-- `RewardHandler.EditPriceRewards`. -/
def EditPriceRewards (r : RewardSystem) (indexEditElem : Nat) (newPrice : Int) :
    Option RewardSystem :=
  match r.Rewards[indexEditElem]? with
  | none => none
  | some reward =>
    let reward1 : Reward := { reward with PriceOfReward := newPrice }
    let reward2 : Reward :=
      { reward1 with IsAvailable := (CalculateIsAvailableReward r.UserPoints newPrice).2 }
    some { r with Rewards := r.Rewards.set indexEditElem reward2 }

/-- `RewardHandler.DeleteReward`. -/
def DeleteReward (r : RewardSystem) (indexDelElem : Nat) : Option RewardSystem :=
  if indexDelElem < r.Rewards.length then
    some { r with Rewards := r.Rewards.take indexDelElem ++ r.Rewards.drop (indexDelElem + 1) }
  else
    none

/-- `RewardHandler.UpdateIsAvailableRewards`: the loop over the indices of the
list is a `map`. -/
def UpdateIsAvailableRewards (r : RewardSystem) : RewardSystem :=
  let userPoints : Int := r.UserPoints
  let r1 : RewardSystem :=
    { r with Rewards := r.Rewards.map (fun reward =>
        { reward with
          IsAvailable := (CalculateIsAvailableReward userPoints reward.PriceOfReward).2 }) }
  { r1 with IsUserPointsUpdate := false }

/-- `RewardHandler.ClearAllRewards`. -/
def ClearAllRewards (r : RewardSystem) : RewardSystem :=
  { r with Rewards := [], NextID := 1 }

/-- `RewardHandler.ResetPoints`. -/
def ResetPoints (r : RewardSystem) : RewardSystem :=
  { r with UserPoints := 0, IsUserPointsUpdate := true }

/-- One call of a mutating method of `RewardHandler`, with its arguments. -/
inductive RewardOp where
  | addReward (desrc : String) (price : Int)
  | buyRewards (index : Nat)
  | updateUserPoints (countPoints : Int)
  | editDesrcRewards (index : Nat) (newDesrc : String)
  | editPriceRewards (index : Nat) (newPrice : Int)
  | deleteReward (index : Nat)
  | updateIsAvailableRewards
  | clearAllRewards
  | resetPoints
deriving DecidableEq, Repr

/-- The reward ledger after one call; `none` when the call indexes out of range.
A `BuyRewards` that returns an error still counts as a step. -/
def applyRewardOp (r : RewardSystem) : RewardOp → Option RewardSystem
  | .addReward desrc price => some (AddReward r desrc price)
  | .buyRewards i => (BuyRewards r i).map Prod.fst
  | .updateUserPoints n => some (UpdateUserPoints r n)
  | .editDesrcRewards i newDesrc => EditDesrcRewards r i newDesrc
  | .editPriceRewards i newPrice => EditPriceRewards r i newPrice
  | .deleteReward i => DeleteReward r i
  | .updateIsAvailableRewards => some (UpdateIsAvailableRewards r)
  | .clearAllRewards => some (ClearAllRewards r)
  | .resetPoints => some (ResetPoints r)

/-- The reward ledger after a sequence of calls, `none` if one of them indexes
out of range. -/
def runRewardOps (r : RewardSystem) : List RewardOp → Option RewardSystem
  | [] => some r
  | op :: ops =>
    match applyRewardOp r op with
    | none => none
    | some r1 => runRewardOps r1 ops

/-- The cached flag of every reward agrees with the balance. -/
def AvailabilityFresh (r : RewardSystem) : Prop :=
  ∀ reward ∈ r.Rewards, reward.IsAvailable = decide (r.UserPoints ≥ reward.PriceOfReward)

/-! ## Looking a task up by the id typed by the user

`utils.ValidateID` and `utils.CheckExistItem` of `internal/utils/helpers.go`. -/

/-- The number written by a run of decimal digits. -/
def digitsValue (ds : List Char) : Nat :=
  ds.foldl (fun acc c => 10 * acc + (c.toNat - 48)) 0

/-- `strconv.Atoi` of the Go standard library (`int` has 64 bits): an optional
sign, then one or more decimal digits and nothing else, and the value must fit;
`none` is a non-nil error. -/
def Atoi (s : String) : Option Int :=
  let cs : List Char := s.toList
  let ds : List Char :=
    match cs with
    | '+' :: rest => rest
    | '-' :: rest => rest
    | _ => cs
  if ds = [] then
    none
  else if ds.all Char.isDigit then
    let v : Int := if cs.head? = some '-' then -(digitsValue ds : Int) else (digitsValue ds : Int)
    if -(2 ^ 63) ≤ v ∧ v ≤ 2 ^ 63 - 1 then some v else none
  else
    none

/-- `utils.ValidateID`. -/
def ValidateID (idString : String) (maxIndex : Int) : Int × Option String :=
  match Atoi idString with
  | none => (-1, some "incorrect id")
  | some id =>
    if id < 1 ∨ id > maxIndex then
      (-1, some "incorrect id")
    else
      (id, none)

/-- What `utils.CheckExistItem` can be handed in its parameter of type `any`. -/
inductive SliceOfItems where
  | tasks (l : List Task)
  | rewards (l : List Reward)
  | other

/-- The `for ... range` loop of `utils.CheckExistItem` over the ids of the items,
counting from `i`: the index of the first item with the id, or -1. -/
def findIndexByID (id : Int) : List Int → Int → Int
  | [], _ => -1
  | x :: rest, i => if x = id then i else findIndexByID id rest (i + 1)

/-- `utils.CheckExistItem`. -/
def CheckExistItem (id : Int) : SliceOfItems → Int × Option String
  | .tasks l =>
    let indexElem : Int := findIndexByID id (l.map Task.ID) 0
    if indexElem = -1 then
      (-1, some ("task " ++ toString id ++ " was not found"))
    else
      (indexElem, none)
  | .rewards l =>
    let indexElem : Int := findIndexByID id (l.map Reward.ID) 0
    if indexElem = -1 then
      (-1, some ("task " ++ toString id ++ " was not found"))
    else
      (indexElem, none)
  | .other => (-1, some "give not available type of slice")

/-- The id typed by the user passes `ValidateID` against `NextID - 1` and
`CheckExistItem` finds it at index `i` of the active list: what every command on
a task does first. -/
def Resolves (h : TodoList) (arg : String) (i : Nat) : Prop :=
  ∃ id : Int, ValidateID arg (h.NextID - 1) = (id, none)
    ∧ CheckExistItem id (.tasks h.Tasks) = ((i : Int), none)

/-! ## The two files and the commands that settle points

`CompleteCmd` and `NotCompletedCmd` of `cmd/tasks/tasksCmd.go`.  A command reads
both files, works on the documents in memory and saves them.  The files are
taken to load without error; each call of `storage.Save` may fail. -/

/-- The documents in the todo file and in the reward file, as
`loaders.LoadTodoList` and `loaders.LoadRewardSystem` read them. -/
structure Disk where
  todoFile : TodoList
  rewardFile : RewardSystem
deriving DecidableEq, Repr

/-- A successful `storage.Save`: the file written and the document it received. -/
inductive FileWrite where
  | todo (doc : TodoList)
  | reward (doc : RewardSystem)
deriving DecidableEq, Repr

/-- Where a run of a command stands: the files, the saves that succeeded so far
(oldest first) and the number of calls of `storage.Save` so far. -/
structure Run where
  disk : Disk
  writes : List FileWrite
  saveCalls : Nat
deriving DecidableEq, Repr

/-- The start of a run. -/
def Run.start (d : Disk) : Run :=
  { disk := d, writes := [], saveCalls := 0 }

/-- `storage.Save` as a command sees it.  `saveErr k` is the error returned by
call number `k` of the run (`none` when it succeeds).  A call that succeeds
replaces the document in the file; a call that fails leaves the file as it
was. -/
def Save (saveErr : Nat → Option String) (s : Run) (w : FileWrite) : Run × Option String :=
  match saveErr s.saveCalls with
  | some err => ({ s with saveCalls := s.saveCalls + 1 }, some err)
  | none =>
    let disk1 : Disk :=
      match w with
      | .todo doc => { s.disk with todoFile := doc }
      | .reward doc => { s.disk with rewardFile := doc }
    ({ disk := disk1, writes := s.writes ++ [w], saveCalls := s.saveCalls + 1 }, none)

/-- The end of `CompleteCmd` (tasksCmd.go, from the save after the settlement
on): the todo list is saved, and with the delete flag the task is deleted,
after a confirmation unless the force flag is set, and the list saved again. -/
def completeCmdFinish (saveErr : Nat → Option String) (s : Run) (h : TodoList)
    (taskIndexElem : Nat) (deleteFlag forceFlag : Bool) (confirm : String) : Run :=
  match Save saveErr s (.todo h) with
  | (s1, some _) => s1
  | (s1, none) =>
    if deleteFlag then
      if !forceFlag && confirm.toLower != "y" then
        s1
      else
        match Delete h taskIndexElem with
        | none => s1
        | some h1 => (Save saveErr s1 (.todo h1)).1
    else
      s1

/-- `CompleteCmd`: the run of `complete <ID>` with the given flags; `confirm` is
the answer typed at the confirmation prompt. -/
def CompleteCmd (saveErr : Nat → Option String) (d : Disk) (arg : String)
    (deleteFlag forceFlag : Bool) (confirm : String) : Run :=
  let s0 : Run := Run.start d
  let h : TodoList := d.todoFile
  let r : RewardSystem := d.rewardFile
  match ValidateID arg (h.NextID - 1) with
  | (_, some _) => s0
  | (id, none) =>
    match CheckExistItem id (.tasks h.Tasks) with
    | (_, some _) => s0
    | (i, none) =>
      let taskIndexElem : Nat := i.toNat
      match Complete h taskIndexElem with
      | none => s0
      | some (_, some _) => s0
      | some (h1, none) =>
        match Save saveErr s0 (.todo h1) with
        | (s1, some _) => s1
        | (s1, none) =>
          if forceFlag && !deleteFlag then
            s1
          else
            match h1.Tasks[taskIndexElem]? with
            | none => s1
            | some t =>
              if !t.IsTaskPointsReceive then
                let r1 : RewardSystem := UpdateUserPoints r t.TaskPoints
                match Save saveErr s1 (.reward r1) with
                | (s2, some _) => s2
                | (s2, none) =>
                  let h2 : TodoList :=
                    { h1 with Tasks :=
                        h1.Tasks.set taskIndexElem { t with IsTaskPointsReceive := true } }
                  completeCmdFinish saveErr s2 h2 taskIndexElem deleteFlag forceFlag confirm
              else
                completeCmdFinish saveErr s1 h1 taskIndexElem deleteFlag forceFlag confirm

/-- `NotCompletedCmd`: the run of `not-complete <ID>`. -/
def NotCompletedCmd (saveErr : Nat → Option String) (d : Disk) (arg : String) : Run :=
  let s0 : Run := Run.start d
  let h : TodoList := d.todoFile
  let r : RewardSystem := d.rewardFile
  match ValidateID arg (h.NextID - 1) with
  | (_, some _) => s0
  | (id, none) =>
    match CheckExistItem id (.tasks h.Tasks) with
    | (_, some _) => s0
    | (i, none) =>
      let taskIndexElem : Nat := i.toNat
      match NotCompleted h taskIndexElem with
      | none => s0
      | some (_, some _) => s0
      | some (h1, none) =>
        match h1.Tasks[taskIndexElem]? with
        | none => s0
        | some t =>
          if t.IsTaskPointsReceive then
            let r1 : RewardSystem := UpdateUserPoints r (-(t.TaskPoints))
            match Save saveErr s0 (.reward r1) with
            | (s1, some _) => s1
            | (s1, none) =>
              let h2 : TodoList :=
                { h1 with Tasks :=
                    h1.Tasks.set taskIndexElem { t with IsTaskPointsReceive := false } }
              (Save saveErr s1 (.todo h2)).1
          else
            (Save saveErr s0 (.todo h1)).1

/-! ## Points and prices typed by the user, and the range of the ids -/

/-- `utils.ValidatePointsOrPrice`.  `atoiErr` gives the text of the error with
which `strconv.Atoi` rejects an input. -/
def ValidatePointsOrPrice (atoiErr : String → String) (countString : String) :
    Int × Option String :=
  match Atoi countString with
  | none => (-1, some ("incorrect count (" ++ atoiErr countString ++ ")"))
  | some newCount =>
    if newCount < 0 then
      (-1, some "count must be positive")
    else
      (newCount, none)

/-- The ids of the active tasks lie between 1 and `NextID - 1`, and `NextID` is
at least 1 once something sits in the deleted buffer. -/
def ActiveIDsInRange (h : TodoList) : Prop :=
  (∀ i ∈ h.Tasks.map Task.ID, 1 ≤ i ∧ i ≤ h.NextID - 1)
    ∧ (h.DeletedTasks ≠ [] → 1 ≤ h.NextID)

/-! ## Sequences of `Add` and of successful runs of `complete` and `not-complete` -/

/-- The sum of the points of the tasks that are complete. -/
def completedPoints (l : List Task) : Int :=
  ((l.filter (fun t => t.IsComplete)).map Task.TaskPoints).sum

/-- One step on the two files: a call of `Add` whose result is saved, a run of
`complete` without flags that ends well (the id resolves to a pending task and
every save succeeds), or a run of `not-complete` that ends well (the id resolves
to a completed task and every save succeeds). -/
inductive FlowStep : Disk → Disk → Prop where
  | add (d : Disk) (text : String) (points : Int) :
      FlowStep d { d with todoFile := Add d.todoFile text points }
  | complete (d : Disk) (saveErr : Nat → Option String) (arg confirm : String) (i : Nat)
      (t : Task) (hsave : ∀ k, saveErr k = none) (hres : Resolves d.todoFile arg i)
      (ht : d.todoFile.Tasks[i]? = some t) (hp : t.IsComplete = false) :
      FlowStep d (CompleteCmd saveErr d arg false false confirm).disk
  | notComplete (d : Disk) (saveErr : Nat → Option String) (arg : String) (i : Nat)
      (t : Task) (hsave : ∀ k, saveErr k = none) (hres : Resolves d.todoFile arg i)
      (ht : d.todoFile.Tasks[i]? = some t) (hc : t.IsComplete = true) :
      FlowStep d (NotCompletedCmd saveErr d arg).disk

/-- The files reached from `d0` by a sequence of such steps. -/
inductive FlowReachable (d0 : Disk) : Disk → Prop where
  | start : FlowReachable d0 d0
  | step {d d1 : Disk} : FlowReachable d0 d → FlowStep d d1 → FlowReachable d0 d1

/-- Every active task is settled exactly when it is complete, and the balance
is the sum of the points of the completed tasks. -/
def SettledAndPaid (d : Disk) : Prop :=
  (∀ t ∈ d.todoFile.Tasks, t.IsTaskPointsReceive = t.IsComplete)
    ∧ d.rewardFile.UserPoints = completedPoints d.todoFile.Tasks

/-! ## Storage

`internal/storage/storage.go` and `internal/loaders/loaders.go`.  What the
operating system and the lock return is passed in as arguments.  `encoding/json`
of the Go standard library is modelled from its documentation and its source:
reading is in two layers, `parseJSON` from the bytes of a JSON text to a JSON
value and `unmarshalTodoList`, `unmarshalRewardSystem` from a JSON value to a
document by the `json` tags of the structs of `internal/models`; writing is
`marshalIndentTodoList` and `marshalIndentRewardSystem`, from a document to the
bytes `json.MarshalIndent(data, "", "  ")` lays out. -/

/-- A JSON value.  A number that is a whole number in the range of `int` is
`number`; any other number is `otherNumber` with its text. -/
inductive JSON where
  | null
  | bool (b : Bool)
  | number (n : Int)
  | otherNumber (text : String)
  | string (s : String)
  | array (items : List JSON)
  | object (members : List (String × JSON))

/-- The JSON value `json.MarshalIndent` writes for a slice: `null` for the nil
slice, an array otherwise.  `isNil` tells a nil slice from an empty one, which a
`List` cannot. -/
def sliceToJSON (isNil : Bool) (items : List JSON) : JSON :=
  if isNil && items.isEmpty then .null else .array items

/-- The JSON value of a `models.Task`, by its `json` tags. -/
def Task.toJSON (t : Task) : JSON :=
  .object [("id", .number t.ID), ("text", .string t.Text), ("isComplete", .bool t.IsComplete),
    ("taskPoints", .number t.TaskPoints),
    ("isTaskPointsReceive", .bool t.IsTaskPointsReceive)]

/-- The JSON value of a `models.TodoList`, by its `json` tags. -/
def TodoList.toJSON (nilTasks nilDeleted : Bool) (h : TodoList) : JSON :=
  .object [("tasks", sliceToJSON nilTasks (h.Tasks.map Task.toJSON)),
    ("deletedTasks", sliceToJSON nilDeleted (h.DeletedTasks.map Task.toJSON)),
    ("nextId", .number h.NextID)]

/-- The JSON value of a `models.Reward`, by its `json` tags. -/
def Reward.toJSON (r : Reward) : JSON :=
  .object [("id", .number r.ID), ("description", .string r.Description),
    ("priceOfReward", .number r.PriceOfReward), ("isAvailable", .bool r.IsAvailable)]

/-- The JSON value of a `models.RewardSystem`, by its `json` tags. -/
def RewardSystem.toJSON (nilRewards : Bool) (r : RewardSystem) : JSON :=
  .object [("rewards", sliceToJSON nilRewards (r.Rewards.map Reward.toJSON)),
    ("userPoints", .number r.UserPoints),
    ("isUserPointsUpdate", .bool r.IsUserPointsUpdate), ("nextId", .number r.NextID)]

/-- `json.Unmarshal` of a JSON value into an `int`: a whole number is stored,
`null` has no effect, anything else is skipped and reported. -/
def unmarshalInt (v : JSON) (old : Int) : Int × Option String :=
  match v with
  | .number n => (n, none)
  | .null => (old, none)
  | _ => (old, some "json: cannot unmarshal into Go value of type int")

/-- `json.Unmarshal` of a JSON value into a `string`. -/
def unmarshalString (v : JSON) (old : String) : String × Option String :=
  match v with
  | .string s => (s, none)
  | .null => (old, none)
  | _ => (old, some "json: cannot unmarshal into Go value of type string")

/-- `json.Unmarshal` of a JSON value into a `bool`. -/
def unmarshalBool (v : JSON) (old : Bool) : Bool × Option String :=
  match v with
  | .bool b => (b, none)
  | .null => (old, none)
  | _ => (old, some "json: cannot unmarshal into Go value of type bool")

/-- The earliest of two errors. -/
def firstError (e1 e2 : Option String) : Option String :=
  match e1 with
  | some e => some e
  | none => e2

/-- `json.Unmarshal` of one member of a JSON object into a `models.Task`: the
key selects the field by its `json` tag, a key without a field is ignored.
(Keys are compared exactly; `encoding/json` also takes a key that differs from
the tag in letter case, which `json.MarshalIndent` never writes.) -/
def unmarshalTaskMember (acc : Task × Option String) (member : String × JSON) :
    Task × Option String :=
  let t : Task := acc.1
  if member.1 = "id" then
    ({ t with ID := (unmarshalInt member.2 t.ID).1 },
      firstError acc.2 (unmarshalInt member.2 t.ID).2)
  else if member.1 = "text" then
    ({ t with Text := (unmarshalString member.2 t.Text).1 },
      firstError acc.2 (unmarshalString member.2 t.Text).2)
  else if member.1 = "isComplete" then
    ({ t with IsComplete := (unmarshalBool member.2 t.IsComplete).1 },
      firstError acc.2 (unmarshalBool member.2 t.IsComplete).2)
  else if member.1 = "taskPoints" then
    ({ t with TaskPoints := (unmarshalInt member.2 t.TaskPoints).1 },
      firstError acc.2 (unmarshalInt member.2 t.TaskPoints).2)
  else if member.1 = "isTaskPointsReceive" then
    ({ t with IsTaskPointsReceive := (unmarshalBool member.2 t.IsTaskPointsReceive).1 },
      firstError acc.2 (unmarshalBool member.2 t.IsTaskPointsReceive).2)
  else
    acc

/-- `json.Unmarshal` of a JSON value into a `models.Task`. -/
def unmarshalTask (v : JSON) (old : Task) : Task × Option String :=
  match v with
  | .object members => members.foldl unmarshalTaskMember (old, none)
  | .null => (old, none)
  | _ => (old, some "json: cannot unmarshal into Go value of type models.Task")

/-- `json.Unmarshal` of the elements of a JSON array into a slice of tasks that
starts empty: every element is decoded into a zero value and appended. -/
def unmarshalTaskItems : List JSON → List Task × Option String
  | [] => ([], none)
  | item :: rest =>
    let first : Task × Option String := unmarshalTask item ⟨0, "", false, 0, false⟩
    let others : List Task × Option String := unmarshalTaskItems rest
    (first.1 :: others.1, firstError first.2 others.2)

/-- `json.Unmarshal` of a JSON value into a `[]models.Task`: an array replaces
the slice, `null` makes it nil. -/
def unmarshalTaskSlice (v : JSON) (old : List Task) : List Task × Option String :=
  match v with
  | .array items => unmarshalTaskItems items
  | .null => ([], none)
  | _ => (old, some "json: cannot unmarshal into Go value of type []models.Task")

/-- `json.Unmarshal` of one member of a JSON object into a `models.TodoList`. -/
def unmarshalTodoListMember (acc : TodoList × Option String) (member : String × JSON) :
    TodoList × Option String :=
  let h : TodoList := acc.1
  if member.1 = "tasks" then
    ({ h with Tasks := (unmarshalTaskSlice member.2 h.Tasks).1 },
      firstError acc.2 (unmarshalTaskSlice member.2 h.Tasks).2)
  else if member.1 = "deletedTasks" then
    ({ h with DeletedTasks := (unmarshalTaskSlice member.2 h.DeletedTasks).1 },
      firstError acc.2 (unmarshalTaskSlice member.2 h.DeletedTasks).2)
  else if member.1 = "nextId" then
    ({ h with NextID := (unmarshalInt member.2 h.NextID).1 },
      firstError acc.2 (unmarshalInt member.2 h.NextID).2)
  else
    acc

/-- `json.Unmarshal` of a JSON value into a `models.TodoList`. -/
def unmarshalTodoList (v : JSON) (old : TodoList) : TodoList × Option String :=
  match v with
  | .object members => members.foldl unmarshalTodoListMember (old, none)
  | .null => (old, none)
  | _ => (old, some "json: cannot unmarshal into Go value of type models.TodoList")

/-- `json.Unmarshal` of one member of a JSON object into a `models.Reward`. -/
def unmarshalRewardMember (acc : Reward × Option String) (member : String × JSON) :
    Reward × Option String :=
  let r : Reward := acc.1
  if member.1 = "id" then
    ({ r with ID := (unmarshalInt member.2 r.ID).1 },
      firstError acc.2 (unmarshalInt member.2 r.ID).2)
  else if member.1 = "description" then
    ({ r with Description := (unmarshalString member.2 r.Description).1 },
      firstError acc.2 (unmarshalString member.2 r.Description).2)
  else if member.1 = "priceOfReward" then
    ({ r with PriceOfReward := (unmarshalInt member.2 r.PriceOfReward).1 },
      firstError acc.2 (unmarshalInt member.2 r.PriceOfReward).2)
  else if member.1 = "isAvailable" then
    ({ r with IsAvailable := (unmarshalBool member.2 r.IsAvailable).1 },
      firstError acc.2 (unmarshalBool member.2 r.IsAvailable).2)
  else
    acc

/-- `json.Unmarshal` of a JSON value into a `models.Reward`. -/
def unmarshalReward (v : JSON) (old : Reward) : Reward × Option String :=
  match v with
  | .object members => members.foldl unmarshalRewardMember (old, none)
  | .null => (old, none)
  | _ => (old, some "json: cannot unmarshal into Go value of type models.Reward")

/-- `json.Unmarshal` of the elements of a JSON array into a slice of rewards
that starts empty. -/
def unmarshalRewardItems : List JSON → List Reward × Option String
  | [] => ([], none)
  | item :: rest =>
    let first : Reward × Option String := unmarshalReward item ⟨0, "", 0, false⟩
    let others : List Reward × Option String := unmarshalRewardItems rest
    (first.1 :: others.1, firstError first.2 others.2)

/-- `json.Unmarshal` of a JSON value into a `[]models.Reward`. -/
def unmarshalRewardSlice (v : JSON) (old : List Reward) : List Reward × Option String :=
  match v with
  | .array items => unmarshalRewardItems items
  | .null => ([], none)
  | _ => (old, some "json: cannot unmarshal into Go value of type []models.Reward")

/-- `json.Unmarshal` of one member of a JSON object into a
`models.RewardSystem`. -/
def unmarshalRewardSystemMember (acc : RewardSystem × Option String)
    (member : String × JSON) : RewardSystem × Option String :=
  let r : RewardSystem := acc.1
  if member.1 = "rewards" then
    ({ r with Rewards := (unmarshalRewardSlice member.2 r.Rewards).1 },
      firstError acc.2 (unmarshalRewardSlice member.2 r.Rewards).2)
  else if member.1 = "userPoints" then
    ({ r with UserPoints := (unmarshalInt member.2 r.UserPoints).1 },
      firstError acc.2 (unmarshalInt member.2 r.UserPoints).2)
  else if member.1 = "isUserPointsUpdate" then
    ({ r with IsUserPointsUpdate := (unmarshalBool member.2 r.IsUserPointsUpdate).1 },
      firstError acc.2 (unmarshalBool member.2 r.IsUserPointsUpdate).2)
  else if member.1 = "nextId" then
    ({ r with NextID := (unmarshalInt member.2 r.NextID).1 },
      firstError acc.2 (unmarshalInt member.2 r.NextID).2)
  else
    acc

/-- `json.Unmarshal` of a JSON value into a `models.RewardSystem`. -/
def unmarshalRewardSystem (v : JSON) (old : RewardSystem) : RewardSystem × Option String :=
  match v with
  | .object members => members.foldl unmarshalRewardSystemMember (old, none)
  | .null => (old, none)
  | _ => (old, some "json: cannot unmarshal into Go value of type models.RewardSystem")

/-- `json.Unmarshal`: bytes that are not a JSON text are an error and leave the
document as it is; otherwise the value is decoded into the document. -/
def Unmarshal {α : Type} (parse : List UInt8 → Option JSON)
    (decode : JSON → α → α × Option String) (fileData : List UInt8) (data : α) :
    α × Option String :=
  match parse fileData with
  | none => (data, some "invalid character looking for beginning of value")
  | some v => decode v data

/-- What `os.ReadFile` returns: the bytes of the file, an error for which
`os.IsNotExist` holds, or another error. -/
inductive ReadFileResult where
  | data (fileData : List UInt8)
  | notExist (err : String)
  | failed (err : String)

/-- `storage.Load`.  `lock` is what `lock.TryRLock()` returns, `file` what
`os.ReadFile(filename)` returns, `unmarshal` is `json.Unmarshal` at the type of
the document. -/
def storage.Load {α : Type} (unmarshal : List UInt8 → α → α × Option String)
    (lock : Bool × Option String) (file : ReadFileResult) (data : α) : α × Option String :=
  match lock with
  | (_, some err) => (data, some err)
  | (false, none) => (data, some "file is locked by another process")
  | (true, none) =>
    match file with
    | .failed err => (data, some err)
    | .notExist _ => (data, none)
    | .data fileData =>
      if fileData.length = 0 then
        (data, none)
      else
        unmarshal fileData data

/-- `loaders.LoadTodoList`: the document returned (`none` is the nil pointer)
and the error. -/
def LoadTodoList (unmarshal : List UInt8 → TodoList → TodoList × Option String)
    (lock : Bool × Option String) (file : ReadFileResult) (filePath : String) :
    Option TodoList × Option String :=
  match storage.Load unmarshal lock file zeroTodoList with
  | (_, some err) => (none, some ("failed to load todo list from " ++ filePath ++ ": " ++ err))
  | (todoList, none) => (some todoList, none)

/-- `loaders.LoadRewardSystem`. -/
def LoadRewardSystem (unmarshal : List UInt8 → RewardSystem → RewardSystem × Option String)
    (lock : Bool × Option String) (file : ReadFileResult) (filePath : String) :
    Option RewardSystem × Option String :=
  match storage.Load unmarshal lock file zeroRewardSystem with
  | (_, some err) =>
    (none, some ("failed to load reward system from " ++ filePath ++ ": " ++ err))
  | (rewardSystem, none) => (some rewardSystem, none)

/-- The files of a directory: the bytes at each path that exists. -/
def Files : Type := String → Option (List UInt8)

/-- `os.ReadFile` on files that can all be read. -/
def readFile (fs : Files) (filename : String) : ReadFileResult :=
  match fs filename with
  | none => .notExist ("open " ++ filename ++ ": no such file or directory")
  | some fileData => .data fileData

/-- What the system returns to one call of `storage.Save`: the result of
`lock.TryLock()`, the error of `os.WriteFile` with what a failed write leaves in
the temporary file, and the error of `os.Rename`. -/
structure SaveEnv where
  lock : Bool × Option String
  writeErr : Option String
  leftByFailedWrite : Option (List UInt8)
  renameErr : Option String

/-- `storage.Save`.  `marshalIndent` is `json.MarshalIndent(data, "", "  ")` at
the type of the document. -/
def storage.Save {α : Type} (marshalIndent : α → List UInt8 × Option String) (env : SaveEnv)
    (fs : Files) (filename : String) (data : α) : Files × Option String :=
  match env.lock with
  | (_, some err) => (fs, some err)
  | (false, none) => (fs, some "file is locked by another process")
  | (true, none) =>
    match marshalIndent data with
    | (_, some err) => (fs, some err)
    | (fileData, none) =>
      let tmpFile : String := filename ++ ".tmp"
      match env.writeErr with
      | some err =>
        ((fun path => if path = tmpFile then env.leftByFailedWrite else fs path), some err)
      | none =>
        let fs1 : Files := fun path => if path = tmpFile then some fileData else fs path
        match env.renameErr with
        | some err => (fs1, some err)
        | none =>
          ((fun path =>
              if path = filename then some fileData
              else if path = tmpFile then none
              else fs1 path), none)

/-! ## The bytes of a document

UTF-8 (`unicode/utf8`), the text `json.MarshalIndent` writes for a document and
the JSON value `json.Unmarshal` reads from a text. -/

/-- The UTF-8 encoding of a character (`utf8.AppendRune`). -/
def utf8EncodeChar (c : Char) : List UInt8 :=
  let n : Nat := c.toNat
  if n < 0x80 then
    [UInt8.ofNat n]
  else if n < 0x800 then
    [UInt8.ofNat (0xC0 + n / 64), UInt8.ofNat (0x80 + n % 64)]
  else if n < 0x10000 then
    [UInt8.ofNat (0xE0 + n / 4096), UInt8.ofNat (0x80 + n / 64 % 64), UInt8.ofNat (0x80 + n % 64)]
  else
    [UInt8.ofNat (0xF0 + n / 262144), UInt8.ofNat (0x80 + n / 4096 % 64),
      UInt8.ofNat (0x80 + n / 64 % 64), UInt8.ofNat (0x80 + n % 64)]

/-- Whether a byte is a continuation byte, `10xxxxxx`. -/
def isContinuation (b : UInt8) : Bool :=
  decide (0x80 ≤ b.toNat ∧ b.toNat ≤ 0xBF)

/-- `utf8.DecodeRune` -/
def decodeRune (p : List UInt8) : Option (Char × Nat) :=
  match p with
  | [] => none
  | b0 :: rest0 =>
    let n0 : Nat := b0.toNat
    if n0 < 0x80 then
      some (Char.ofNat n0, 1)
    else if 0xC2 ≤ n0 ∧ n0 ≤ 0xDF then
      match rest0 with
      | b1 :: _ =>
        if isContinuation b1 then
          some (Char.ofNat ((n0 - 0xC0) * 64 + (b1.toNat - 0x80)), 2)
        else none
      | _ => none
    else if 0xE0 ≤ n0 ∧ n0 ≤ 0xEF then
      match rest0 with
      | b1 :: b2 :: _ =>
        if (if n0 = 0xE0 then 0xA0 else 0x80) ≤ b1.toNat
            ∧ b1.toNat ≤ (if n0 = 0xED then 0x9F else 0xBF) ∧ isContinuation b2 then
          some (Char.ofNat ((n0 - 0xE0) * 4096 + (b1.toNat - 0x80) * 64 + (b2.toNat - 0x80)), 3)
        else none
      | _ => none
    else if 0xF0 ≤ n0 ∧ n0 ≤ 0xF4 then
      match rest0 with
      | b1 :: b2 :: b3 :: _ =>
        if (if n0 = 0xF0 then 0x90 else 0x80) ≤ b1.toNat
            ∧ b1.toNat ≤ (if n0 = 0xF4 then 0x8F else 0xBF) ∧ isContinuation b2
            ∧ isContinuation b3 then
          some (Char.ofNat ((n0 - 0xF0) * 262144 + (b1.toNat - 0x80) * 4096
            + (b2.toNat - 0x80) * 64 + (b3.toNat - 0x80)), 4)
        else none
      | _ => none
    else
      none

/-- The UTF-8 encoding of a text. -/
def utf8Encode (s : String) : List UInt8 :=
  s.data.flatMap utf8EncodeChar

/-- The struct `models.Task` as the program holds it: the text is a Go `string`,
a sequence of bytes that need not be UTF-8.  `Task` is the same with a text that
is valid UTF-8, held as the `String` it encodes. -/
structure RawTask where
  ID : Int
  Text : List UInt8
  IsComplete : Bool
  TaskPoints : Int
  IsTaskPointsReceive : Bool
deriving DecidableEq, Repr

/-- The struct `models.TodoList` as the program holds it. -/
structure RawTodoList where
  Tasks : List RawTask
  DeletedTasks : List RawTask
  NextID : Int
deriving DecidableEq, Repr

/-- The struct `models.Reward` as the program holds it. -/
structure RawReward where
  ID : Int
  Description : List UInt8
  PriceOfReward : Int
  IsAvailable : Bool
deriving DecidableEq, Repr

/-- The struct `models.RewardSystem` as the program holds it. -/
structure RawRewardSystem where
  Rewards : List RawReward
  UserPoints : Int
  IsUserPointsUpdate : Bool
  NextID : Int
deriving DecidableEq, Repr

/-- A task with a valid text, as the program holds it. -/
def Task.toRaw (t : Task) : RawTask :=
  { ID := t.ID
    Text := utf8Encode t.Text
    IsComplete := t.IsComplete
    TaskPoints := t.TaskPoints
    IsTaskPointsReceive := t.IsTaskPointsReceive }

/-- A task ledger with valid texts, as the program holds it. -/
def TodoList.toRaw (h : TodoList) : RawTodoList :=
  { Tasks := h.Tasks.map Task.toRaw
    DeletedTasks := h.DeletedTasks.map Task.toRaw
    NextID := h.NextID }

/-- A reward with a valid description, as the program holds it. -/
def Reward.toRaw (r : Reward) : RawReward :=
  { ID := r.ID
    Description := utf8Encode r.Description
    PriceOfReward := r.PriceOfReward
    IsAvailable := r.IsAvailable }

/-- A reward ledger with valid descriptions, as the program holds it. -/
def RewardSystem.toRaw (r : RewardSystem) : RawRewardSystem :=
  { Rewards := r.Rewards.map Reward.toRaw
    UserPoints := r.UserPoints
    IsUserPointsUpdate := r.IsUserPointsUpdate
    NextID := r.NextID }

/-- The characters a byte string encodes when it is valid UTF-8; `none` when
some byte does not start a valid sequence, which is when `utf8.Valid` reports
false. -/
def utf8DecodeChars : Nat → List UInt8 → Option (List Char)
  | _, [] => some []
  | 0, _ :: _ => none
  | fuel + 1, b :: rest =>
    match decodeRune (b :: rest) with
    | none => none
    | some (c, size) =>
      match utf8DecodeChars fuel ((b :: rest).drop size) with
      | none => none
      | some cs => some (c :: cs)

/-- The text a Go `string` holds when it is valid UTF-8; `none` otherwise. -/
def utf8Decode (bs : List UInt8) : Option String :=
  match utf8DecodeChars bs.length bs with
  | none => none
  | some cs => some (String.mk cs)

/-- The task with its text read as UTF-8; `none` when the text is not valid
UTF-8. -/
def RawTask.toTask? (t : RawTask) : Option Task :=
  match utf8Decode t.Text with
  | none => none
  | some text =>
    some { ID := t.ID
           Text := text
           IsComplete := t.IsComplete
           TaskPoints := t.TaskPoints
           IsTaskPointsReceive := t.IsTaskPointsReceive }

/-- The tasks with their texts read as UTF-8; `none` when a text is not valid
UTF-8. -/
def toTasks? : List RawTask → Option (List Task)
  | [] => some []
  | t :: rest =>
    match t.toTask?, toTasks? rest with
    | some x, some xs => some (x :: xs)
    | _, _ => none

/-- The task ledger with its texts read as UTF-8; `none` when a text is not
valid UTF-8. -/
def RawTodoList.toTodoList? (h : RawTodoList) : Option TodoList :=
  match toTasks? h.Tasks, toTasks? h.DeletedTasks with
  | some tasks, some deleted => some { Tasks := tasks, DeletedTasks := deleted, NextID := h.NextID }
  | _, _ => none

/-- The reward with its description read as UTF-8; `none` when the description
is not valid UTF-8. -/
def RawReward.toReward? (r : RawReward) : Option Reward :=
  match utf8Decode r.Description with
  | none => none
  | some description =>
    some { ID := r.ID
           Description := description
           PriceOfReward := r.PriceOfReward
           IsAvailable := r.IsAvailable }

/-- The rewards with their descriptions read as UTF-8; `none` when a
description is not valid UTF-8. -/
def toRewards? : List RawReward → Option (List Reward)
  | [] => some []
  | r :: rest =>
    match r.toReward?, toRewards? rest with
    | some x, some xs => some (x :: xs)
    | _, _ => none

/-- The reward ledger with its descriptions read as UTF-8; `none` when a
description is not valid UTF-8. -/
def RawRewardSystem.toRewardSystem? (r : RawRewardSystem) : Option RewardSystem :=
  match toRewards? r.Rewards with
  | some rewards =>
    some { Rewards := rewards
           UserPoints := r.UserPoints
           IsUserPointsUpdate := r.IsUserPointsUpdate
           NextID := r.NextID }
  | none => none

/-- The lower-case hexadecimal digit of a number below 16. -/
def hexDigit (n : Nat) : UInt8 :=
  if n < 10 then UInt8.ofNat (48 + n) else UInt8.ofNat (87 + n)

/-- What `encoding/json` writes inside a JSON string for a byte below 0x80: a
two-byte escape for the quote, the backslash and the control characters that
have one, `\u00XX` for the other control characters and for `<`, `>` and `&`,
the byte itself otherwise.  (Releases of Go before 1.22 write `\u0008` and
`\u000c` where later ones write `\b` and `\f`; both read back the same.) -/
def appendASCII (b : UInt8) : List UInt8 :=
  let n : Nat := b.toNat
  if n = 0x22 ∨ n = 0x5C then [0x5C, b]
  else if n = 0x08 then [0x5C, 0x62]
  else if n = 0x0C then [0x5C, 0x66]
  else if n = 0x0A then [0x5C, 0x6E]
  else if n = 0x0D then [0x5C, 0x72]
  else if n = 0x09 then [0x5C, 0x74]
  else if n < 0x20 ∨ n = 0x3C ∨ n = 0x3E ∨ n = 0x26 then
    [0x5C, 0x75, 0x30, 0x30, hexDigit (n / 16), hexDigit (n % 16)]
  else [b]

/-- The loop of `appendString` of `encoding/json`: a byte below 0x80 is written
by `appendASCII`; a byte that does not start a valid UTF-8 sequence is written
as the escape of U+FFFD (a backslash, `u`, `fffd`); U+2028 and U+2029 are
written as their escapes; the bytes of any other character are copied. -/
def appendStringBody : Nat → List UInt8 → List UInt8
  | 0, _ => []
  | fuel + 1, src =>
    match src with
    | [] => []
    | b :: rest =>
      if b.toNat < 0x80 then
        appendASCII b ++ appendStringBody fuel rest
      else
        match decodeRune src with
        | none => [0x5C, 0x75, 0x66, 0x66, 0x66, 0x64] ++ appendStringBody fuel rest
        | some (c, size) =>
          if c.toNat = 0x2028 ∨ c.toNat = 0x2029 then
            [0x5C, 0x75, 0x32, 0x30, 0x32, hexDigit (c.toNat % 16)]
              ++ appendStringBody fuel (src.drop size)
          else
            src.take size ++ appendStringBody fuel (src.drop size)

/-- The JSON string `encoding/json` writes for a Go `string`. -/
def appendString (src : List UInt8) : List UInt8 :=
  [0x22] ++ appendStringBody src.length src ++ [0x22]

/-- The decimal digits of a natural number, most significant first. -/
def decimalDigits : Nat → Nat → List UInt8
  | 0, _ => []
  | fuel + 1, n =>
    if n < 10 then [UInt8.ofNat (48 + n)]
    else decimalDigits fuel (n / 10) ++ [UInt8.ofNat (48 + n % 10)]

/-- The JSON number `encoding/json` writes for an `int` (`strconv.AppendInt`). -/
def appendInt (n : Int) : List UInt8 :=
  if n < 0 then [0x2D] ++ decimalDigits (n.natAbs + 1) n.natAbs
  else decimalDigits (n.natAbs + 1) n.natAbs

/-- The JSON literal `encoding/json` writes for a `bool`. -/
def appendBool (b : Bool) : List UInt8 :=
  if b then [0x74, 0x72, 0x75, 0x65] else [0x66, 0x61, 0x6C, 0x73, 0x65]

/-- The JSON literal `null`. -/
def nullBytes : List UInt8 :=
  [0x6E, 0x75, 0x6C, 0x6C]

/-- A line break and the indentation of `json.MarshalIndent(data, "", "  ")` at
a depth. -/
def newlineIndent (depth : Nat) : List UInt8 :=
  [0x0A] ++ List.replicate (2 * depth) 0x20

/-- The members of a JSON object as `json.MarshalIndent` lays them out, each on
a line of its own: the key, a colon, a space, the value. -/
def marshalMembers (depth : Nat) : List (String × List UInt8) → List UInt8
  | [] => []
  | m :: rest =>
    newlineIndent (depth + 1) ++ appendString (utf8Encode m.1) ++ [0x3A, 0x20] ++ m.2
      ++ (if rest.isEmpty then [] else [0x2C]) ++ marshalMembers depth rest

/-- A JSON object as `json.MarshalIndent` lays it out. -/
def marshalObject (depth : Nat) (members : List (String × List UInt8)) : List UInt8 :=
  if members.isEmpty then [0x7B, 0x7D]
  else [0x7B] ++ marshalMembers depth members ++ newlineIndent depth ++ [0x7D]

/-- The elements of a JSON array as `json.MarshalIndent` lays them out, each on
a line of its own. -/
def marshalItems (depth : Nat) : List (List UInt8) → List UInt8
  | [] => []
  | item :: rest =>
    newlineIndent (depth + 1) ++ item ++ (if rest.isEmpty then [] else [0x2C])
      ++ marshalItems depth rest

/-- A JSON array as `json.MarshalIndent` lays it out. -/
def marshalArray (depth : Nat) (items : List (List UInt8)) : List UInt8 :=
  if items.isEmpty then [0x5B, 0x5D]
  else [0x5B] ++ marshalItems depth items ++ newlineIndent depth ++ [0x5D]

/-- What `json.MarshalIndent` writes for a `models.Task` at a depth. -/
def marshalTask (depth : Nat) (t : RawTask) : List UInt8 :=
  marshalObject depth
    [("id", appendInt t.ID), ("text", appendString t.Text),
      ("isComplete", appendBool t.IsComplete), ("taskPoints", appendInt t.TaskPoints),
      ("isTaskPointsReceive", appendBool t.IsTaskPointsReceive)]

/-- What `json.MarshalIndent` writes for a `[]models.Task` at a depth: `null`
for the nil slice, an array otherwise. -/
def marshalTaskSlice (depth : Nat) (isNil : Bool) (l : List RawTask) : List UInt8 :=
  if isNil && l.isEmpty then nullBytes else marshalArray depth (l.map (marshalTask (depth + 1)))

/-- What `json.MarshalIndent` writes for a `models.Reward` at a depth. -/
def marshalReward (depth : Nat) (r : RawReward) : List UInt8 :=
  marshalObject depth
    [("id", appendInt r.ID), ("description", appendString r.Description),
      ("priceOfReward", appendInt r.PriceOfReward), ("isAvailable", appendBool r.IsAvailable)]

/-- What `json.MarshalIndent` writes for a `[]models.Reward` at a depth. -/
def marshalRewardSlice (depth : Nat) (isNil : Bool) (l : List RawReward) : List UInt8 :=
  if isNil && l.isEmpty then nullBytes
  else marshalArray depth (l.map (marshalReward (depth + 1)))

/-- `json.MarshalIndent(data, "", "  ")` at the type `models.TodoList`: it has no
error there.  `nilTasks` and `nilDeleted` tell a nil slice from an empty one. -/
def marshalIndentTodoList (nilTasks nilDeleted : Bool) (h : RawTodoList) :
    List UInt8 × Option String :=
  (marshalObject 0
    [("tasks", marshalTaskSlice 1 nilTasks h.Tasks),
      ("deletedTasks", marshalTaskSlice 1 nilDeleted h.DeletedTasks),
      ("nextId", appendInt h.NextID)], none)

/-- `json.MarshalIndent(data, "", "  ")` at the type `models.RewardSystem`. -/
def marshalIndentRewardSystem (nilRewards : Bool) (r : RawRewardSystem) :
    List UInt8 × Option String :=
  (marshalObject 0
    [("rewards", marshalRewardSlice 1 nilRewards r.Rewards),
      ("userPoints", appendInt r.UserPoints),
      ("isUserPointsUpdate", appendBool r.IsUserPointsUpdate),
      ("nextId", appendInt r.NextID)], none)

/-- Whether a byte is JSON white space. -/
def isSpace (b : UInt8) : Bool :=
  decide (b.toNat = 0x20 ∨ b.toNat = 0x0A ∨ b.toNat = 0x0D ∨ b.toNat = 0x09)

/-- The input without its leading white space. -/
def skipSpace : List UInt8 → List UInt8
  | [] => []
  | b :: rest => if isSpace b then skipSpace rest else b :: rest

/-- The value of a hexadecimal digit. -/
def hexValue (b : UInt8) : Option Nat :=
  let n : Nat := b.toNat
  if 48 ≤ n ∧ n ≤ 57 then some (n - 48)
  else if 97 ≤ n ∧ n ≤ 102 then some (n - 87)
  else if 65 ≤ n ∧ n ≤ 70 then some (n - 55)
  else none

/-- The number written by four hexadecimal digits at the head of the input, and
the input after them. -/
def parseHex4 : List UInt8 → Option (Nat × List UInt8)
  | a :: b :: c :: d :: rest =>
    match hexValue a, hexValue b, hexValue c, hexValue d with
    | some x, some y, some z, some w => some (x * 4096 + y * 256 + z * 16 + w, rest)
    | _, _, _, _ => none
  | _ => none

/-- The character of a `\uXXXX` escape with the number `u`, and the input after
it: a high surrogate followed by the escape of a low surrogate is the character
of the pair, any other surrogate is U+FFFD. -/
def unescapeUnicode (u : Nat) (rest : List UInt8) : Char × List UInt8 :=
  if 0xD800 ≤ u ∧ u < 0xDC00 then
    match rest with
    | b0 :: b1 :: rest1 =>
      if b0.toNat = 0x5C ∧ b1.toNat = 0x75 then
        match parseHex4 rest1 with
        | some (u2, rest2) =>
          if 0xDC00 ≤ u2 ∧ u2 < 0xE000 then
            (Char.ofNat (0x10000 + (u - 0xD800) * 1024 + (u2 - 0xDC00)), rest2)
          else (Char.ofNat 0xFFFD, rest)
        | none => (Char.ofNat 0xFFFD, rest)
      else (Char.ofNat 0xFFFD, rest)
    | _ => (Char.ofNat 0xFFFD, rest)
  else if 0xDC00 ≤ u ∧ u < 0xE000 then (Char.ofNat 0xFFFD, rest)
  else (Char.ofNat u, rest)

/-- The text of a JSON string and the input after its closing quote, read from
the input after the opening quote (`unquote` of `encoding/json`).  `acc` holds
the characters read so far, last first.  A control character, an unknown escape
and a missing closing quote are errors; a byte that does not start a valid UTF-8
sequence reads as U+FFFD. -/
def parseStringBody : Nat → List UInt8 → List Char → Option (String × List UInt8)
  | 0, _, _ => none
  | fuel + 1, input, acc =>
    match input with
    | [] => none
    | b :: rest =>
      if b.toNat = 0x22 then some (String.mk acc.reverse, rest)
      else if b.toNat = 0x5C then
        match rest with
        | [] => none
        | e :: rest1 =>
          if e.toNat = 0x22 then parseStringBody fuel rest1 (Char.ofNat 0x22 :: acc)
          else if e.toNat = 0x5C then parseStringBody fuel rest1 (Char.ofNat 0x5C :: acc)
          else if e.toNat = 0x2F then parseStringBody fuel rest1 (Char.ofNat 0x2F :: acc)
          else if e.toNat = 0x62 then parseStringBody fuel rest1 (Char.ofNat 0x08 :: acc)
          else if e.toNat = 0x66 then parseStringBody fuel rest1 (Char.ofNat 0x0C :: acc)
          else if e.toNat = 0x6E then parseStringBody fuel rest1 (Char.ofNat 0x0A :: acc)
          else if e.toNat = 0x72 then parseStringBody fuel rest1 (Char.ofNat 0x0D :: acc)
          else if e.toNat = 0x74 then parseStringBody fuel rest1 (Char.ofNat 0x09 :: acc)
          else if e.toNat = 0x75 then
            match parseHex4 rest1 with
            | none => none
            | some (u, rest2) =>
              parseStringBody fuel (unescapeUnicode u rest2).2 ((unescapeUnicode u rest2).1 :: acc)
          else none
      else if b.toNat < 0x20 then none
      else if b.toNat < 0x80 then parseStringBody fuel rest (Char.ofNat b.toNat :: acc)
      else
        match decodeRune input with
        | none => parseStringBody fuel rest (Char.ofNat 0xFFFD :: acc)
        | some (c, size) => parseStringBody fuel (input.drop size) (c :: acc)

/-- Whether a byte is a decimal digit. -/
def isDigit (b : UInt8) : Bool :=
  decide (48 ≤ b.toNat ∧ b.toNat ≤ 57)

/-- The decimal digits at the head of the input, and the input after them. -/
def spanDigits : List UInt8 → List UInt8 × List UInt8
  | [] => ([], [])
  | b :: rest =>
    if isDigit b then (b :: (spanDigits rest).1, (spanDigits rest).2) else ([], b :: rest)

/-- The number written by decimal digits. -/
def decimalValue (ds : List UInt8) : Nat :=
  ds.foldl (fun acc d => acc * 10 + (d.toNat - 48)) 0

/-- The fraction of a JSON number at the head of the input (empty when there is
none) and the input after it; `none` when a point is not followed by a digit. -/
def parseFraction (input : List UInt8) : Option (List UInt8 × List UInt8) :=
  match input with
  | [] => some ([], [])
  | b :: rest =>
    if b.toNat = 0x2E then
      if (spanDigits rest).1.isEmpty then none
      else some (b :: (spanDigits rest).1, (spanDigits rest).2)
    else some ([], b :: rest)

/-- The exponent of a JSON number at the head of the input (empty when there is
none) and the input after it; `none` when `e` or `E` is not followed by digits,
with or without a sign. -/
def parseExponent (input : List UInt8) : Option (List UInt8 × List UInt8) :=
  match input with
  | [] => some ([], [])
  | b :: rest =>
    if b.toNat = 0x65 ∨ b.toNat = 0x45 then
      match rest with
      | [] => none
      | s :: rest1 =>
        if s.toNat = 0x2B ∨ s.toNat = 0x2D then
          if (spanDigits rest1).1.isEmpty then none
          else some (b :: s :: (spanDigits rest1).1, (spanDigits rest1).2)
        else
          if (spanDigits rest).1.isEmpty then none
          else some (b :: (spanDigits rest).1, (spanDigits rest).2)
    else some ([], b :: rest)

/-- The JSON number at the head of the input and the input after it: an optional
minus sign, digits without a needless leading zero, an optional fraction and an
optional exponent.  A whole number in the range of `int` is `number`, any other
number is `otherNumber` with its text. -/
def parseNumber (input : List UInt8) : Option (JSON × List UInt8) :=
  let negative : Bool :=
    match input with
    | b :: _ => decide (b.toNat = 0x2D)
    | [] => false
  let afterSign : List UInt8 := if negative then input.drop 1 else input
  let whole : List UInt8 × List UInt8 := spanDigits afterSign
  match whole.1 with
  | [] => none
  | d :: ds =>
    if d.toNat = 0x30 ∧ ¬ ds.isEmpty then none
    else
      match parseFraction whole.2 with
      | none => none
      | some (fraction, afterFraction) =>
        match parseExponent afterFraction with
        | none => none
        | some (exponent, afterExponent) =>
          let value : Int :=
            if negative then -((decimalValue whole.1 : Nat) : Int)
            else ((decimalValue whole.1 : Nat) : Int)
          if fraction.isEmpty ∧ exponent.isEmpty ∧ InInt64Range value then
            some (.number value, afterExponent)
          else
            some (.otherNumber (String.mk
              ((input.take (input.length - afterExponent.length)).map
                (fun b => Char.ofNat b.toNat))), afterExponent)

/-- The input after a literal at its head; `none` when the input does not start
with the literal. -/
def stripBytes : List UInt8 → List UInt8 → Option (List UInt8)
  | [], input => some input
  | _ :: _, [] => none
  | a :: lit, b :: input => if a.toNat = b.toNat then stripBytes lit input else none

mutual

/-- The JSON value at the head of the input, after white space, and the input
after it (the scanner and `value` of `encoding/json`). -/
def parseValue : Nat → List UInt8 → Option (JSON × List UInt8)
  | 0, _ => none
  | fuel + 1, input =>
    match skipSpace input with
    | [] => none
    | b :: rest =>
      if b.toNat = 0x7B then
        match skipSpace rest with
        | [] => none
        | b1 :: rest1 =>
          if b1.toNat = 0x7D then some (.object [], rest1)
          else parseMembers fuel (b1 :: rest1) []
      else if b.toNat = 0x5B then
        match skipSpace rest with
        | [] => none
        | b1 :: rest1 =>
          if b1.toNat = 0x5D then some (.array [], rest1)
          else parseItems fuel (b1 :: rest1) []
      else if b.toNat = 0x22 then
        match parseStringBody rest.length rest [] with
        | none => none
        | some (s, rest1) => some (.string s, rest1)
      else if b.toNat = 0x74 then
        match stripBytes [0x72, 0x75, 0x65] rest with
        | none => none
        | some rest1 => some (.bool true, rest1)
      else if b.toNat = 0x66 then
        match stripBytes [0x61, 0x6C, 0x73, 0x65] rest with
        | none => none
        | some rest1 => some (.bool false, rest1)
      else if b.toNat = 0x6E then
        match stripBytes [0x75, 0x6C, 0x6C] rest with
        | none => none
        | some rest1 => some (.null, rest1)
      else parseNumber (b :: rest)

/-- The elements of a JSON array from its first element on, and the input after
the closing bracket.  `acc` holds the elements read so far, last first. -/
def parseItems : Nat → List UInt8 → List JSON → Option (JSON × List UInt8)
  | 0, _, _ => none
  | fuel + 1, input, acc =>
    match parseValue fuel input with
    | none => none
    | some (v, rest) =>
      match skipSpace rest with
      | [] => none
      | b :: rest1 =>
        if b.toNat = 0x2C then parseItems fuel rest1 (v :: acc)
        else if b.toNat = 0x5D then some (.array (v :: acc).reverse, rest1)
        else none

/-- The members of a JSON object from its first key on, and the input after the
closing brace.  `acc` holds the members read so far, last first. -/
def parseMembers : Nat → List UInt8 → List (String × JSON) → Option (JSON × List UInt8)
  | 0, _, _ => none
  | fuel + 1, input, acc =>
    match skipSpace input with
    | [] => none
    | q :: rest =>
      if q.toNat = 0x22 then
        match parseStringBody rest.length rest [] with
        | none => none
        | some (key, rest1) =>
          match skipSpace rest1 with
          | [] => none
          | c :: rest2 =>
            if c.toNat = 0x3A then
              match parseValue fuel rest2 with
              | none => none
              | some (v, rest3) =>
                match skipSpace rest3 with
                | [] => none
                | b :: rest4 =>
                  if b.toNat = 0x2C then parseMembers fuel rest4 ((key, v) :: acc)
                  else if b.toNat = 0x7D then some (.object ((key, v) :: acc).reverse, rest4)
                  else none
            else none
      else none

end

/-- The JSON value a text denotes; `none` when the bytes are not one JSON value
with white space around it. -/
def parseJSON (input : List UInt8) : Option JSON :=
  match parseValue (2 * input.length + 2) input with
  | none => none
  | some (v, rest) => if (skipSpace rest).isEmpty then some v else none

/-- What `appendString` writes for one character of a valid text. -/
def escapeChar (c : Char) : List UInt8 :=
  if c.toNat < 0x80 then appendASCII (UInt8.ofNat c.toNat)
  else if c.toNat = 0x2028 ∨ c.toNat = 0x2029 then
    [0x5C, 0x75, 0x32, 0x30, 0x32, hexDigit (c.toNat % 16)]
  else utf8EncodeChar c

/-- What may follow a value in the text `json.MarshalIndent` writes: nothing, a
comma or a line break. -/
def ValueEnd (rest : List UInt8) : Prop :=
  match rest with
  | [] => True
  | b :: _ => b.toNat = 0x2C ∨ b.toNat = 0x0A

/-- The bytes read back as the JSON value `v`, whatever follows them in a text
written by `json.MarshalIndent`. -/
def ParsesTo (bytes : List UInt8) (v : JSON) : Prop :=
  ∀ (fuel : Nat) (rest : List UInt8), ValueEnd rest →
    2 * (bytes ++ rest).length + 1 ≤ fuel → parseValue fuel (bytes ++ rest) = some (v, rest)

/-- Every integer of a task ledger is a value of a 64-bit `int`. -/
def TodoList.IntsInRange (h : TodoList) : Prop :=
  (∀ t ∈ h.Tasks, InInt64Range t.ID ∧ InInt64Range t.TaskPoints)
    ∧ (∀ t ∈ h.DeletedTasks, InInt64Range t.ID ∧ InInt64Range t.TaskPoints)
    ∧ InInt64Range h.NextID

/-- Every integer of a reward ledger is a value of a 64-bit `int`. -/
def RewardSystem.IntsInRange (r : RewardSystem) : Prop :=
  (∀ x ∈ r.Rewards, InInt64Range x.ID ∧ InInt64Range x.PriceOfReward)
    ∧ InInt64Range r.UserPoints
    ∧ InInt64Range r.NextID

/-! ## `Add` -/

/-- The id `Add` gives to the new task: 1 when the active list is empty, the
current counter otherwise. -/
theorem Add_eq (h : TodoList) (text : String) (points : Int) :
    Add h text points =
      { Tasks := h.Tasks ++ [{ ID := if h.Tasks = [] then 1 else h.NextID
                               Text := text
                               IsComplete := false
                               TaskPoints := points
                               IsTaskPointsReceive := false }]
        DeletedTasks := h.DeletedTasks
        NextID := (if h.Tasks = [] then 1 else h.NextID) + 1 } := by
  cases h with
  | mk tasks deleted next =>
    cases tasks with
    | nil => simp [Add]
    | cons t ts => simp [Add]

theorem Add_of_ne_nil (h : TodoList) (text : String) (points : Int) (hne : h.Tasks ≠ []) :
    Add h text points =
      { Tasks := h.Tasks ++ [{ ID := h.NextID
                               Text := text
                               IsComplete := false
                               TaskPoints := points
                               IsTaskPointsReceive := false }]
        DeletedTasks := h.DeletedTasks
        NextID := h.NextID + 1 } := by
  rw [Add_eq]
  simp [hne]

theorem Add_Tasks_ne_nil (h : TodoList) (text : String) (points : Int) :
    (Add h text points).Tasks ≠ [] := by
  rw [Add_eq]
  simp

/-- C1: `Add` appends exactly one task at the end of the active list, with the
given text and points, not complete and not settled, whose id is 1 when the
active list was empty and the old `NextID` otherwise; `NextID` afterwards is
that id plus one; the old active tasks and the deleted buffer are unchanged. -/
theorem Add_appends_one_task (h : TodoList) (text : String) (points : Int) :
    (Add h text points).Tasks =
        h.Tasks ++ [{ ID := if h.Tasks = [] then 1 else h.NextID
                      Text := text
                      IsComplete := false
                      TaskPoints := points
                      IsTaskPointsReceive := false }]
      ∧ (Add h text points).Tasks.length = h.Tasks.length + 1
      ∧ (Add h text points).Tasks.take h.Tasks.length = h.Tasks
      ∧ (Add h text points).NextID = (if h.Tasks = [] then 1 else h.NextID) + 1
      ∧ (Add h text points).DeletedTasks = h.DeletedTasks := by
  rw [Add_eq]
  simp

theorem addAll_of_ne_nil (args : List (String × Int)) :
    ∀ h : TodoList, h.Tasks ≠ [] →
      (addAll h args).Tasks.map Task.ID
          = h.Tasks.map Task.ID ++ (List.range args.length).map (fun (k : Nat) => h.NextID + (k : Int))
        ∧ (addAll h args).NextID = h.NextID + (args.length : Int)
        ∧ (addAll h args).Tasks.map (fun t => (t.Text, t.TaskPoints))
            = h.Tasks.map (fun t => (t.Text, t.TaskPoints)) ++ args
        ∧ (addAll h args).DeletedTasks = h.DeletedTasks := by
  induction args with
  | nil => intro h _; simp [addAll]
  | cons a rest ih =>
    intro h hne
    obtain ⟨h1, h2, h3, h4⟩ := ih (Add h a.1 a.2) (Add_Tasks_ne_nil h a.1 a.2)
    rw [Add_of_ne_nil h a.1 a.2 hne] at h1 h2 h3 h4
    simp only [addAll]
    rw [Add_of_ne_nil h a.1 a.2 hne]
    refine ⟨?_, ?_, ?_, ?_⟩
    · rw [h1, List.length_cons, List.range_succ_eq_map]
      simp only [List.map_append, List.map_cons, List.map_nil, List.append_assoc,
        List.singleton_append, List.map_map, Nat.cast_zero, add_zero]
      congr 2
      apply List.map_congr_left
      intro k _
      simp only [Function.comp_apply, Nat.succ_eq_add_one, Nat.cast_add, Nat.cast_one]
      ring
    · rw [h2, List.length_cons]
      push_cast
      ring
    · rw [h3]
      simp
    · rw [h4]

/-- C2: N calls of `Add` on a ledger whose active list is empty (whatever its
`NextID`, 0 for the zero value included) give an active list of N tasks whose ids
are 1, 2, ..., N in the order of the calls, each with the text and points of its
call, and `NextID = N + 1` when N is at least 1. -/
theorem addAll_ids_one_to_N (h : TodoList) (hempty : h.Tasks = [])
    (args : List (String × Int)) :
    (addAll h args).Tasks.length = args.length
      ∧ (addAll h args).Tasks.map Task.ID
          = (List.range args.length).map (fun (k : Nat) => (k : Int) + 1)
      ∧ (addAll h args).Tasks.map (fun t => (t.Text, t.TaskPoints)) = args
      ∧ (1 ≤ args.length → (addAll h args).NextID = (args.length : Int) + 1) := by
  cases args with
  | nil => simp [addAll, hempty]
  | cons a rest =>
    obtain ⟨h1, h2, h3, _⟩ :=
      addAll_of_ne_nil rest (Add h a.1 a.2) (Add_Tasks_ne_nil h a.1 a.2)
    have hT : (Add h a.1 a.2).Tasks = [Task.mk 1 a.1 false a.2 false] := by
      rw [Add_eq]; simp [hempty]
    have hN : (Add h a.1 a.2).NextID = 2 := by
      rw [Add_eq]; simp [hempty]
    rw [hT, hN] at h1
    rw [hN] at h2
    rw [hT] at h3
    simp only [List.map_cons, List.map_nil, List.singleton_append] at h1 h3
    have hlen : (addAll h (a :: rest)).Tasks.length = (a :: rest).length := by
      have := congrArg List.length h3
      simpa [addAll] using this
    refine ⟨hlen, ?_, ?_, ?_⟩
    · simp only [addAll]
      rw [h1, List.length_cons, List.range_succ_eq_map]
      simp only [List.map_cons, List.map_map, Nat.cast_zero, zero_add]
      congr 1
      apply List.map_congr_left
      intro k _
      simp only [Function.comp_apply, Nat.succ_eq_add_one, Nat.cast_add, Nat.cast_one]
      ring
    · simp only [addAll]
      rw [h3]
    · intro _
      simp only [addAll]
      rw [h2, List.length_cons]
      push_cast
      ring

/-- Two `Add` calls on the zero-value ledger: ids 1 and 2, `NextID = 3`. -/
theorem addAll_ids_one_to_N_witness :
    zeroTodoList.Tasks = []
      ∧ (addAll zeroTodoList [("buy milk", 10), ("walk", 5)]).Tasks.map Task.ID = [1, 2]
      ∧ (addAll zeroTodoList [("buy milk", 10), ("walk", 5)]).NextID = 3 := by
  have key := addAll_ids_one_to_N zeroTodoList rfl [("buy milk", 10), ("walk", 5)]
  refine ⟨rfl, ?_, ?_⟩
  · rw [key.2.1]; decide
  · rw [key.2.2.2 (by decide)]; decide

/-! ## `CancelLastDelete` -/

theorem CancelLastDelete_of_nil (h : TodoList) (hnil : h.DeletedTasks = []) :
    CancelLastDelete h = (h, some "no deleted tasks") := by
  simp [CancelLastDelete, hnil]

theorem CancelLastDelete_of_ne_nil (h : TodoList) (hne : h.DeletedTasks ≠ []) :
    CancelLastDelete h =
      ({ Tasks := h.Tasks ++ [{ ID := h.NextID
                                Text := (h.DeletedTasks.getLast hne).Text
                                IsComplete := false
                                TaskPoints := (h.DeletedTasks.getLast hne).TaskPoints
                                IsTaskPointsReceive :=
                                  (h.DeletedTasks.getLast hne).IsTaskPointsReceive }]
         DeletedTasks := []
         NextID := h.NextID + 1 }, none) := by
  have hlen : ¬ h.DeletedTasks.length = 0 := by
    intro h0
    exact hne (List.length_eq_zero.mp h0)
  simp only [CancelLastDelete, hlen, dite_false]
  rw [List.getLast_eq_getElem]
  rfl

/-- C5: with a non-empty deleted buffer `CancelLastDelete` returns no error,
appends to the active list a copy of the last deleted task with id the old
`NextID` and `IsComplete = false` (text, points and the settled flag carried
over), adds one to `NextID`, keeps the old active tasks, and empties the deleted
buffer. -/
theorem CancelLastDelete_restores_last (h : TodoList) (hne : h.DeletedTasks ≠ []) :
    (CancelLastDelete h).2 = none
      ∧ (CancelLastDelete h).1.Tasks =
          h.Tasks ++ [{ ID := h.NextID
                        Text := (h.DeletedTasks.getLast hne).Text
                        IsComplete := false
                        TaskPoints := (h.DeletedTasks.getLast hne).TaskPoints
                        IsTaskPointsReceive :=
                          (h.DeletedTasks.getLast hne).IsTaskPointsReceive }]
      ∧ (CancelLastDelete h).1.NextID = h.NextID + 1
      ∧ (CancelLastDelete h).1.DeletedTasks = [] := by
  rw [CancelLastDelete_of_ne_nil h hne]
  exact ⟨rfl, rfl, rfl, rfl⟩

/-- Two deleted tasks, the last one complete and settled: only it comes back,
as pending, with id 3. -/
theorem CancelLastDelete_restores_last_witness :
    (⟨[⟨1, "kept", false, 3, false⟩],
        [⟨7, "older", true, 3, true⟩, ⟨2, "newer", true, 5, true⟩], 3⟩ : TodoList).DeletedTasks ≠ []
      ∧ (CancelLastDelete ⟨[⟨1, "kept", false, 3, false⟩],
          [⟨7, "older", true, 3, true⟩, ⟨2, "newer", true, 5, true⟩], 3⟩).2 = none
      ∧ (CancelLastDelete ⟨[⟨1, "kept", false, 3, false⟩],
          [⟨7, "older", true, 3, true⟩, ⟨2, "newer", true, 5, true⟩], 3⟩).1.Tasks
          = [⟨1, "kept", false, 3, false⟩, ⟨3, "newer", false, 5, true⟩]
      ∧ (CancelLastDelete ⟨[⟨1, "kept", false, 3, false⟩],
          [⟨7, "older", true, 3, true⟩, ⟨2, "newer", true, 5, true⟩], 3⟩).1.NextID = 4
      ∧ (CancelLastDelete ⟨[⟨1, "kept", false, 3, false⟩],
          [⟨7, "older", true, 3, true⟩, ⟨2, "newer", true, 5, true⟩], 3⟩).1.DeletedTasks = [] :=
  ⟨by decide,
    CancelLastDelete_restores_last
      ⟨[⟨1, "kept", false, 3, false⟩],
        [⟨7, "older", true, 3, true⟩, ⟨2, "newer", true, 5, true⟩], 3⟩ (by decide)⟩

/-- C7: `CancelLastDelete` returns an error exactly when the deleted buffer is
empty, and then the ledger is left as it was; after a call that succeeded the
next call returns an error. -/
theorem CancelLastDelete_error_iff (h : TodoList) :
    ((CancelLastDelete h).2 ≠ none ↔ h.DeletedTasks = [])
      ∧ ((CancelLastDelete h).2 ≠ none → (CancelLastDelete h).1 = h)
      ∧ ((CancelLastDelete h).2 = none →
          (CancelLastDelete (CancelLastDelete h).1).2 ≠ none) := by
  by_cases hnil : h.DeletedTasks = []
  · rw [CancelLastDelete_of_nil h hnil]
    simp [hnil]
  · rw [CancelLastDelete_of_ne_nil h hnil]
    refine ⟨by simp [hnil], by simp, ?_⟩
    intro _
    rw [CancelLastDelete_of_nil _ rfl]
    simp

/-- An empty buffer gives an error and no change; after a successful restore
the second call fails. -/
theorem CancelLastDelete_error_iff_witness :
    (CancelLastDelete zeroTodoList).1 = zeroTodoList
      ∧ (CancelLastDelete
          (CancelLastDelete ⟨[], [⟨1, "a", false, 0, false⟩], 2⟩).1).2 ≠ none :=
  ⟨(CancelLastDelete_error_iff zeroTodoList).2.1 (by decide),
   (CancelLastDelete_error_iff ⟨[], [⟨1, "a", false, 0, false⟩], 2⟩).2.2 (by decide)⟩

/-! ## `Delete` -/

theorem Delete_of_lt (h : TodoList) (i : Nat) (hi : i < h.Tasks.length) :
    Delete h i =
      some { Tasks := h.Tasks.eraseIdx i
             DeletedTasks := h.DeletedTasks ++ [h.Tasks[i]]
             NextID := h.NextID } := by
  simp [Delete, List.getElem?_eq_getElem hi, List.eraseIdx_eq_take_drop_succ]

/-- C8: for an index `i` inside the active list, `Delete i` returns; the new
active list is the old one without its element `i` (one shorter, the elements
before `i` where they were, those after `i` one place earlier), the new deleted
buffer is the old one followed by the removed task with all its fields, and
`NextID` is unchanged. -/
theorem Delete_moves_task (h : TodoList) (i : Nat) (hi : i < h.Tasks.length) :
    ∃ h1 : TodoList, Delete h i = some h1
      ∧ h1.Tasks = h.Tasks.eraseIdx i
      ∧ h1.Tasks.length + 1 = h.Tasks.length
      ∧ (∀ j : Nat, j < i → h1.Tasks[j]? = h.Tasks[j]?)
      ∧ (∀ j : Nat, i ≤ j → h1.Tasks[j]? = h.Tasks[j + 1]?)
      ∧ h1.DeletedTasks = h.DeletedTasks ++ [h.Tasks[i]]
      ∧ h1.NextID = h.NextID := by
  refine ⟨_, Delete_of_lt h i hi, rfl, ?_, ?_, ?_, rfl, rfl⟩
  · simp only [List.length_eraseIdx, hi, if_true]
    omega
  · intro j hj
    simp [List.getElem?_eraseIdx, hj]
  · intro j hj
    have : ¬ j < i := by omega
    simp [List.getElem?_eraseIdx, this]

/-- Deleting the middle one of three tasks, as in
`TestTaskHandler_Delete_TaskRemovedAndMoved`. -/
theorem Delete_moves_task_witness :
    Delete ⟨[⟨1, "Task 1", false, 0, false⟩, ⟨2, "Task 2 to delete", true, 4, true⟩,
              ⟨3, "Task 3", false, 0, false⟩], [], 4⟩ 1
      = some ⟨[⟨1, "Task 1", false, 0, false⟩, ⟨3, "Task 3", false, 0, false⟩],
              [⟨2, "Task 2 to delete", true, 4, true⟩], 4⟩ := by
  obtain ⟨h1, hd, ht, _, _, _, hdel, hn⟩ :=
    Delete_moves_task ⟨[⟨1, "Task 1", false, 0, false⟩, ⟨2, "Task 2 to delete", true, 4, true⟩,
      ⟨3, "Task 3", false, 0, false⟩], [], 4⟩ 1 (by decide)
  rw [hd]
  cases h1 with
  | mk tasks deleted next =>
    simp only at ht hdel hn
    subst ht hdel hn
    decide

/-! ## `Complete` and `NotCompleted` -/

/-- C9: for an index `i` inside the active list, `Complete i` returns; it
returns an error exactly when task `i` is already complete, and then the ledger
is unchanged; otherwise task `i` gets `IsComplete = true` with its id, text,
points and settled flag kept, and every other task, the deleted buffer and
`NextID` are unchanged. -/
theorem Complete_sets_flag_or_fails (h : TodoList) (i : Nat) (hi : i < h.Tasks.length) :
    ∃ (h1 : TodoList) (err : Option String), Complete h i = some (h1, err)
      ∧ (err ≠ none ↔ h.Tasks[i].IsComplete = true)
      ∧ (err ≠ none → h1 = h)
      ∧ (err = none →
          h1.Tasks.length = h.Tasks.length
          ∧ h1.Tasks[i]? = some { ID := h.Tasks[i].ID
                                  Text := h.Tasks[i].Text
                                  IsComplete := true
                                  TaskPoints := h.Tasks[i].TaskPoints
                                  IsTaskPointsReceive := h.Tasks[i].IsTaskPointsReceive }
          ∧ (∀ j : Nat, j ≠ i → h1.Tasks[j]? = h.Tasks[j]?)
          ∧ h1.DeletedTasks = h.DeletedTasks
          ∧ h1.NextID = h.NextID) := by
  by_cases hc : h.Tasks[i].IsComplete = true
  · refine ⟨h, some "the task has already been completed", ?_, ?_, ?_, ?_⟩
    · simp [Complete, List.getElem?_eq_getElem hi, hc]
    · simp [hc]
    · intro _; rfl
    · intro hcontra; simp at hcontra
  · refine ⟨{ h with Tasks := h.Tasks.set i { h.Tasks[i] with IsComplete := true } }, none,
      ?_, ?_, ?_, ?_⟩
    · simp [Complete, List.getElem?_eq_getElem hi, hc]
    · simp [hc]
    · intro hcontra; simp at hcontra
    · intro _
      refine ⟨by simp, ?_, ?_, rfl, rfl⟩
      · simp [List.getElem?_set, hi]
      · intro j hj
        simp [List.getElem?_set, Ne.symm hj]

/-- A pending task is marked complete and keeps its points and settled flag, as
in `TestTaskHandler_Complete_SuccessfullyCompletedTask`. -/
theorem Complete_sets_flag_or_fails_witness :
    ∃ (h1 : TodoList) (err : Option String),
      Complete ⟨[⟨1, "Test Task", false, 5, false⟩], [], 2⟩ 0 = some (h1, err)
        ∧ err = none
        ∧ h1.Tasks[0]? = some ⟨1, "Test Task", true, 5, false⟩ := by
  obtain ⟨h1, err, hc, hiff, _, hok⟩ :=
    Complete_sets_flag_or_fails ⟨[⟨1, "Test Task", false, 5, false⟩], [], 2⟩ 0 (by decide)
  have herr : err = none := by
    by_contra hne
    exact absurd (hiff.mp hne) (by decide)
  exact ⟨h1, err, hc, herr, (hok herr).2.1⟩

/-- C10: for an index `i` inside the active list, `NotCompleted i` returns; it
returns an error exactly when task `i` is not complete, and then the ledger is
unchanged; otherwise task `i` gets `IsComplete = false` with its id, text,
points and settled flag kept, and every other task, the deleted buffer and
`NextID` are unchanged. -/
theorem NotCompleted_clears_flag_or_fails (h : TodoList) (i : Nat)
    (hi : i < h.Tasks.length) :
    ∃ (h1 : TodoList) (err : Option String), NotCompleted h i = some (h1, err)
      ∧ (err ≠ none ↔ h.Tasks[i].IsComplete = false)
      ∧ (err ≠ none → h1 = h)
      ∧ (err = none →
          h1.Tasks.length = h.Tasks.length
          ∧ h1.Tasks[i]? = some { ID := h.Tasks[i].ID
                                  Text := h.Tasks[i].Text
                                  IsComplete := false
                                  TaskPoints := h.Tasks[i].TaskPoints
                                  IsTaskPointsReceive := h.Tasks[i].IsTaskPointsReceive }
          ∧ (∀ j : Nat, j ≠ i → h1.Tasks[j]? = h.Tasks[j]?)
          ∧ h1.DeletedTasks = h.DeletedTasks
          ∧ h1.NextID = h.NextID) := by
  by_cases hc : h.Tasks[i].IsComplete = true
  · refine ⟨{ h with Tasks := h.Tasks.set i { h.Tasks[i] with IsComplete := false } }, none,
      ?_, ?_, ?_, ?_⟩
    · simp [NotCompleted, List.getElem?_eq_getElem hi, hc]
    · simp [hc]
    · intro hcontra; simp at hcontra
    · intro _
      refine ⟨by simp, ?_, ?_, rfl, rfl⟩
      · simp [List.getElem?_set, hi]
      · intro j hj
        simp [List.getElem?_set, Ne.symm hj]
  · refine ⟨h, some "the task has not been completed yet", ?_, ?_, ?_, ?_⟩
    · simp [NotCompleted, List.getElem?_eq_getElem hi, hc]
    · simpa using hc
    · intro _; rfl
    · intro hcontra; simp at hcontra

/-- A pending task cannot be un-completed: an error, and the ledger as it was,
as in `TestTaskHandler_NotCompleted_AlreadyUncompletedTask`. -/
theorem NotCompleted_clears_flag_or_fails_witness :
    ∃ err : Option String,
      NotCompleted ⟨[⟨1, "", false, 0, false⟩], [], 0⟩ 0
          = some (⟨[⟨1, "", false, 0, false⟩], [], 0⟩, err)
        ∧ err ≠ none := by
  obtain ⟨h1, err, hc, hiff, hsame, _⟩ :=
    NotCompleted_clears_flag_or_fails ⟨[⟨1, "", false, 0, false⟩], [], 0⟩ 0 (by decide)
  have herr : err ≠ none := hiff.mpr (by decide)
  rw [hsame herr] at hc
  exact ⟨err, hc, herr⟩

/-! ## Invariants of the id counter -/

theorem map_ID_set (l : List Task) (i : Nat) (t t1 : Task) (hget : l[i]? = some t)
    (hid : t1.ID = t.ID) : (l.set i t1).map Task.ID = l.map Task.ID := by
  induction l generalizing i with
  | nil => simp
  | cons a rest ih =>
    cases i with
    | zero =>
      simp only [List.getElem?_cons_zero, Option.some.injEq] at hget
      simp [hget, hid]
    | succ k =>
      simp only [List.getElem?_cons_succ] at hget
      simp [ih k hget]

theorem ActiveIDsFresh_of_same_ids (h h1 : TodoList)
    (hids : h1.Tasks.map Task.ID = h.Tasks.map Task.ID) (hn : h1.NextID = h.NextID)
    (hinv : ActiveIDsFresh h) : ActiveIDsFresh h1 := by
  unfold ActiveIDsFresh at *
  rw [hids, hn]
  exact hinv

theorem ActiveIDsFresh_append (tasks deleted : List Task) (next : Int) (t : Task)
    (hid : t.ID = next)
    (hinv : ActiveIDsFresh { Tasks := tasks, DeletedTasks := deleted, NextID := next })
    (deleted1 : List Task) :
    ActiveIDsFresh { Tasks := tasks ++ [t], DeletedTasks := deleted1, NextID := next + 1 } := by
  obtain ⟨hlt, hnd⟩ := hinv
  simp only at hlt hnd
  constructor
  · intro i hi
    simp only [List.map_append, List.map_cons, List.map_nil, List.mem_append,
      List.mem_singleton] at hi
    rcases hi with hi | hi
    · have := hlt i hi
      simp only
      omega
    · simp only
      omega
  · simp only [List.map_append, List.map_cons, List.map_nil]
    rw [List.nodup_append]
    refine ⟨hnd, List.nodup_singleton _, ?_⟩
    intro a ha hb
    simp only [List.mem_singleton] at hb
    have := hlt a ha
    omega

theorem ActiveIDsFresh_Add (h : TodoList) (text : String) (points : Int)
    (hinv : ActiveIDsFresh h) : ActiveIDsFresh (Add h text points) := by
  rw [Add_eq]
  by_cases hnil : h.Tasks = []
  · simp [ActiveIDsFresh, hnil]
  · simp only [hnil, if_false]
    exact ActiveIDsFresh_append h.Tasks h.DeletedTasks h.NextID _ rfl hinv h.DeletedTasks

theorem ActiveIDsFresh_CancelLastDelete (h : TodoList) (hinv : ActiveIDsFresh h) :
    ActiveIDsFresh (CancelLastDelete h).1 := by
  by_cases hnil : h.DeletedTasks = []
  · rw [CancelLastDelete_of_nil h hnil]
    exact hinv
  · rw [CancelLastDelete_of_ne_nil h hnil]
    exact ActiveIDsFresh_append h.Tasks h.DeletedTasks h.NextID _ rfl hinv []

theorem ActiveIDsFresh_ClearAllTasks (h : TodoList) : ActiveIDsFresh (ClearAllTasks h) := by
  simp [ActiveIDsFresh, ClearAllTasks]

theorem ActiveIDsFresh_Delete (h h1 : TodoList) (i : Nat) (hd : Delete h i = some h1)
    (hinv : ActiveIDsFresh h) : ActiveIDsFresh h1 := by
  by_cases hi : i < h.Tasks.length
  · rw [Delete_of_lt h i hi] at hd
    simp only [Option.some.injEq] at hd
    subst hd
    obtain ⟨hlt, hnd⟩ := hinv
    have hsub : ((h.Tasks.eraseIdx i).map Task.ID).Sublist (h.Tasks.map Task.ID) :=
      (List.eraseIdx_sublist h.Tasks i).map Task.ID
    exact ⟨fun a ha => hlt a (hsub.subset ha), hnd.sublist hsub⟩
  · have hnone : h.Tasks[i]? = none := List.getElem?_eq_none (by omega)
    simp [Delete, hnone] at hd

theorem Complete_same_ids (h h1 : TodoList) (i : Nat) (err : Option String)
    (hc : Complete h i = some (h1, err)) :
    h1.Tasks.map Task.ID = h.Tasks.map Task.ID ∧ h1.NextID = h.NextID := by
  unfold Complete at hc
  cases hget : h.Tasks[i]? with
  | none => simp [hget] at hc
  | some t =>
    simp only [hget] at hc
    split at hc
    · simp only [Option.some.injEq, Prod.mk.injEq] at hc
      rw [← hc.1]
      exact ⟨rfl, rfl⟩
    · simp only [Option.some.injEq, Prod.mk.injEq] at hc
      rw [← hc.1]
      exact ⟨map_ID_set h.Tasks i t _ hget rfl, rfl⟩

theorem NotCompleted_same_ids (h h1 : TodoList) (i : Nat) (err : Option String)
    (hc : NotCompleted h i = some (h1, err)) :
    h1.Tasks.map Task.ID = h.Tasks.map Task.ID ∧ h1.NextID = h.NextID := by
  unfold NotCompleted at hc
  cases hget : h.Tasks[i]? with
  | none => simp [hget] at hc
  | some t =>
    simp only [hget] at hc
    split at hc
    · simp only [Option.some.injEq, Prod.mk.injEq] at hc
      rw [← hc.1]
      exact ⟨rfl, rfl⟩
    · simp only [Option.some.injEq, Prod.mk.injEq] at hc
      rw [← hc.1]
      exact ⟨map_ID_set h.Tasks i t _ hget rfl, rfl⟩

theorem Edit_same_ids (h h1 : TodoList) (i : Nat) (newText : String)
    (hc : Edit h i newText = some h1) :
    h1.Tasks.map Task.ID = h.Tasks.map Task.ID ∧ h1.NextID = h.NextID := by
  unfold Edit at hc
  cases hget : h.Tasks[i]? with
  | none => simp [hget] at hc
  | some t =>
    simp only [hget, Option.some.injEq] at hc
    rw [← hc]
    exact ⟨map_ID_set h.Tasks i t _ hget rfl, rfl⟩

theorem EditTaskPoints_same_ids (h h1 : TodoList) (i : Nat) (p : Int)
    (hc : EditTaskPoints h i p = some h1) :
    h1.Tasks.map Task.ID = h.Tasks.map Task.ID ∧ h1.NextID = h.NextID := by
  unfold EditTaskPoints at hc
  cases hget : h.Tasks[i]? with
  | none => simp [hget] at hc
  | some t =>
    simp only [hget, Option.some.injEq] at hc
    rw [← hc]
    exact ⟨map_ID_set h.Tasks i t _ hget rfl, rfl⟩

theorem ActiveIDsFresh_applyOp (h h1 : TodoList) (op : TaskOp)
    (hstep : applyOp h op = some h1) (hinv : ActiveIDsFresh h) : ActiveIDsFresh h1 := by
  cases op with
  | add text points =>
    simp only [applyOp, Option.some.injEq] at hstep
    rw [← hstep]
    exact ActiveIDsFresh_Add h text points hinv
  | complete i =>
    simp only [applyOp] at hstep
    cases hc : Complete h i with
    | none => simp [hc] at hstep
    | some pr =>
      obtain ⟨h2, err⟩ := pr
      rw [hc] at hstep
      simp only [Option.map_some', Option.some.injEq] at hstep
      subst hstep
      obtain ⟨hids, hn⟩ := Complete_same_ids h h2 i err hc
      exact ActiveIDsFresh_of_same_ids h h2 hids hn hinv
  | notCompleted i =>
    simp only [applyOp] at hstep
    cases hc : NotCompleted h i with
    | none => simp [hc] at hstep
    | some pr =>
      obtain ⟨h2, err⟩ := pr
      rw [hc] at hstep
      simp only [Option.map_some', Option.some.injEq] at hstep
      subst hstep
      obtain ⟨hids, hn⟩ := NotCompleted_same_ids h h2 i err hc
      exact ActiveIDsFresh_of_same_ids h h2 hids hn hinv
  | edit i newText =>
    obtain ⟨hids, hn⟩ := Edit_same_ids h h1 i newText hstep
    exact ActiveIDsFresh_of_same_ids h h1 hids hn hinv
  | editTaskPoints i p =>
    obtain ⟨hids, hn⟩ := EditTaskPoints_same_ids h h1 i p hstep
    exact ActiveIDsFresh_of_same_ids h h1 hids hn hinv
  | delete i => exact ActiveIDsFresh_Delete h h1 i hstep hinv
  | cancelLastDelete =>
    simp only [applyOp, Option.some.injEq] at hstep
    rw [← hstep]
    exact ActiveIDsFresh_CancelLastDelete h hinv
  | clearAllTasks =>
    simp only [applyOp, Option.some.injEq] at hstep
    rw [← hstep]
    exact ActiveIDsFresh_ClearAllTasks h

theorem ActiveIDsFresh_runOps (ops : List TaskOp) :
    ∀ h h1 : TodoList, runOps h ops = some h1 → ActiveIDsFresh h → ActiveIDsFresh h1 := by
  induction ops with
  | nil =>
    intro h h1 hrun hinv
    simp only [runOps, Option.some.injEq] at hrun
    rw [← hrun]
    exact hinv
  | cons op rest ih =>
    intro h h1 hrun hinv
    simp only [runOps] at hrun
    cases hstep : applyOp h op with
    | none => simp [hstep] at hrun
    | some h2 =>
      simp only [hstep] at hrun
      exact ih h2 h1 hrun (ActiveIDsFresh_applyOp h h2 op hstep hinv)

theorem ActiveIDsFresh_of_Tasks_nil (h : TodoList) (hnil : h.Tasks = []) :
    ActiveIDsFresh h := by
  simp [ActiveIDsFresh, hnil]

/-- C3: in a ledger reached from one with an empty active list by any sequence
of `Add`, `Complete`, `NotCompleted`, `Edit`, `EditTaskPoints`, `Delete` (inside
the list), `CancelLastDelete` and `ClearAllTasks`, the ids of the active tasks
are pairwise distinct. -/
theorem active_ids_distinct (s : TodoList) (hs : s.Tasks = []) (ops : List TaskOp)
    (h : TodoList) (hrun : runOps s ops = some h) : (h.Tasks.map Task.ID).Nodup :=
  (ActiveIDsFresh_runOps ops s h hrun (ActiveIDsFresh_of_Tasks_nil s hs)).2

/-- Add three, delete the first, restore it, complete one: ids 2, 3, 4. -/
theorem active_ids_distinct_witness :
    zeroTodoList.Tasks = []
      ∧ runOps zeroTodoList
          [.add "a" 1, .add "b" 2, .add "c" 3, .delete 0, .cancelLastDelete, .complete 1]
          = some ⟨[⟨2, "b", false, 2, false⟩, ⟨3, "c", true, 3, false⟩,
                    ⟨4, "a", false, 1, false⟩], [], 5⟩
      ∧ ([⟨2, "b", false, 2, false⟩, ⟨3, "c", true, 3, false⟩,
            ⟨4, "a", false, 1, false⟩] : List Task).map Task.ID = [2, 3, 4]
      ∧ ([2, 3, 4] : List Int).Nodup := by
  have hrun : runOps zeroTodoList
      [.add "a" 1, .add "b" 2, .add "c" 3, .delete 0, .cancelLastDelete, .complete 1]
      = some ⟨[⟨2, "b", false, 2, false⟩, ⟨3, "c", true, 3, false⟩,
                ⟨4, "a", false, 1, false⟩], [], 5⟩ := by decide
  exact ⟨rfl, hrun, rfl, active_ids_distinct zeroTodoList rfl _ _ hrun⟩

/-- C4, as stated, fails: after adding two tasks, deleting both and adding a
third, `Add` has set the counter back to 1, so `NextID` is 2 while the deleted
buffer still holds a task with id 2. -/
theorem NextID_not_above_deleted_ids :
    runOps zeroTodoList [.add "a" 1, .add "b" 2, .delete 0, .delete 0, .add "c" 3]
        = some ⟨[⟨1, "c", false, 3, false⟩],
                [⟨1, "a", false, 1, false⟩, ⟨2, "b", false, 2, false⟩], 2⟩
      ∧ ¬ (∀ t ∈ ([⟨1, "a", false, 1, false⟩, ⟨2, "b", false, 2, false⟩] : List Task),
            t.ID < (2 : Int)) := by
  decide

/-! ## The ids handed out over a run -/

theorem issuedIDs_add (h : TodoList) (text : String) (points : Int) :
    issuedIDs h (.add text points) = [if h.Tasks = [] then 1 else h.NextID] := by
  simp [issuedIDs, Add_eq]

theorem issuedIDs_cancelLastDelete_of_nil (h : TodoList) (hnil : h.DeletedTasks = []) :
    issuedIDs h .cancelLastDelete = [] := by
  simp [issuedIDs, CancelLastDelete_of_nil h hnil]

theorem issuedIDs_cancelLastDelete_of_ne_nil (h : TodoList) (hne : h.DeletedTasks ≠ []) :
    issuedIDs h .cancelLastDelete = [h.NextID] := by
  simp [issuedIDs, CancelLastDelete_of_ne_nil h hne]

theorem Delete_NextID (h h1 : TodoList) (i : Nat) (hd : Delete h i = some h1) :
    h1.NextID = h.NextID := by
  unfold Delete at hd
  cases hget : h.Tasks[i]? with
  | none => simp [hget] at hd
  | some t =>
    simp only [hget, Option.some.injEq] at hd
    rw [← hd]

theorem SinceResetBelowNext_stepTrace (s s1 : Trace) (op : TaskOp)
    (hstep : stepTrace s op = some s1) (hinv : SinceResetBelowNext s) :
    SinceResetBelowNext s1 := by
  unfold stepTrace at hstep
  cases happ : applyOp s.ledger op with
  | none => simp [happ] at hstep
  | some h1 =>
    simp only [happ, Option.some.injEq] at hstep
    subst hstep
    have same : ∀ (hn : h1.NextID = s.ledger.NextID) (hiss : issuedIDs s.ledger op = [])
        (hres : resetsCounter s.ledger op = false),
        SinceResetBelowNext
          { ledger := h1
            issued := s.issued ++ issuedIDs s.ledger op
            sinceReset := (if resetsCounter s.ledger op then [] else s.sinceReset)
              ++ issuedIDs s.ledger op } := by
      intro hn hiss hres i hi
      simp only [hiss, hres, List.append_nil, Bool.false_eq_true, if_false] at hi
      simp only [hn]
      exact hinv i hi
    cases op with
    | add text points =>
      simp only [applyOp, Option.some.injEq] at happ
      subst happ
      intro i hi
      simp only [issuedIDs_add, resetsCounter, List.length_eq_zero, decide_eq_true_eq,
        List.mem_append, List.mem_singleton] at hi
      rw [Add_eq]
      by_cases hnil : s.ledger.Tasks = []
      · simp only [hnil, if_true, List.not_mem_nil, false_or] at hi
        simp only [hnil, if_true]
        omega
      · simp only [hnil, if_false] at hi
        simp only [hnil, if_false]
        rcases hi with hi | hi
        · have := hinv i hi
          omega
        · omega
    | complete i =>
      simp only [applyOp] at happ
      cases hc : Complete s.ledger i with
      | none => simp [hc] at happ
      | some pr =>
        obtain ⟨h2, err⟩ := pr
        rw [hc] at happ
        simp only [Option.map_some', Option.some.injEq] at happ
        subst happ
        exact same (Complete_same_ids s.ledger h2 i err hc).2 rfl rfl
    | notCompleted i =>
      simp only [applyOp] at happ
      cases hc : NotCompleted s.ledger i with
      | none => simp [hc] at happ
      | some pr =>
        obtain ⟨h2, err⟩ := pr
        rw [hc] at happ
        simp only [Option.map_some', Option.some.injEq] at happ
        subst happ
        exact same (NotCompleted_same_ids s.ledger h2 i err hc).2 rfl rfl
    | edit i newText => exact same (Edit_same_ids s.ledger h1 i newText happ).2 rfl rfl
    | editTaskPoints i p =>
      exact same (EditTaskPoints_same_ids s.ledger h1 i p happ).2 rfl rfl
    | delete i => exact same (Delete_NextID s.ledger h1 i happ) rfl rfl
    | cancelLastDelete =>
      simp only [applyOp, Option.some.injEq] at happ
      subst happ
      by_cases hnil : s.ledger.DeletedTasks = []
      · have hn : (CancelLastDelete s.ledger).1.NextID = s.ledger.NextID := by
          rw [CancelLastDelete_of_nil s.ledger hnil]
        exact same hn (issuedIDs_cancelLastDelete_of_nil s.ledger hnil) rfl
      · intro i hi
        simp only [issuedIDs_cancelLastDelete_of_ne_nil s.ledger hnil, resetsCounter,
          Bool.false_eq_true, if_false, List.mem_append, List.mem_singleton] at hi
        rw [CancelLastDelete_of_ne_nil s.ledger hnil]
        simp only
        rcases hi with hi | hi
        · have := hinv i hi
          omega
        · omega
    | clearAllTasks =>
      intro i hi
      simp [issuedIDs, resetsCounter] at hi

theorem runTrace_ledger (ops : List TaskOp) :
    ∀ s s1 : Trace, runTrace s ops = some s1 → runOps s.ledger ops = some s1.ledger := by
  induction ops with
  | nil =>
    intro s s1 hrun
    simp only [runTrace, Option.some.injEq] at hrun
    simp [runOps, hrun]
  | cons op rest ih =>
    intro s s1 hrun
    simp only [runTrace] at hrun
    cases hstep : stepTrace s op with
    | none => simp [hstep] at hrun
    | some s2 =>
      simp only [hstep] at hrun
      have hled : applyOp s.ledger op = some s2.ledger := by
        unfold stepTrace at hstep
        cases happ : applyOp s.ledger op with
        | none => simp [happ] at hstep
        | some h1 =>
          simp only [happ, Option.some.injEq] at hstep
          rw [← hstep]
      simp only [runOps, hled]
      exact ih s2 s1 hrun

theorem SinceResetBelowNext_runTrace (ops : List TaskOp) :
    ∀ s s1 : Trace, runTrace s ops = some s1 → SinceResetBelowNext s →
      SinceResetBelowNext s1 := by
  induction ops with
  | nil =>
    intro s s1 hrun hinv
    simp only [runTrace, Option.some.injEq] at hrun
    rw [← hrun]
    exact hinv
  | cons op rest ih =>
    intro s s1 hrun hinv
    simp only [runTrace] at hrun
    cases hstep : stepTrace s op with
    | none => simp [hstep] at hrun
    | some s2 =>
      simp only [hstep] at hrun
      exact ih s2 s1 hrun (SinceResetBelowNext_stepTrace s s2 op hstep hinv)

/-- C6, as stated, fails: two tasks get ids 1 and 2, the first is deleted,
`ClearAllTasks` sets the counter back to 1, and `CancelLastDelete` then gives the
restored task id 1, which is not above the ids 1 and 2 handed out before. -/
theorem restored_id_not_above_issued :
    runTrace (Trace.start zeroTodoList) [.add "a" 1, .add "b" 2, .delete 0, .clearAllTasks]
        = some ⟨⟨[], [⟨1, "a", false, 1, false⟩], 1⟩, [1, 2], []⟩
      ∧ CancelLastDelete ⟨[], [⟨1, "a", false, 1, false⟩], 1⟩
        = (⟨[⟨1, "a", false, 1, false⟩], [], 2⟩, none)
      ∧ ¬ (∀ i ∈ ([1, 2] : List Int), i < (1 : Int)) := by
  decide

/-- C6, amended: after any sequence of calls starting from a ledger with an empty
active list, a `CancelLastDelete` that succeeds gives the restored task an id
strictly greater than every id handed out since `NextID` was last set back to 1
(by `ClearAllTasks` or by `Add` on an empty active list), and strictly greater
than the id of every task in the active list. -/
theorem restored_id_above_ids_since_reset (s : TodoList) (hs : s.Tasks = [])
    (ops : List TaskOp) (tr : Trace) (hrun : runTrace (Trace.start s) ops = some tr)
    (hok : (CancelLastDelete tr.ledger).2 = none) :
    ∃ restored : Task,
      (CancelLastDelete tr.ledger).1.Tasks = tr.ledger.Tasks ++ [restored]
        ∧ (∀ i ∈ tr.sinceReset, i < restored.ID)
        ∧ (∀ t ∈ tr.ledger.Tasks, t.ID < restored.ID) := by
  have hne : tr.ledger.DeletedTasks ≠ [] := by
    intro hnil
    rw [CancelLastDelete_of_nil tr.ledger hnil] at hok
    simp at hok
  have hsince : SinceResetBelowNext tr :=
    SinceResetBelowNext_runTrace ops (Trace.start s) tr hrun (by
      intro i hi
      simp [Trace.start] at hi)
  have hfresh : ActiveIDsFresh tr.ledger :=
    ActiveIDsFresh_runOps ops s tr.ledger (runTrace_ledger ops (Trace.start s) tr hrun)
      (ActiveIDsFresh_of_Tasks_nil s hs)
  rw [CancelLastDelete_of_ne_nil tr.ledger hne]
  refine ⟨_, rfl, ?_, ?_⟩
  · intro i hi
    exact hsince i hi
  · intro t ht
    exact hfresh.1 t.ID (List.mem_map_of_mem Task.ID ht)

/-- Two tasks added and deleted, a third added (the counter restarts at 1), then
the restore: the restored task gets id 2, above the ids handed out since the
restart and above the active id 1, though id 2 was handed out before. -/
theorem restored_id_above_ids_since_reset_witness :
    zeroTodoList.Tasks = []
      ∧ runTrace (Trace.start zeroTodoList)
          [.add "a" 1, .add "b" 2, .delete 0, .delete 0, .add "c" 3]
          = some ⟨⟨[⟨1, "c", false, 3, false⟩],
                    [⟨1, "a", false, 1, false⟩, ⟨2, "b", false, 2, false⟩], 2⟩,
                  [1, 2, 1], [1]⟩
      ∧ ∃ restored : Task,
          (CancelLastDelete ⟨[⟨1, "c", false, 3, false⟩],
              [⟨1, "a", false, 1, false⟩, ⟨2, "b", false, 2, false⟩], 2⟩).1.Tasks
            = [⟨1, "c", false, 3, false⟩] ++ [restored]
          ∧ (∀ i ∈ ([1] : List Int), i < restored.ID)
          ∧ (∀ t ∈ ([⟨1, "c", false, 3, false⟩] : List Task), t.ID < restored.ID) := by
  have hrun : runTrace (Trace.start zeroTodoList)
      [.add "a" 1, .add "b" 2, .delete 0, .delete 0, .add "c" 3]
      = some ⟨⟨[⟨1, "c", false, 3, false⟩],
                [⟨1, "a", false, 1, false⟩, ⟨2, "b", false, 2, false⟩], 2⟩,
              [1, 2, 1], [1]⟩ := by decide
  exact ⟨rfl, hrun,
    restored_id_above_ids_since_reset zeroTodoList rfl _ _ hrun (by decide)⟩

/-! ## `BuyRewards` and `UpdateUserPoints` -/

theorem CalculateIsAvailableReward_snd (userPoints price : Int) :
    (CalculateIsAvailableReward userPoints price).2 = decide (userPoints ≥ price) := by
  unfold CalculateIsAvailableReward
  by_cases h : userPoints ≥ price <;> simp [h]

theorem BuyRewards_of_lt (r : RewardSystem) (i : Nat) (hi : i < r.Rewards.length)
    (hlt : r.UserPoints < r.Rewards[i].PriceOfReward) :
    BuyRewards r i =
      some (r, some ("not enough " ++ toString (r.Rewards[i].PriceOfReward - r.UserPoints)
        ++ " points")) := by
  have hnot : ¬ r.UserPoints ≥ r.Rewards[i].PriceOfReward := by omega
  simp [BuyRewards, List.getElem?_eq_getElem hi, CalculateIsAvailableReward, hnot]

theorem BuyRewards_of_ge (r : RewardSystem) (i : Nat) (hi : i < r.Rewards.length)
    (hge : r.UserPoints ≥ r.Rewards[i].PriceOfReward) :
    BuyRewards r i =
      some ({ r with UserPoints := r.UserPoints - r.Rewards[i].PriceOfReward
                     IsUserPointsUpdate := true }, none) := by
  simp [BuyRewards, List.getElem?_eq_getElem hi, CalculateIsAvailableReward, hge]

/-- C11: for an index `i` inside the list with balance below the price of reward
`i`, `BuyRewards i` returns the error whose text carries the shortfall
`price - balance`, and the ledger (balance, dirty flag, every reward, `NextID`)
is unchanged. -/
theorem BuyRewards_insufficient (r : RewardSystem) (i : Nat) (hi : i < r.Rewards.length)
    (hlt : r.UserPoints < r.Rewards[i].PriceOfReward) :
    ∃ (r1 : RewardSystem) (err : Option String), BuyRewards r i = some (r1, err)
      ∧ err = some ("not enough " ++ toString (r.Rewards[i].PriceOfReward - r.UserPoints)
          ++ " points")
      ∧ r1 = r :=
  ⟨r, _, BuyRewards_of_lt r i hi hlt, rfl, rfl⟩

/-- Balance 5, price 15, the second purchase of the scenario of the spec: the
shortfall is 10 and the balance stays 5. -/
theorem BuyRewards_insufficient_witness :
    ∃ (r1 : RewardSystem) (err : Option String),
      BuyRewards ⟨[⟨1, "Reward 1", 15, false⟩], 5, false, 2⟩ 0 = some (r1, err)
        ∧ err = some ("not enough " ++ toString ((15 : Int) - 5) ++ " points")
        ∧ r1 = ⟨[⟨1, "Reward 1", 15, false⟩], 5, false, 2⟩ :=
  BuyRewards_insufficient ⟨[⟨1, "Reward 1", 15, false⟩], 5, false, 2⟩ 0 (by decide)
    (by decide)

theorem wrapInt64_of_inRange (x : Int) (hx : InInt64Range x) : wrapInt64 x = x := by
  unfold InInt64Range at hx
  unfold wrapInt64
  omega

theorem wrapInt64_inRange (x : Int) : InInt64Range (wrapInt64 x) := by
  unfold InInt64Range wrapInt64
  omega

/-- Where neither difference leaves the range of `int`, the subtraction of 64-bit
`int` is the subtraction of integers. -/
theorem CalculateIsAvailableReward64_of_inRange (userPoints price : Int)
    (h1 : InInt64Range (userPoints - price)) (h2 : InInt64Range (price - userPoints)) :
    CalculateIsAvailableReward64 userPoints price
      = CalculateIsAvailableReward userPoints price := by
  unfold CalculateIsAvailableReward64 CalculateIsAvailableReward
  rw [wrapInt64_of_inRange _ h1, wrapInt64_of_inRange _ h2]

theorem BuyRewards64_of_ge (r : RewardSystem) (i : Nat) (hi : i < r.Rewards.length)
    (hge : r.UserPoints ≥ r.Rewards[i].PriceOfReward) :
    BuyRewards64 r i =
      some ({ r with UserPoints := wrapInt64 (r.UserPoints - r.Rewards[i].PriceOfReward)
                     IsUserPointsUpdate := true }, none) := by
  simp [BuyRewards64, List.getElem?_eq_getElem hi, CalculateIsAvailableReward64, hge]

/-- C12, as stated, fails: with the balance 2^63 - 1, the largest `int`, and a
reward whose price is -1, the balance is at least the price, `BuyRewards`
returns no error, and the subtraction wraps round: the new balance is -2^63,
which is negative. -/
theorem BuyRewards_wraps_to_negative :
    InInt64Range 9223372036854775807
      ∧ InInt64Range (-1)
      ∧ (9223372036854775807 : Int) ≥ -1
      ∧ BuyRewards64 ⟨[⟨1, "Reward 1", -1, true⟩], 9223372036854775807, false, 2⟩ 0
          = some (⟨[⟨1, "Reward 1", -1, true⟩], -9223372036854775808, true, 2⟩, none)
      ∧ ¬ (0 : Int) ≤ -9223372036854775808 := by
  decide

/-- C12, amended: for an index `i` inside the list, with balance and price of
reward `i` values of a 64-bit `int` and the balance at least the price,
`BuyRewards i` returns no error, the new balance is the old one minus the price
in the arithmetic of a 64-bit `int`, the dirty flag is set, and the rewards and
`NextID` are unchanged.  When the difference balance - price is at most
2^63 - 1, and so whenever the price is not negative, the new balance is that
difference and is not negative.  When the difference is above 2^63 - 1 the
subtraction wraps round: the new balance is the difference less 2^64, which is
negative. -/
theorem BuyRewards_affordable_within_int64 (r : RewardSystem) (i : Nat)
    (hi : i < r.Rewards.length) (hb : InInt64Range r.UserPoints)
    (hp : InInt64Range r.Rewards[i].PriceOfReward)
    (hge : r.UserPoints ≥ r.Rewards[i].PriceOfReward) :
    ∃ r1 : RewardSystem, BuyRewards64 r i = some (r1, none)
      ∧ r1.UserPoints = wrapInt64 (r.UserPoints - r.Rewards[i].PriceOfReward)
      ∧ r1.IsUserPointsUpdate = true
      ∧ r1.Rewards = r.Rewards
      ∧ r1.NextID = r.NextID
      ∧ (r.UserPoints - r.Rewards[i].PriceOfReward < 2 ^ 63 →
          r1.UserPoints = r.UserPoints - r.Rewards[i].PriceOfReward ∧ 0 ≤ r1.UserPoints)
      ∧ (0 ≤ r.Rewards[i].PriceOfReward →
          r1.UserPoints = r.UserPoints - r.Rewards[i].PriceOfReward ∧ 0 ≤ r1.UserPoints)
      ∧ (2 ^ 63 ≤ r.UserPoints - r.Rewards[i].PriceOfReward →
          r1.UserPoints = r.UserPoints - r.Rewards[i].PriceOfReward - 2 ^ 64
            ∧ r1.UserPoints < 0) := by
  unfold InInt64Range at hb hp
  refine ⟨_, BuyRewards64_of_ge r i hi hge, rfl, rfl, rfl, rfl, ?_, ?_, ?_⟩
  · intro hlt
    simp only
    unfold wrapInt64
    omega
  · intro hpos
    simp only
    unfold wrapInt64
    omega
  · intro hover
    simp only
    unfold wrapInt64
    omega

/-- Balance 20, price 15, the first purchase of the scenario of the spec: the
balance becomes 5 and the ledger is marked dirty. -/
theorem BuyRewards_affordable_within_int64_witness :
    ∃ r1 : RewardSystem,
      BuyRewards64 ⟨[⟨1, "Reward 1", 15, true⟩], 20, false, 2⟩ 0 = some (r1, none)
        ∧ r1.UserPoints = 20 - 15
        ∧ r1.IsUserPointsUpdate = true
        ∧ r1.Rewards = [⟨1, "Reward 1", 15, true⟩]
        ∧ r1.NextID = 2
        ∧ 0 ≤ r1.UserPoints := by
  obtain ⟨r1, h1, _, h3, h4, h5, h6, _, _⟩ :=
    BuyRewards_affordable_within_int64 ⟨[⟨1, "Reward 1", 15, true⟩], 20, false, 2⟩ 0
      (by decide) (by decide) (by decide) (by decide)
  have h := h6 (by decide)
  exact ⟨r1, h1, h.1, h3, h4, h5, h.2⟩

theorem UpdateUserPoints_zero (r : RewardSystem) : UpdateUserPoints r 0 = r := by
  simp [UpdateUserPoints]

theorem UpdateUserPoints_of_ne_zero (r : RewardSystem) (n : Int) (hn : n ≠ 0) :
    UpdateUserPoints r n =
      { r with UserPoints := r.UserPoints + n, IsUserPointsUpdate := true } := by
  have : n > 0 ∨ n < 0 := by omega
  simp [UpdateUserPoints, this]

/-- C13: `UpdateUserPoints 0` leaves the ledger as it is, dirty flag included;
for a delta other than 0 the balance becomes the old balance plus the delta, the
dirty flag is set, and the rewards and `NextID` are unchanged. -/
theorem UpdateUserPoints_adds_unless_zero (r : RewardSystem) (delta : Int) :
    (delta = 0 → UpdateUserPoints r delta = r)
      ∧ (delta ≠ 0 →
          (UpdateUserPoints r delta).UserPoints = r.UserPoints + delta
          ∧ (UpdateUserPoints r delta).IsUserPointsUpdate = true
          ∧ (UpdateUserPoints r delta).Rewards = r.Rewards
          ∧ (UpdateUserPoints r delta).NextID = r.NextID) := by
  constructor
  · intro h0
    rw [h0]
    exact UpdateUserPoints_zero r
  · intro hne
    rw [UpdateUserPoints_of_ne_zero r delta hne]
    exact ⟨rfl, rfl, rfl, rfl⟩

/-- Balance 10: adding 5 gives 15 and marks the ledger dirty, as in
`TestRewardHandler_UpdateUserPoints`; adding 0 changes nothing. -/
theorem UpdateUserPoints_adds_unless_zero_witness :
    UpdateUserPoints ⟨[], 10, false, 0⟩ 0 = ⟨[], 10, false, 0⟩
      ∧ (UpdateUserPoints ⟨[], 10, false, 0⟩ 5).UserPoints = 10 + 5
      ∧ (UpdateUserPoints ⟨[], 10, false, 0⟩ 5).IsUserPointsUpdate = true :=
  ⟨(UpdateUserPoints_adds_unless_zero ⟨[], 10, false, 0⟩ 0).1 rfl,
   ((UpdateUserPoints_adds_unless_zero ⟨[], 10, false, 0⟩ 5).2 (by decide)).1,
   ((UpdateUserPoints_adds_unless_zero ⟨[], 10, false, 0⟩ 5).2 (by decide)).2.1⟩

/-! ## Availability of the rewards -/

/-- C14: after `UpdateIsAvailableRewards` every reward is available exactly when
the balance is at least its price, the dirty flag is false, and the balance,
`NextID` and the id, description and price of every reward (in order) are
unchanged. -/
theorem UpdateIsAvailableRewards_recomputes (r : RewardSystem) :
    (∀ reward ∈ (UpdateIsAvailableRewards r).Rewards,
        (reward.IsAvailable = true ↔
          (UpdateIsAvailableRewards r).UserPoints ≥ reward.PriceOfReward))
      ∧ (UpdateIsAvailableRewards r).IsUserPointsUpdate = false
      ∧ (UpdateIsAvailableRewards r).UserPoints = r.UserPoints
      ∧ (UpdateIsAvailableRewards r).NextID = r.NextID
      ∧ (UpdateIsAvailableRewards r).Rewards.map
            (fun x => (x.ID, x.Description, x.PriceOfReward))
          = r.Rewards.map (fun x => (x.ID, x.Description, x.PriceOfReward)) := by
  refine ⟨?_, rfl, rfl, rfl, ?_⟩
  · intro reward hmem
    simp only [UpdateIsAvailableRewards, List.mem_map] at hmem
    obtain ⟨x, _, hx⟩ := hmem
    rw [← hx]
    simp [UpdateIsAvailableRewards, CalculateIsAvailableReward_snd]
  · simp [UpdateIsAvailableRewards, List.map_map, Function.comp_def]

theorem AddReward_eq (r : RewardSystem) (desrc : String) (price : Int) :
    AddReward r desrc price =
      { Rewards := r.Rewards ++ [{ ID := if r.Rewards = [] then 1 else r.NextID
                                   Description := desrc
                                   PriceOfReward := price
                                   IsAvailable := decide (r.UserPoints ≥ price) }]
        UserPoints := r.UserPoints
        IsUserPointsUpdate := r.IsUserPointsUpdate
        NextID := (if r.Rewards = [] then 1 else r.NextID) + 1 } := by
  cases r with
  | mk rewards points dirty next =>
    cases rewards with
    | nil => simp [AddReward, CalculateIsAvailableReward_snd]
    | cons x xs => simp [AddReward, CalculateIsAvailableReward_snd]

/-- C17: `AddReward` appends exactly one reward with the given description and
price, with id 1 when the list was empty and the old `NextID` otherwise, and
available exactly when the current balance is at least the price; `NextID`
becomes that id plus one; the balance, the dirty flag and the old rewards are
unchanged. -/
theorem AddReward_appends_one_reward (r : RewardSystem) (desrc : String) (price : Int) :
    (AddReward r desrc price).Rewards =
        r.Rewards ++ [{ ID := if r.Rewards = [] then 1 else r.NextID
                        Description := desrc
                        PriceOfReward := price
                        IsAvailable := decide (r.UserPoints ≥ price) }]
      ∧ (AddReward r desrc price).Rewards.length = r.Rewards.length + 1
      ∧ (AddReward r desrc price).Rewards.take r.Rewards.length = r.Rewards
      ∧ (AddReward r desrc price).NextID = (if r.Rewards = [] then 1 else r.NextID) + 1
      ∧ (AddReward r desrc price).UserPoints = r.UserPoints
      ∧ (AddReward r desrc price).IsUserPointsUpdate = r.IsUserPointsUpdate := by
  rw [AddReward_eq]
  simp

theorem EditPriceRewards_of_lt (r : RewardSystem) (i : Nat) (hi : i < r.Rewards.length)
    (p : Int) :
    EditPriceRewards r i p =
      some { r with Rewards := r.Rewards.set i { ID := r.Rewards[i].ID
                                                 Description := r.Rewards[i].Description
                                                 PriceOfReward := p
                                                 IsAvailable := decide (r.UserPoints ≥ p) } } := by
  simp [EditPriceRewards, List.getElem?_eq_getElem hi, CalculateIsAvailableReward_snd]

/-- C16: for an index `i` inside the list, `EditPriceRewards i p` returns; reward
`i` gets price `p` and is available exactly when the balance is at least `p`,
keeping its id and description; every other reward, the balance, the dirty flag
and `NextID` are unchanged. -/
theorem EditPriceRewards_sets_price_and_flag (r : RewardSystem) (i : Nat)
    (hi : i < r.Rewards.length) (p : Int) :
    ∃ r1 : RewardSystem, EditPriceRewards r i p = some r1
      ∧ r1.Rewards.length = r.Rewards.length
      ∧ r1.Rewards[i]? = some { ID := r.Rewards[i].ID
                                Description := r.Rewards[i].Description
                                PriceOfReward := p
                                IsAvailable := decide (r.UserPoints ≥ p) }
      ∧ (∀ j : Nat, j ≠ i → r1.Rewards[j]? = r.Rewards[j]?)
      ∧ r1.UserPoints = r.UserPoints
      ∧ r1.IsUserPointsUpdate = r.IsUserPointsUpdate
      ∧ r1.NextID = r.NextID := by
  refine ⟨_, EditPriceRewards_of_lt r i hi p, by simp, ?_, ?_, rfl, rfl, rfl⟩
  · simp [List.getElem?_set, hi]
  · intro j hj
    simp [List.getElem?_set, Ne.symm hj]

/-- Balance 10, price 10 changed to 15, as in `TestRewardHandler_EditPriceRewards`:
the reward stops being available at once, the dirty flag stays false. -/
theorem EditPriceRewards_sets_price_and_flag_witness :
    ∃ r1 : RewardSystem,
      EditPriceRewards ⟨[⟨1, "Reward", 10, true⟩], 10, false, 2⟩ 0 15 = some r1
        ∧ r1.Rewards[0]? = some ⟨1, "Reward", 15, false⟩
        ∧ r1.UserPoints = 10
        ∧ r1.IsUserPointsUpdate = false := by
  obtain ⟨r1, hr, _, hget, _, hp, hd, _⟩ :=
    EditPriceRewards_sets_price_and_flag ⟨[⟨1, "Reward", 10, true⟩], 10, false, 2⟩ 0
      (by decide) 15
  exact ⟨r1, hr, hget, hp, hd⟩

/-- Balance 12 and three stale flags: all three are recomputed. -/
theorem UpdateIsAvailableRewards_recomputes_witness :
    (UpdateIsAvailableRewards
        ⟨[⟨1, "a", 10, false⟩, ⟨2, "b", 12, false⟩, ⟨3, "c", 13, true⟩], 12, true, 4⟩)
      = ⟨[⟨1, "a", 10, true⟩, ⟨2, "b", 12, true⟩, ⟨3, "c", 13, false⟩], 12, false, 4⟩
      ∧ ∀ reward ∈ ([⟨1, "a", 10, true⟩, ⟨2, "b", 12, true⟩, ⟨3, "c", 13, false⟩] :
            List Reward),
          (reward.IsAvailable = true ↔ (12 : Int) ≥ reward.PriceOfReward) :=
  ⟨by decide,
   (UpdateIsAvailableRewards_recomputes
      ⟨[⟨1, "a", 10, false⟩, ⟨2, "b", 12, false⟩, ⟨3, "c", 13, true⟩], 12, true, 4⟩).1⟩

/-! ## The availability invariant -/

theorem AvailabilityFresh_set (r : RewardSystem) (i : Nat) (x : Reward)
    (hx : x.IsAvailable = decide (r.UserPoints ≥ x.PriceOfReward))
    (hinv : AvailabilityFresh r) :
    AvailabilityFresh { r with Rewards := r.Rewards.set i x } := by
  intro reward hmem
  rcases List.mem_or_eq_of_mem_set hmem with hold | hnew
  · exact hinv reward hold
  · rw [hnew]
    exact hx

theorem clean_fresh_applyRewardOp (r r1 : RewardSystem) (op : RewardOp)
    (hstep : applyRewardOp r op = some r1)
    (hinv : r.IsUserPointsUpdate = false → AvailabilityFresh r) :
    r1.IsUserPointsUpdate = false → AvailabilityFresh r1 := by
  cases op with
  | addReward desrc price =>
    simp only [applyRewardOp, Option.some.injEq] at hstep
    rw [← hstep, AddReward_eq]
    intro hclean reward hmem
    simp only [List.mem_append, List.mem_singleton] at hmem
    rcases hmem with hold | hnew
    · exact hinv hclean reward hold
    · rw [hnew]
  | buyRewards i =>
    simp only [applyRewardOp] at hstep
    by_cases hi : i < r.Rewards.length
    · by_cases hge : r.UserPoints ≥ r.Rewards[i].PriceOfReward
      · rw [BuyRewards_of_ge r i hi hge] at hstep
        simp only [Option.map_some', Option.some.injEq] at hstep
        rw [← hstep]
        intro hclean
        simp at hclean
      · rw [BuyRewards_of_lt r i hi (by omega)] at hstep
        simp only [Option.map_some', Option.some.injEq] at hstep
        rw [← hstep]
        exact hinv
    · have hnone : r.Rewards[i]? = none := List.getElem?_eq_none (by omega)
      simp [BuyRewards, hnone] at hstep
  | updateUserPoints n =>
    simp only [applyRewardOp, Option.some.injEq] at hstep
    rw [← hstep]
    by_cases hn : n = 0
    · rw [hn, UpdateUserPoints_zero]
      exact hinv
    · rw [UpdateUserPoints_of_ne_zero r n hn]
      intro hclean
      simp at hclean
  | editDesrcRewards i newDesrc =>
    simp only [applyRewardOp, EditDesrcRewards] at hstep
    cases hget : r.Rewards[i]? with
    | none => simp [hget] at hstep
    | some reward =>
      simp only [hget, Option.some.injEq] at hstep
      rw [← hstep]
      intro hclean
      exact AvailabilityFresh_set r i _ (hinv hclean reward (List.mem_iff_getElem?.mpr ⟨i, hget⟩))
        (hinv hclean)
  | editPriceRewards i newPrice =>
    simp only [applyRewardOp, EditPriceRewards] at hstep
    cases hget : r.Rewards[i]? with
    | none => simp [hget] at hstep
    | some reward =>
      simp only [hget, Option.some.injEq] at hstep
      rw [← hstep]
      intro hclean
      exact AvailabilityFresh_set r i _ (CalculateIsAvailableReward_snd _ _) (hinv hclean)
  | deleteReward i =>
    simp only [applyRewardOp, DeleteReward] at hstep
    by_cases hi : i < r.Rewards.length
    · simp only [hi, if_true, Option.some.injEq] at hstep
      rw [← hstep]
      intro hclean reward hmem
      simp only [List.mem_append] at hmem
      rcases hmem with h1 | h2
      · exact hinv hclean reward (List.mem_of_mem_take h1)
      · exact hinv hclean reward (List.mem_of_mem_drop h2)
    · simp [hi] at hstep
  | updateIsAvailableRewards =>
    simp only [applyRewardOp, Option.some.injEq] at hstep
    rw [← hstep]
    intro _ reward hmem
    simp only [UpdateIsAvailableRewards, List.mem_map] at hmem
    obtain ⟨x, _, hx⟩ := hmem
    rw [← hx]
    simp [UpdateIsAvailableRewards, CalculateIsAvailableReward_snd]
  | clearAllRewards =>
    simp only [applyRewardOp, Option.some.injEq] at hstep
    rw [← hstep]
    intro _ reward hmem
    simp [ClearAllRewards] at hmem
  | resetPoints =>
    simp only [applyRewardOp, Option.some.injEq] at hstep
    rw [← hstep]
    intro hclean
    simp [ResetPoints] at hclean

theorem clean_fresh_runRewardOps (ops : List RewardOp) :
    ∀ r r1 : RewardSystem, runRewardOps r ops = some r1 →
      (r.IsUserPointsUpdate = false → AvailabilityFresh r) →
      (r1.IsUserPointsUpdate = false → AvailabilityFresh r1) := by
  induction ops with
  | nil =>
    intro r r1 hrun hinv
    simp only [runRewardOps, Option.some.injEq] at hrun
    rw [← hrun]
    exact hinv
  | cons op rest ih =>
    intro r r1 hrun hinv
    simp only [runRewardOps] at hrun
    cases hstep : applyRewardOp r op with
    | none => simp [hstep] at hrun
    | some r2 =>
      simp only [hstep] at hrun
      exact ih r2 r1 hrun (clean_fresh_applyRewardOp r r2 op hstep hinv)

/-- C15: in a reward ledger reached from one without rewards (the empty ledger,
balance 0 and dirty flag false, included) by any sequence of `AddReward`,
`BuyRewards`, `UpdateUserPoints`, `EditDesrcRewards`, `EditPriceRewards`,
`DeleteReward`, `UpdateIsAvailableRewards`, `ClearAllRewards` and `ResetPoints`,
whenever the dirty flag is false every reward is available exactly when the
balance is at least its price. -/
theorem availability_fresh_when_clean (r0 : RewardSystem) (h0 : r0.Rewards = [])
    (ops : List RewardOp) (r : RewardSystem) (hrun : runRewardOps r0 ops = some r)
    (hclean : r.IsUserPointsUpdate = false) :
    ∀ reward ∈ r.Rewards, (reward.IsAvailable = true ↔ r.UserPoints ≥ reward.PriceOfReward) := by
  have hinv : r0.IsUserPointsUpdate = false → AvailabilityFresh r0 := by
    intro _ reward hmem
    simp [h0] at hmem
  intro reward hmem
  have := clean_fresh_runRewardOps ops r0 r hrun hinv hclean reward hmem
  rw [this]
  simp

/-- Points earned, two rewards added, the price of one raised, a failed
purchase: the flag is clean again after the recomputation and both cached flags
agree with the balance 12. -/
theorem availability_fresh_when_clean_witness :
    zeroRewardSystem.Rewards = []
      ∧ runRewardOps zeroRewardSystem
          [.updateUserPoints 12, .addReward "tea" 10, .addReward "book" 30,
           .updateIsAvailableRewards, .editPriceRewards 0 13, .buyRewards 1]
          = some ⟨[⟨1, "tea", 13, false⟩, ⟨2, "book", 30, false⟩], 12, false, 3⟩
      ∧ ∀ reward ∈ ([⟨1, "tea", 13, false⟩, ⟨2, "book", 30, false⟩] : List Reward),
          (reward.IsAvailable = true ↔ (12 : Int) ≥ reward.PriceOfReward) := by
  have hrun : runRewardOps zeroRewardSystem
      [.updateUserPoints 12, .addReward "tea" 10, .addReward "book" 30,
       .updateIsAvailableRewards, .editPriceRewards 0 13, .buyRewards 1]
      = some ⟨[⟨1, "tea", 13, false⟩, ⟨2, "book", 30, false⟩], 12, false, 3⟩ := by decide
  exact ⟨rfl, hrun, availability_fresh_when_clean zeroRewardSystem rfl _ _ hrun rfl⟩

/-! ## The commands `complete` and `not-complete` -/

theorem Complete_of_pending (h : TodoList) (i : Nat) (t : Task) (ht : h.Tasks[i]? = some t)
    (hp : t.IsComplete = false) :
    Complete h i = some ({ h with Tasks := h.Tasks.set i { t with IsComplete := true } }, none) := by
  simp [Complete, ht, hp]

theorem NotCompleted_of_complete (h : TodoList) (i : Nat) (t : Task)
    (ht : h.Tasks[i]? = some t) (hc : t.IsComplete = true) :
    NotCompleted h i =
      some ({ h with Tasks := h.Tasks.set i { t with IsComplete := false } }, none) := by
  simp [NotCompleted, ht, hc]

theorem lt_length_of_getElem? {α : Type} (l : List α) (i : Nat) (x : α)
    (hx : l[i]? = some x) : i < l.length := by
  by_contra hge
  rw [List.getElem?_eq_none (by omega)] at hx
  simp at hx

theorem getElem?_set_self_of_getElem? {α : Type} (l : List α) (i : Nat) (x y : α)
    (hx : l[i]? = some x) : (l.set i y)[i]? = some y := by
  simp [List.getElem?_set, lt_length_of_getElem? l i x hx]

theorem set_eq_self_of_getElem? {α : Type} (l : List α) (i : Nat) (x : α)
    (hx : l[i]? = some x) : l.set i x = l := by
  induction l generalizing i with
  | nil => simp
  | cons a rest ih =>
    cases i with
    | zero =>
      simp only [List.getElem?_cons_zero, Option.some.injEq] at hx
      simp [hx]
    | succ k =>
      simp only [List.getElem?_cons_succ] at hx
      simp [ih k hx]

theorem Save_of_ok (saveErr : Nat → Option String) (hsave : ∀ k, saveErr k = none) (s : Run)
    (w : FileWrite) :
    Save saveErr s w =
      ({ disk := (match w with
                  | .todo doc => { s.disk with todoFile := doc }
                  | .reward doc => { s.disk with rewardFile := doc })
         writes := s.writes ++ [w]
         saveCalls := s.saveCalls + 1 }, none) := by
  simp [Save, hsave]

theorem Save_rewardFile_of_todo (saveErr : Nat → Option String) (s : Run) (doc : TodoList) :
    (Save saveErr s (.todo doc)).1.disk.rewardFile = s.disk.rewardFile := by
  unfold Save
  cases saveErr s.saveCalls <;> rfl

theorem completeCmdFinish_rewardFile (saveErr : Nat → Option String) (s : Run) (h : TodoList)
    (i : Nat) (deleteFlag forceFlag : Bool) (confirm : String) :
    (completeCmdFinish saveErr s h i deleteFlag forceFlag confirm).disk.rewardFile
      = s.disk.rewardFile := by
  unfold completeCmdFinish
  have h1 := Save_rewardFile_of_todo saveErr s h
  cases hs : Save saveErr s (.todo h) with
  | mk s1 err =>
    rw [hs] at h1
    simp only at h1
    cases err with
    | some e => simpa using h1
    | none =>
      simp only
      split
      · split
        · exact h1
        · cases Delete h i with
          | none => exact h1
          | some h2 =>
            simp only
            rw [Save_rewardFile_of_todo]
            exact h1
      · exact h1

theorem CompleteCmd_force_without_delete (saveErr : Nat → Option String)
    (hsave : ∀ k, saveErr k = none) (d : Disk) (arg : String) (i : Nat) (t : Task)
    (confirm : String) (hres : Resolves d.todoFile arg i) (ht : d.todoFile.Tasks[i]? = some t)
    (hp : t.IsComplete = false) :
    (CompleteCmd saveErr d arg false true confirm).disk =
      { todoFile :=
          { d.todoFile with Tasks := d.todoFile.Tasks.set i { t with IsComplete := true } }
        rewardFile := d.rewardFile } := by
  obtain ⟨id, hv, hc⟩ := hres
  unfold CompleteCmd
  simp only [hv, hc, Int.toNat_ofNat, Complete_of_pending _ _ _ ht hp,
    Save_of_ok saveErr hsave]
  simp [Run.start]

theorem CompleteCmd_rewardFile (saveErr : Nat → Option String)
    (hsave : ∀ k, saveErr k = none) (d : Disk) (arg : String) (i : Nat) (t : Task)
    (deleteFlag forceFlag : Bool) (confirm : String)
    (hres : Resolves d.todoFile arg i) (ht : d.todoFile.Tasks[i]? = some t)
    (hp : t.IsComplete = false) (hflags : (forceFlag && !deleteFlag) = false) :
    (CompleteCmd saveErr d arg deleteFlag forceFlag confirm).disk.rewardFile =
      if t.IsTaskPointsReceive then d.rewardFile
      else UpdateUserPoints d.rewardFile t.TaskPoints := by
  obtain ⟨id, hv, hc⟩ := hres
  unfold CompleteCmd
  simp only [hv, hc, Int.toNat_ofNat, Complete_of_pending _ _ _ ht hp,
    Save_of_ok saveErr hsave, hflags, Bool.false_eq_true, if_false,
    getElem?_set_self_of_getElem? _ _ _ _ ht]
  by_cases hs : t.IsTaskPointsReceive = true
  · simp [hs, completeCmdFinish_rewardFile, Run.start]
  · simp [hs, completeCmdFinish_rewardFile, Run.start]

theorem CompleteCmd_no_flags (saveErr : Nat → Option String)
    (hsave : ∀ k, saveErr k = none) (d : Disk) (arg : String) (i : Nat) (t : Task)
    (confirm : String) (hres : Resolves d.todoFile arg i) (ht : d.todoFile.Tasks[i]? = some t)
    (hp : t.IsComplete = false) :
    (CompleteCmd saveErr d arg false false confirm).disk =
      { todoFile :=
          { d.todoFile with
            Tasks := d.todoFile.Tasks.set i
              { t with IsComplete := true, IsTaskPointsReceive := true } }
        rewardFile :=
          if t.IsTaskPointsReceive then d.rewardFile
          else UpdateUserPoints d.rewardFile t.TaskPoints } := by
  obtain ⟨id, hv, hc⟩ := hres
  unfold CompleteCmd
  simp only [hv, hc, Int.toNat_ofNat, Complete_of_pending _ _ _ ht hp,
    Save_of_ok saveErr hsave, Bool.false_eq_true, if_false, Bool.and_false, Bool.not_false,
    Bool.and_true, getElem?_set_self_of_getElem? _ _ _ _ ht]
  by_cases hs : t.IsTaskPointsReceive = true
  · simp [hs, completeCmdFinish, Save_of_ok saveErr hsave, Run.start]
  · simp [hs, completeCmdFinish, Save_of_ok saveErr hsave, Run.start, List.set_set]

theorem NotCompletedCmd_disk (saveErr : Nat → Option String)
    (hsave : ∀ k, saveErr k = none) (d : Disk) (arg : String) (i : Nat) (t : Task)
    (hres : Resolves d.todoFile arg i) (ht : d.todoFile.Tasks[i]? = some t)
    (hc : t.IsComplete = true) :
    (NotCompletedCmd saveErr d arg).disk =
      { todoFile :=
          { d.todoFile with
            Tasks := d.todoFile.Tasks.set i
              { t with IsComplete := false, IsTaskPointsReceive := false } }
        rewardFile :=
          if t.IsTaskPointsReceive then UpdateUserPoints d.rewardFile (-(t.TaskPoints))
          else d.rewardFile } := by
  obtain ⟨id, hv, hci⟩ := hres
  unfold NotCompletedCmd
  simp only [hv, hci, Int.toNat_ofNat, NotCompleted_of_complete _ _ _ ht hc,
    Save_of_ok saveErr hsave, getElem?_set_self_of_getElem? _ _ _ _ ht]
  by_cases hs : t.IsTaskPointsReceive = true
  · simp [hs, Save_of_ok saveErr hsave, Run.start, List.set_set]
  · simp [hs, Save_of_ok saveErr hsave, Run.start]

theorem UpdateUserPoints_UserPoints (r : RewardSystem) (n : Int) :
    (UpdateUserPoints r n).UserPoints = r.UserPoints + n := by
  by_cases hn : n = 0
  · rw [hn, UpdateUserPoints_zero]
    simp
  · rw [UpdateUserPoints_of_ne_zero r n hn]

theorem Resolves_of_same_ids (h h1 : TodoList) (arg : String) (i : Nat)
    (hids : h1.Tasks.map Task.ID = h.Tasks.map Task.ID) (hn : h1.NextID = h.NextID)
    (hres : Resolves h arg i) : Resolves h1 arg i := by
  obtain ⟨id, hv, hc⟩ := hres
  refine ⟨id, ?_, ?_⟩
  · rw [hn]
    exact hv
  · simp only [CheckExistItem] at hc ⊢
    rw [hids]
    exact hc

/-- C18 fails on the code: `complete 1 --force` without `--delete`, on a pending
task worth 10 points that is not settled, with balance 0 and every save
succeeding.  The todo file ends with the task marked complete and not settled,
and the reward file still has balance 0: the command returns at the check of the
flags, after the first save and before the settlement. -/
theorem CompleteCmd_force_only_skips_settlement :
    (CompleteCmd (fun _ => none)
        ⟨⟨[⟨1, "buy milk", false, 10, false⟩], [], 2⟩, ⟨[], 0, false, 0⟩⟩
        "1" false true "").disk
      = ⟨⟨[⟨1, "buy milk", true, 10, false⟩], [], 2⟩, ⟨[], 0, false, 0⟩⟩ := by
  decide

/-- C19: a run of `not-complete` that finds a completed task at index `i`, with
every save succeeding, leaves the task not complete and not settled in the todo
file, every other task, the deleted buffer and `NextID` as they were; the balance
in the reward file goes down by the points of the task when the task was
settled, and the reward file is unchanged when it was not. -/
theorem NotCompletedCmd_unsettles (saveErr : Nat → Option String)
    (hsave : ∀ k, saveErr k = none) (d : Disk) (arg : String) (i : Nat) (t : Task)
    (hres : Resolves d.todoFile arg i) (ht : d.todoFile.Tasks[i]? = some t)
    (hc : t.IsComplete = true) :
    (NotCompletedCmd saveErr d arg).disk.todoFile.Tasks[i]?
        = some { ID := t.ID
                 Text := t.Text
                 IsComplete := false
                 TaskPoints := t.TaskPoints
                 IsTaskPointsReceive := false }
      ∧ (∀ j : Nat, j ≠ i →
          (NotCompletedCmd saveErr d arg).disk.todoFile.Tasks[j]? = d.todoFile.Tasks[j]?)
      ∧ (NotCompletedCmd saveErr d arg).disk.todoFile.DeletedTasks = d.todoFile.DeletedTasks
      ∧ (NotCompletedCmd saveErr d arg).disk.todoFile.NextID = d.todoFile.NextID
      ∧ (t.IsTaskPointsReceive = true →
          (NotCompletedCmd saveErr d arg).disk.rewardFile.UserPoints
            = d.rewardFile.UserPoints - t.TaskPoints)
      ∧ (t.IsTaskPointsReceive = false →
          (NotCompletedCmd saveErr d arg).disk.rewardFile = d.rewardFile) := by
  rw [NotCompletedCmd_disk saveErr hsave d arg i t hres ht hc]
  refine ⟨?_, ?_, rfl, rfl, ?_, ?_⟩
  · exact getElem?_set_self_of_getElem? _ _ _ _ ht
  · intro j hj
    simp [List.getElem?_set, Ne.symm hj]
  · intro hs
    simp only [hs, if_true, UpdateUserPoints_UserPoints]
    omega
  · intro hs
    simp [hs]

/-- A completed and settled task worth 10 points, balance 10: after
`not-complete 1` the task is pending and not settled and the balance is 0. -/
theorem NotCompletedCmd_unsettles_witness :
    (NotCompletedCmd (fun _ => none)
        ⟨⟨[⟨1, "buy milk", true, 10, true⟩], [], 2⟩, ⟨[], 10, true, 0⟩⟩ "1").disk.todoFile.Tasks[0]?
        = some ⟨1, "buy milk", false, 10, false⟩
      ∧ (NotCompletedCmd (fun _ => none)
          ⟨⟨[⟨1, "buy milk", true, 10, true⟩], [], 2⟩, ⟨[], 10, true, 0⟩⟩
          "1").disk.rewardFile.UserPoints = 10 - 10 := by
  have key := NotCompletedCmd_unsettles (fun _ => none) (fun _ => rfl)
    ⟨⟨[⟨1, "buy milk", true, 10, true⟩], [], 2⟩, ⟨[], 10, true, 0⟩⟩ "1" 0
    ⟨1, "buy milk", true, 10, true⟩ ⟨1, by decide, by decide⟩ (by decide) rfl
  exact ⟨key.1, key.2.2.2.2.1 rfl⟩

/-- C20: for a pending task that is not settled, found at index `i`, with points
`p` and balance `b`, and every save succeeding: after `complete` (no flag) the
balance is `b + p` and the task is complete and settled; after `not-complete` on
the result the todo file holds the original task ledger and the balance is `b`
again. -/
theorem complete_then_not_complete_restores (saveErr1 saveErr2 : Nat → Option String)
    (hsave1 : ∀ k, saveErr1 k = none) (hsave2 : ∀ k, saveErr2 k = none)
    (d : Disk) (arg : String) (i : Nat) (t : Task) (confirm : String)
    (hres : Resolves d.todoFile arg i) (ht : d.todoFile.Tasks[i]? = some t)
    (hp : t.IsComplete = false) (hu : t.IsTaskPointsReceive = false) :
    (CompleteCmd saveErr1 d arg false false confirm).disk.rewardFile.UserPoints
        = d.rewardFile.UserPoints + t.TaskPoints
      ∧ (CompleteCmd saveErr1 d arg false false confirm).disk.todoFile.Tasks[i]?
        = some { ID := t.ID
                 Text := t.Text
                 IsComplete := true
                 TaskPoints := t.TaskPoints
                 IsTaskPointsReceive := true }
      ∧ (NotCompletedCmd saveErr2
          (CompleteCmd saveErr1 d arg false false confirm).disk arg).disk.todoFile
        = d.todoFile
      ∧ (NotCompletedCmd saveErr2
          (CompleteCmd saveErr1 d arg false false confirm).disk arg).disk.rewardFile.UserPoints
        = d.rewardFile.UserPoints := by
  have h1 := CompleteCmd_no_flags saveErr1 hsave1 d arg i t confirm hres ht hp
  have hget : (CompleteCmd saveErr1 d arg false false confirm).disk.todoFile.Tasks[i]?
      = some { t with IsComplete := true, IsTaskPointsReceive := true } := by
    rw [h1]
    exact getElem?_set_self_of_getElem? _ _ _ _ ht
  have hres1 : Resolves (CompleteCmd saveErr1 d arg false false confirm).disk.todoFile arg i := by
    apply Resolves_of_same_ids d.todoFile _ arg i _ _ hres
    · rw [h1]
      exact map_ID_set d.todoFile.Tasks i t _ ht rfl
    · rw [h1]
  have h2 := NotCompletedCmd_disk saveErr2 hsave2
    (CompleteCmd saveErr1 d arg false false confirm).disk arg i _ hres1 hget rfl
  refine ⟨?_, hget, ?_, ?_⟩
  · rw [h1]
    simp [hu, UpdateUserPoints_UserPoints]
  · rw [h2, h1]
    simp only [List.set_set]
    have htt : Task.mk t.ID t.Text false t.TaskPoints false = t := by
      cases t
      simp only at hp hu
      simp [hp, hu]
    rw [htt, set_eq_self_of_getElem? _ _ _ ht]
  · rw [h2, h1]
    simp [hu, UpdateUserPoints_UserPoints]

/-- The scenario of the spec: "buy milk" worth 10 points with id 1, balance 0;
`complete 1` gives balance 10, `not-complete 1` gives the first todo file and
balance 0 back. -/
theorem complete_then_not_complete_restores_witness :
    (CompleteCmd (fun _ => none)
        ⟨Add zeroTodoList "buy milk" 10, zeroRewardSystem⟩ "1" false false
        "").disk.rewardFile.UserPoints = 0 + 10
      ∧ (NotCompletedCmd (fun _ => none)
          (CompleteCmd (fun _ => none)
            ⟨Add zeroTodoList "buy milk" 10, zeroRewardSystem⟩ "1" false false "").disk
          "1").disk.todoFile = Add zeroTodoList "buy milk" 10
      ∧ (NotCompletedCmd (fun _ => none)
          (CompleteCmd (fun _ => none)
            ⟨Add zeroTodoList "buy milk" 10, zeroRewardSystem⟩ "1" false false "").disk
          "1").disk.rewardFile.UserPoints = 0 := by
  have key := complete_then_not_complete_restores (fun _ => none) (fun _ => none)
    (fun _ => rfl) (fun _ => rfl) ⟨Add zeroTodoList "buy milk" 10, zeroRewardSystem⟩ "1" 0
    ⟨1, "buy milk", false, 10, false⟩ "" ⟨1, by decide, by decide⟩ (by decide) rfl rfl
  exact ⟨key.1, key.2.2.1, key.2.2.2⟩

/-! ## The order of the saves -/

/-- C21 fails on the code for `not-complete`: on a completed and settled task
worth 10 points with balance 10, `not-complete 1` saves the reward file first,
with balance 0, while the todo file still holds the task as complete, and the
todo file second.  When that second save fails the files are left with the
points taken back and the task still complete and settled. -/
theorem NotCompletedCmd_saves_reward_first :
    (NotCompletedCmd (fun _ => none)
        ⟨⟨[⟨1, "buy milk", true, 10, true⟩], [], 2⟩, ⟨[], 10, true, 0⟩⟩ "1").writes
      = [.reward ⟨[], 0, true, 0⟩, .todo ⟨[⟨1, "buy milk", false, 10, false⟩], [], 2⟩]
      ∧ (NotCompletedCmd (fun k => if k = 1 then some "no space left on device" else none)
          ⟨⟨[⟨1, "buy milk", true, 10, true⟩], [], 2⟩, ⟨[], 10, true, 0⟩⟩ "1").disk
        = ⟨⟨[⟨1, "buy milk", true, 10, true⟩], [], 2⟩, ⟨[], 0, true, 0⟩⟩ := by
  decide

/-! ## `ValidateID`, `ValidatePointsOrPrice` and `CheckExistItem` -/

/-- C22: `ValidateID s max` returns `(n, nil)` exactly when `strconv.Atoi`
accepts `s` with value `n` and `1 ≤ n ≤ max`; in every other case it returns -1
and an error. -/
theorem ValidateID_accepts_iff (s : String) (max : Int) :
    (∀ n : Int, ValidateID s max = (n, none) ↔ (Atoi s = some n ∧ 1 ≤ n ∧ n ≤ max))
      ∧ ((¬ ∃ n : Int, Atoi s = some n ∧ 1 ≤ n ∧ n ≤ max) →
          ValidateID s max = (-1, some "incorrect id")) := by
  cases hA : Atoi s with
  | none =>
    have hval : ValidateID s max = (-1, some "incorrect id") := by simp [ValidateID, hA]
    rw [hval]
    simp
  | some id =>
    have hval : ValidateID s max =
        (if id < 1 ∨ id > max then (-1, some "incorrect id") else (id, none)) := by
      simp [ValidateID, hA]
    rw [hval]
    by_cases hr : id < 1 ∨ id > max
    · rw [if_pos hr]
      refine ⟨?_, fun _ => rfl⟩
      intro n
      constructor
      · intro h
        simp at h
      · rintro ⟨hn, h1, h2⟩
        simp only [Option.some.injEq] at hn
        omega
    · rw [if_neg hr]
      refine ⟨?_, ?_⟩
      · intro n
        constructor
        · intro h
          simp only [Prod.mk.injEq, and_true] at h
          subst h
          exact ⟨rfl, by omega, by omega⟩
        · rintro ⟨hn, _, _⟩
          simp only [Option.some.injEq] at hn
          rw [hn]
      · intro hno
        exact absurd ⟨id, rfl, by omega, by omega⟩ hno

/-- The cases of `TestValidateID`: "5" and "10" pass against 10; "0", "11" and
"abc" are rejected with -1. -/
theorem ValidateID_accepts_iff_witness :
    ValidateID "5" 10 = (5, none)
      ∧ ValidateID "10" 10 = (10, none)
      ∧ ValidateID "0" 10 = (-1, some "incorrect id")
      ∧ ValidateID "11" 10 = (-1, some "incorrect id")
      ∧ ValidateID "abc" 10 = (-1, some "incorrect id") := by
  refine ⟨((ValidateID_accepts_iff "5" 10).1 5).2 (by decide),
    ((ValidateID_accepts_iff "10" 10).1 10).2 (by decide),
    (ValidateID_accepts_iff "0" 10).2 ?_, (ValidateID_accepts_iff "11" 10).2 ?_,
    (ValidateID_accepts_iff "abc" 10).2 ?_⟩
  · rintro ⟨n, hn, h1, _⟩
    have h0 : Atoi "0" = some 0 := by decide
    rw [h0] at hn
    simp only [Option.some.injEq] at hn
    omega
  · rintro ⟨n, hn, _, h2⟩
    have h0 : Atoi "11" = some 11 := by decide
    rw [h0] at hn
    simp only [Option.some.injEq] at hn
    omega
  · rintro ⟨n, hn, _, _⟩
    have h0 : Atoi "abc" = none := by decide
    rw [h0] at hn
    simp at hn

/-- C24: `ValidatePointsOrPrice s` returns `(n, nil)` exactly when
`strconv.Atoi` accepts `s` with value `n` and `n ≥ 0` (zero included); for an
input that does not parse or is negative it returns -1 and an error. -/
theorem ValidatePointsOrPrice_accepts_iff (atoiErr : String → String) (s : String) :
    (∀ n : Int, ValidatePointsOrPrice atoiErr s = (n, none) ↔ (Atoi s = some n ∧ 0 ≤ n))
      ∧ ((¬ ∃ n : Int, Atoi s = some n ∧ 0 ≤ n) →
          (ValidatePointsOrPrice atoiErr s).1 = -1
            ∧ (ValidatePointsOrPrice atoiErr s).2 ≠ none) := by
  cases hA : Atoi s with
  | none =>
    have hval : ValidatePointsOrPrice atoiErr s =
        (-1, some ("incorrect count (" ++ atoiErr s ++ ")")) := by
      simp [ValidatePointsOrPrice, hA]
    rw [hval]
    simp
  | some c =>
    have hval : ValidatePointsOrPrice atoiErr s =
        (if c < 0 then (-1, some "count must be positive") else (c, none)) := by
      simp [ValidatePointsOrPrice, hA]
    rw [hval]
    by_cases hr : c < 0
    · rw [if_pos hr]
      refine ⟨?_, fun _ => ⟨rfl, by simp⟩⟩
      intro n
      constructor
      · intro h
        simp at h
      · rintro ⟨hn, h1⟩
        simp only [Option.some.injEq] at hn
        omega
    · rw [if_neg hr]
      refine ⟨?_, ?_⟩
      · intro n
        constructor
        · intro h
          simp only [Prod.mk.injEq, and_true] at h
          subst h
          exact ⟨rfl, by omega⟩
        · rintro ⟨hn, _⟩
          simp only [Option.some.injEq] at hn
          rw [hn]
      · intro hno
        exact absurd ⟨c, rfl, by omega⟩ hno

/-- The cases of `TestValidatePointsOrPrice`, and zero: "20" and "0" pass, "-5"
and "abc" are rejected with -1. -/
theorem ValidatePointsOrPrice_accepts_iff_witness :
    ValidatePointsOrPrice (fun _ => "invalid syntax") "20" = (20, none)
      ∧ ValidatePointsOrPrice (fun _ => "invalid syntax") "0" = (0, none)
      ∧ (ValidatePointsOrPrice (fun _ => "invalid syntax") "-5").1 = -1
      ∧ (ValidatePointsOrPrice (fun _ => "invalid syntax") "abc").1 = -1 := by
  refine ⟨((ValidatePointsOrPrice_accepts_iff _ "20").1 20).2 (by decide),
    ((ValidatePointsOrPrice_accepts_iff _ "0").1 0).2 (by decide),
    ((ValidatePointsOrPrice_accepts_iff _ "-5").2 ?_).1,
    ((ValidatePointsOrPrice_accepts_iff _ "abc").2 ?_).1⟩
  · rintro ⟨n, hn, h1⟩
    have h0 : Atoi "-5" = some (-5) := by decide
    rw [h0] at hn
    simp only [Option.some.injEq] at hn
    omega
  · rintro ⟨n, hn, _⟩
    have h0 : Atoi "abc" = none := by decide
    rw [h0] at hn
    simp at hn

/-- C25: `ClearAllTasks` leaves the active list empty and `NextID` equal to 1,
and the deleted buffer as it was. -/
theorem ClearAllTasks_empties_active_only (h : TodoList) :
    (ClearAllTasks h).Tasks = []
      ∧ (ClearAllTasks h).NextID = 1
      ∧ (ClearAllTasks h).DeletedTasks = h.DeletedTasks :=
  ⟨rfl, rfl, rfl⟩

theorem findIndexByID_of_not_mem (id : Int) (ids : List Int) :
    ∀ k : Int, id ∉ ids → findIndexByID id ids k = -1 := by
  induction ids with
  | nil => intro k _; rfl
  | cons x rest ih =>
    intro k hnot
    simp only [List.mem_cons, not_or] at hnot
    have hx : ¬ x = id := fun h => hnot.1 h.symm
    simp only [findIndexByID, hx, if_false]
    exact ih (k + 1) hnot.2

theorem findIndexByID_of_mem (id : Int) (ids : List Int) :
    ∀ k : Int, id ∈ ids →
      ∃ j : Nat, j < ids.length ∧ findIndexByID id ids k = k + (j : Int)
        ∧ ids[j]? = some id ∧ ∀ m : Nat, m < j → ids[m]? ≠ some id := by
  induction ids with
  | nil => intro k hmem; simp at hmem
  | cons x rest ih =>
    intro k hmem
    by_cases hx : x = id
    · refine ⟨0, by simp, by simp [findIndexByID, hx], by simp [hx], ?_⟩
      intro m hm
      omega
    · have hrest : id ∈ rest := by
        rcases List.mem_cons.mp hmem with h | h
        · exact absurd h.symm hx
        · exact h
      obtain ⟨j, hj, hfind, hget, hfirst⟩ := ih (k + 1) hrest
      refine ⟨j + 1, by simp [hj], ?_, by simpa using hget, ?_⟩
      · simp only [findIndexByID, hx, if_false, hfind]
        push_cast
        ring
      · intro m hm
        cases m with
        | zero => simp [hx]
        | succ m1 =>
          simp only [List.getElem?_cons_succ]
          exact hfirst m1 (by omega)

theorem findIndexByID_first (id : Int) (ids : List Int) :
    (findIndexByID id ids 0 = -1 ↔ id ∉ ids)
      ∧ (findIndexByID id ids 0 ≠ -1 →
          ∃ j : Nat, findIndexByID id ids 0 = (j : Int) ∧ j < ids.length
            ∧ ids[j]? = some id ∧ ∀ m : Nat, m < j → ids[m]? ≠ some id) := by
  by_cases hmem : id ∈ ids
  · obtain ⟨j, hj, hfind, hget, hfirst⟩ := findIndexByID_of_mem id ids 0 hmem
    rw [zero_add] at hfind
    refine ⟨?_, fun _ => ⟨j, hfind, hj, hget, hfirst⟩⟩
    constructor
    · intro h
      rw [hfind] at h
      omega
    · intro h
      exact absurd hmem h
  · have hfind := findIndexByID_of_not_mem id ids 0 hmem
    exact ⟨⟨fun _ => hmem, fun _ => hfind⟩, fun h => absurd hfind h⟩

/-- C23: on a list of tasks, and on a list of rewards, `CheckExistItem` returns
an error (and -1) exactly when no element has the id; otherwise it returns the
index `i` of the first element with that id, so that `i` lies inside the list
and the element at `i` has the id. -/
theorem CheckExistItem_finds_first (id : Int) (tasks : List Task) (rewards : List Reward) :
    (((CheckExistItem id (.tasks tasks)).2 ≠ none ↔ ∀ t ∈ tasks, t.ID ≠ id)
      ∧ ((CheckExistItem id (.tasks tasks)).2 ≠ none → (CheckExistItem id (.tasks tasks)).1 = -1)
      ∧ ((CheckExistItem id (.tasks tasks)).2 = none →
          ∃ i : Nat, (CheckExistItem id (.tasks tasks)).1 = (i : Int) ∧ i < tasks.length
            ∧ (∃ t : Task, tasks[i]? = some t ∧ t.ID = id)
            ∧ ∀ m : Nat, m < i → ∀ t : Task, tasks[m]? = some t → t.ID ≠ id))
    ∧ (((CheckExistItem id (.rewards rewards)).2 ≠ none ↔ ∀ r ∈ rewards, r.ID ≠ id)
      ∧ ((CheckExistItem id (.rewards rewards)).2 ≠ none →
          (CheckExistItem id (.rewards rewards)).1 = -1)
      ∧ ((CheckExistItem id (.rewards rewards)).2 = none →
          ∃ i : Nat, (CheckExistItem id (.rewards rewards)).1 = (i : Int) ∧ i < rewards.length
            ∧ (∃ r : Reward, rewards[i]? = some r ∧ r.ID = id)
            ∧ ∀ m : Nat, m < i → ∀ r : Reward, rewards[m]? = some r → r.ID ≠ id)) := by
  constructor
  · obtain ⟨hiff, hfound⟩ := findIndexByID_first id (tasks.map Task.ID)
    by_cases hneg : findIndexByID id (tasks.map Task.ID) 0 = -1
    · have hnot := hiff.mp hneg
      simp only [CheckExistItem, hneg, if_true]
      refine ⟨?_, fun _ => trivial, fun h => by simp at h⟩
      constructor
      · intro _ t ht heq
        exact hnot (heq ▸ List.mem_map_of_mem Task.ID ht)
      · intro _
        simp
    · obtain ⟨j, hj, hlen, hget, hfirst⟩ := hfound hneg
      have hmem : id ∈ tasks.map Task.ID := by
        by_contra hcon
        exact hneg (hiff.mpr hcon)
      simp only [CheckExistItem, hneg, if_false]
      refine ⟨?_, fun h => by simp at h, fun _ => ⟨j, hj, by simpa using hlen, ?_, ?_⟩⟩
      · constructor
        · intro h
          simp at h
        · intro hall
          obtain ⟨t, ht, hid⟩ := List.mem_map.mp hmem
          exact absurd hid (hall t ht)
      · simp only [List.getElem?_map, Option.map_eq_some'] at hget
        exact hget
      · intro m hm t ht heq
        apply hfirst m hm
        simp [List.getElem?_map, ht, heq]
  · obtain ⟨hiff, hfound⟩ := findIndexByID_first id (rewards.map Reward.ID)
    by_cases hneg : findIndexByID id (rewards.map Reward.ID) 0 = -1
    · have hnot := hiff.mp hneg
      simp only [CheckExistItem, hneg, if_true]
      refine ⟨?_, fun _ => trivial, fun h => by simp at h⟩
      constructor
      · intro _ r hr heq
        exact hnot (heq ▸ List.mem_map_of_mem Reward.ID hr)
      · intro _
        simp
    · obtain ⟨j, hj, hlen, hget, hfirst⟩ := hfound hneg
      have hmem : id ∈ rewards.map Reward.ID := by
        by_contra hcon
        exact hneg (hiff.mpr hcon)
      simp only [CheckExistItem, hneg, if_false]
      refine ⟨?_, fun h => by simp at h, fun _ => ⟨j, hj, by simpa using hlen, ?_, ?_⟩⟩
      · constructor
        · intro h
          simp at h
        · intro hall
          obtain ⟨r, hr, hid⟩ := List.mem_map.mp hmem
          exact absurd hid (hall r hr)
      · simp only [List.getElem?_map, Option.map_eq_some'] at hget
        exact hget
      · intro m hm r hr heq
        apply hfirst m hm
        simp [List.getElem?_map, hr, heq]

/-- Three tasks, two of them with id 2: the lookup of 2 stops at index 1, the
first of them. -/
theorem CheckExistItem_finds_first_witness :
    (CheckExistItem 2 (.tasks [⟨1, "a", false, 0, false⟩, ⟨2, "b", false, 0, false⟩,
        ⟨2, "c", false, 0, false⟩])).1 = 1
      ∧ ∃ i : Nat,
          (CheckExistItem 2 (.tasks [⟨1, "a", false, 0, false⟩, ⟨2, "b", false, 0, false⟩,
            ⟨2, "c", false, 0, false⟩])).1 = (i : Int)
          ∧ i < ([⟨1, "a", false, 0, false⟩, ⟨2, "b", false, 0, false⟩,
              ⟨2, "c", false, 0, false⟩] : List Task).length
          ∧ (∃ t : Task,
              ([⟨1, "a", false, 0, false⟩, ⟨2, "b", false, 0, false⟩,
                ⟨2, "c", false, 0, false⟩] : List Task)[i]? = some t ∧ t.ID = 2)
          ∧ ∀ m : Nat, m < i → ∀ t : Task,
              ([⟨1, "a", false, 0, false⟩, ⟨2, "b", false, 0, false⟩,
                ⟨2, "c", false, 0, false⟩] : List Task)[m]? = some t → t.ID ≠ 2 :=
  ⟨by decide,
   (CheckExistItem_finds_first 2 [⟨1, "a", false, 0, false⟩, ⟨2, "b", false, 0, false⟩,
      ⟨2, "c", false, 0, false⟩] []).1.2.2 (by decide)⟩

/-! ## The ids of the active tasks pass `ValidateID` -/

theorem ActiveIDsInRange_of_same (h h1 : TodoList)
    (hids : h1.Tasks.map Task.ID = h.Tasks.map Task.ID) (hn : h1.NextID = h.NextID)
    (hd : h1.DeletedTasks = h.DeletedTasks) (hinv : ActiveIDsInRange h) :
    ActiveIDsInRange h1 := by
  unfold ActiveIDsInRange at *
  rw [hids, hn, hd]
  exact hinv

theorem Complete_DeletedTasks (h h1 : TodoList) (i : Nat) (err : Option String)
    (hc : Complete h i = some (h1, err)) : h1.DeletedTasks = h.DeletedTasks := by
  unfold Complete at hc
  cases hget : h.Tasks[i]? with
  | none => simp [hget] at hc
  | some t =>
    simp only [hget] at hc
    split at hc
    · simp only [Option.some.injEq, Prod.mk.injEq] at hc
      rw [← hc.1]
    · simp only [Option.some.injEq, Prod.mk.injEq] at hc
      rw [← hc.1]

theorem NotCompleted_DeletedTasks (h h1 : TodoList) (i : Nat) (err : Option String)
    (hc : NotCompleted h i = some (h1, err)) : h1.DeletedTasks = h.DeletedTasks := by
  unfold NotCompleted at hc
  cases hget : h.Tasks[i]? with
  | none => simp [hget] at hc
  | some t =>
    simp only [hget] at hc
    split at hc
    · simp only [Option.some.injEq, Prod.mk.injEq] at hc
      rw [← hc.1]
    · simp only [Option.some.injEq, Prod.mk.injEq] at hc
      rw [← hc.1]

theorem Edit_DeletedTasks (h h1 : TodoList) (i : Nat) (newText : String)
    (hc : Edit h i newText = some h1) : h1.DeletedTasks = h.DeletedTasks := by
  unfold Edit at hc
  cases hget : h.Tasks[i]? with
  | none => simp [hget] at hc
  | some t =>
    simp only [hget, Option.some.injEq] at hc
    rw [← hc]

theorem EditTaskPoints_DeletedTasks (h h1 : TodoList) (i : Nat) (p : Int)
    (hc : EditTaskPoints h i p = some h1) : h1.DeletedTasks = h.DeletedTasks := by
  unfold EditTaskPoints at hc
  cases hget : h.Tasks[i]? with
  | none => simp [hget] at hc
  | some t =>
    simp only [hget, Option.some.injEq] at hc
    rw [← hc]

theorem ActiveIDsInRange_append (tasks : List Task) (next : Int) (t : Task)
    (hid : t.ID = next) (hnext : 1 ≤ next)
    (hinv : ∀ i ∈ tasks.map Task.ID, 1 ≤ i ∧ i ≤ next - 1) (deleted1 : List Task) :
    ActiveIDsInRange { Tasks := tasks ++ [t], DeletedTasks := deleted1, NextID := next + 1 } := by
  constructor
  · intro i hi
    simp only [List.map_append, List.map_cons, List.map_nil, List.mem_append,
      List.mem_singleton] at hi
    simp only
    rcases hi with hi | hi
    · have := hinv i hi
      omega
    · omega
  · intro _
    simp only
    omega

theorem NextID_ge_of_Tasks_ne_nil (h : TodoList) (hinv : ActiveIDsInRange h)
    (hne : h.Tasks ≠ []) : 2 ≤ h.NextID := by
  cases hT : h.Tasks with
  | nil => exact absurd hT hne
  | cons t rest =>
    have := hinv.1 t.ID (by simp [hT])
    omega

theorem ActiveIDsInRange_applyOp (h h1 : TodoList) (op : TaskOp)
    (hstep : applyOp h op = some h1) (hinv : ActiveIDsInRange h) : ActiveIDsInRange h1 := by
  cases op with
  | add text points =>
    simp only [applyOp, Option.some.injEq] at hstep
    rw [← hstep, Add_eq]
    by_cases hnil : h.Tasks = []
    · simp only [hnil, if_true, List.nil_append]
      constructor
      · intro i hi
        simp only [List.map_cons, List.map_nil, List.mem_singleton] at hi
        simp only
        omega
      · intro _
        simp only
        omega
    · simp only [hnil, if_false]
      have h2 := NextID_ge_of_Tasks_ne_nil h hinv hnil
      exact ActiveIDsInRange_append h.Tasks h.NextID _ rfl (by omega) hinv.1
        h.DeletedTasks
  | complete i =>
    simp only [applyOp] at hstep
    cases hc : Complete h i with
    | none => simp [hc] at hstep
    | some pr =>
      obtain ⟨h2, err⟩ := pr
      rw [hc] at hstep
      simp only [Option.map_some', Option.some.injEq] at hstep
      subst hstep
      obtain ⟨hids, hn⟩ := Complete_same_ids h h2 i err hc
      exact ActiveIDsInRange_of_same h h2 hids hn (Complete_DeletedTasks h h2 i err hc) hinv
  | notCompleted i =>
    simp only [applyOp] at hstep
    cases hc : NotCompleted h i with
    | none => simp [hc] at hstep
    | some pr =>
      obtain ⟨h2, err⟩ := pr
      rw [hc] at hstep
      simp only [Option.map_some', Option.some.injEq] at hstep
      subst hstep
      obtain ⟨hids, hn⟩ := NotCompleted_same_ids h h2 i err hc
      exact ActiveIDsInRange_of_same h h2 hids hn (NotCompleted_DeletedTasks h h2 i err hc) hinv
  | edit i newText =>
    obtain ⟨hids, hn⟩ := Edit_same_ids h h1 i newText hstep
    exact ActiveIDsInRange_of_same h h1 hids hn (Edit_DeletedTasks h h1 i newText hstep) hinv
  | editTaskPoints i p =>
    obtain ⟨hids, hn⟩ := EditTaskPoints_same_ids h h1 i p hstep
    exact ActiveIDsInRange_of_same h h1 hids hn (EditTaskPoints_DeletedTasks h h1 i p hstep)
      hinv
  | delete i =>
    simp only [applyOp] at hstep
    by_cases hi : i < h.Tasks.length
    · have hne : h.Tasks ≠ [] := by
        intro hnil
        rw [hnil] at hi
        simp at hi
      have h2 := NextID_ge_of_Tasks_ne_nil h hinv hne
      rw [Delete_of_lt h i hi] at hstep
      simp only [Option.some.injEq] at hstep
      subst hstep
      constructor
      · intro a ha
        have hsub : ((h.Tasks.eraseIdx i).map Task.ID).Sublist (h.Tasks.map Task.ID) :=
          (List.eraseIdx_sublist h.Tasks i).map Task.ID
        exact hinv.1 a (hsub.subset ha)
      · intro _
        simp only
        omega
    · have hnone : h.Tasks[i]? = none := List.getElem?_eq_none (by omega)
      simp [Delete, hnone] at hstep
  | cancelLastDelete =>
    simp only [applyOp, Option.some.injEq] at hstep
    rw [← hstep]
    by_cases hnil : h.DeletedTasks = []
    · rw [CancelLastDelete_of_nil h hnil]
      exact hinv
    · rw [CancelLastDelete_of_ne_nil h hnil]
      exact ActiveIDsInRange_append h.Tasks h.NextID _ rfl (hinv.2 hnil) hinv.1 []
  | clearAllTasks =>
    simp only [applyOp, Option.some.injEq] at hstep
    rw [← hstep]
    constructor
    · intro i hi
      simp [ClearAllTasks] at hi
    · intro _
      simp [ClearAllTasks]

theorem ActiveIDsInRange_runOps (ops : List TaskOp) :
    ∀ h h1 : TodoList, runOps h ops = some h1 → ActiveIDsInRange h → ActiveIDsInRange h1 := by
  induction ops with
  | nil =>
    intro h h1 hrun hinv
    simp only [runOps, Option.some.injEq] at hrun
    rw [← hrun]
    exact hinv
  | cons op rest ih =>
    intro h h1 hrun hinv
    simp only [runOps] at hrun
    cases hstep : applyOp h op with
    | none => simp [hstep] at hrun
    | some h2 =>
      simp only [hstep] at hrun
      exact ih h2 h1 hrun (ActiveIDsInRange_applyOp h h2 op hstep hinv)

/-- C29: in a ledger reached from an empty one (no active task, no deleted task,
any `NextID`) by any sequence of `Add`, `Complete`, `NotCompleted`, `Edit`,
`EditTaskPoints`, `Delete`, `CancelLastDelete` and `ClearAllTasks`, every active
task has `1 ≤ id ≤ NextID - 1`; hence `ValidateID` against `NextID - 1`, as the
commands call it, accepts every string that `strconv.Atoi` reads as the id of an
active task. -/
theorem active_ids_pass_ValidateID (s : TodoList) (hs : s.Tasks = [])
    (hd : s.DeletedTasks = []) (ops : List TaskOp) (h : TodoList)
    (hrun : runOps s ops = some h) :
    (∀ t ∈ h.Tasks, 1 ≤ t.ID ∧ t.ID ≤ h.NextID - 1)
      ∧ (∀ t ∈ h.Tasks, ∀ arg : String, Atoi arg = some t.ID →
          ValidateID arg (h.NextID - 1) = (t.ID, none)) := by
  have hstart : ActiveIDsInRange s := by
    constructor
    · intro i hi
      simp [hs] at hi
    · intro hne
      exact absurd hd hne
  have hinv := ActiveIDsInRange_runOps ops s h hrun hstart
  have hrange : ∀ t ∈ h.Tasks, 1 ≤ t.ID ∧ t.ID ≤ h.NextID - 1 :=
    fun t ht => hinv.1 t.ID (List.mem_map_of_mem Task.ID ht)
  refine ⟨hrange, ?_⟩
  intro t ht arg harg
  have hr := hrange t ht
  have hnot : ¬ (t.ID < 1 ∨ t.ID > h.NextID - 1) := by omega
  simp [ValidateID, harg, hnot]

/-- Three tasks added, the first deleted and restored: the active ids are 2, 3
and 4, `NextID` is 5, and "4" passes `ValidateID` against 4. -/
theorem active_ids_pass_ValidateID_witness :
    runOps zeroTodoList [.add "a" 1, .add "b" 2, .add "c" 3, .delete 0, .cancelLastDelete]
        = some ⟨[⟨2, "b", false, 2, false⟩, ⟨3, "c", false, 3, false⟩,
                  ⟨4, "a", false, 1, false⟩], [], 5⟩
      ∧ ValidateID "4" (5 - 1) = (4, none) := by
  have hrun : runOps zeroTodoList
      [.add "a" 1, .add "b" 2, .add "c" 3, .delete 0, .cancelLastDelete]
      = some ⟨[⟨2, "b", false, 2, false⟩, ⟨3, "c", false, 3, false⟩,
                ⟨4, "a", false, 1, false⟩], [], 5⟩ := by decide
  exact ⟨hrun,
    (active_ids_pass_ValidateID zeroTodoList rfl rfl _ _ hrun).2 ⟨4, "a", false, 1, false⟩
      (by simp) "4" (by decide)⟩

/-! ## Points and completion stay in step -/

theorem completedPoints_cons (t : Task) (l : List Task) :
    completedPoints (t :: l)
      = (if t.IsComplete then t.TaskPoints else 0) + completedPoints l := by
  unfold completedPoints
  by_cases hc : t.IsComplete = true
  · simp [List.filter_cons, hc]
  · simp [List.filter_cons, hc]

theorem completedPoints_append_pending (l : List Task) (t : Task)
    (hp : t.IsComplete = false) : completedPoints (l ++ [t]) = completedPoints l := by
  unfold completedPoints
  simp [List.filter_append, List.filter_cons, hp]

theorem completedPoints_set (l : List Task) (i : Nat) (t t1 : Task)
    (ht : l[i]? = some t) :
    completedPoints (l.set i t1)
      = completedPoints l - (if t.IsComplete then t.TaskPoints else 0)
          + (if t1.IsComplete then t1.TaskPoints else 0) := by
  induction l generalizing i with
  | nil => simp at ht
  | cons a rest ih =>
    cases i with
    | zero =>
      simp only [List.getElem?_cons_zero, Option.some.injEq] at ht
      subst ht
      simp only [List.set_cons_zero, completedPoints_cons]
      omega
    | succ k =>
      simp only [List.getElem?_cons_succ] at ht
      simp only [List.set_cons_succ, completedPoints_cons, ih k ht]
      omega

theorem SettledAndPaid_step (d d1 : Disk) (hstep : FlowStep d d1)
    (hinv : SettledAndPaid d) : SettledAndPaid d1 := by
  obtain ⟨hflags, hbal⟩ := hinv
  cases hstep with
  | add text points =>
    constructor
    · intro t ht
      simp only [Add_eq, List.mem_append, List.mem_singleton] at ht
      rcases ht with hold | hnew
      · exact hflags t hold
      · rw [hnew]
    · simp only [Add_eq]
      rw [completedPoints_append_pending _ _ rfl]
      exact hbal
  | complete saveErr arg confirm i t hsave hres ht hp =>
    have hu : t.IsTaskPointsReceive = false := by
      rw [hflags t (List.mem_iff_getElem?.mpr ⟨i, ht⟩), hp]
    rw [CompleteCmd_no_flags saveErr hsave d arg i t confirm hres ht hp]
    constructor
    · intro t0 ht0
      rcases List.mem_or_eq_of_mem_set ht0 with hold | hnew
      · exact hflags t0 hold
      · rw [hnew]
    · simp only [hu, Bool.false_eq_true, if_false, UpdateUserPoints_UserPoints]
      rw [completedPoints_set _ i t _ ht, hbal]
      simp [hp]
  | notComplete saveErr arg i t hsave hres ht hc =>
    have hs : t.IsTaskPointsReceive = true := by
      rw [hflags t (List.mem_iff_getElem?.mpr ⟨i, ht⟩), hc]
    rw [NotCompletedCmd_disk saveErr hsave d arg i t hres ht hc]
    constructor
    · intro t0 ht0
      rcases List.mem_or_eq_of_mem_set ht0 with hold | hnew
      · exact hflags t0 hold
      · rw [hnew]
    · simp only [hs, if_true, UpdateUserPoints_UserPoints]
      rw [completedPoints_set _ i t _ ht, hbal]
      simp [hc]
      omega

theorem SettledAndPaid_reachable (d0 d : Disk) (hreach : FlowReachable d0 d)
    (hinv : SettledAndPaid d0) : SettledAndPaid d := by
  induction hreach with
  | start => exact hinv
  | step _ hstep ih => exact SettledAndPaid_step _ _ hstep ih

/-- C30: from a todo file without active tasks and a reward file with balance 0,
after any sequence of `Add` calls and of runs of `complete` (no flag) and
`not-complete` that end well, every active task is settled exactly when it is
complete, and the balance is the sum of the points of the completed tasks. -/
theorem points_follow_completion (d0 : Disk) (h0 : d0.todoFile.Tasks = [])
    (hb : d0.rewardFile.UserPoints = 0) (d : Disk) (hreach : FlowReachable d0 d) :
    (∀ t ∈ d.todoFile.Tasks, t.IsTaskPointsReceive = t.IsComplete)
      ∧ d.rewardFile.UserPoints
        = ((d.todoFile.Tasks.filter (fun t => t.IsComplete)).map Task.TaskPoints).sum := by
  have hstart : SettledAndPaid d0 := by
    constructor
    · intro t ht
      simp [h0] at ht
    · rw [hb, h0]
      rfl
  exact SettledAndPaid_reachable d0 d hreach hstart

/-- Two tasks added (10 and 5 points), both completed, the first one taken
back: the files hold task 1 pending and not settled, task 2 complete and
settled, and balance 5. -/
theorem points_follow_completion_witness :
    ∃ d : Disk, FlowReachable ⟨zeroTodoList, zeroRewardSystem⟩ d
      ∧ d = ⟨⟨[⟨1, "a", false, 10, false⟩, ⟨2, "b", true, 5, true⟩], [], 3⟩,
              ⟨[], 5, true, 0⟩⟩
      ∧ (∀ t ∈ d.todoFile.Tasks, t.IsTaskPointsReceive = t.IsComplete)
      ∧ d.rewardFile.UserPoints
        = ((d.todoFile.Tasks.filter (fun t => t.IsComplete)).map Task.TaskPoints).sum := by
  have r0 : FlowReachable ⟨zeroTodoList, zeroRewardSystem⟩ ⟨zeroTodoList, zeroRewardSystem⟩ :=
    .start
  have r1 := FlowReachable.step r0 (FlowStep.add _ "a" 10)
  have r2 := FlowReachable.step r1 (FlowStep.add _ "b" 5)
  have r3 := FlowReachable.step r2
    (FlowStep.complete _ (fun _ => none) "1" "" 0 ⟨1, "a", false, 10, false⟩ (fun _ => rfl)
      ⟨1, by decide, by decide⟩ (by decide) rfl)
  have r4 := FlowReachable.step r3
    (FlowStep.complete _ (fun _ => none) "2" "" 1 ⟨2, "b", false, 5, false⟩ (fun _ => rfl)
      ⟨2, by decide, by decide⟩ (by decide) rfl)
  have r5 := FlowReachable.step r4
    (FlowStep.notComplete _ (fun _ => none) "1" 0 ⟨1, "a", true, 10, true⟩ (fun _ => rfl)
      ⟨1, by decide, by decide⟩ (by decide) rfl)
  exact ⟨_, r5, by decide, points_follow_completion _ rfl rfl _ r5⟩

/-- The run of `complete 1` of the scenario of the spec saves the todo file,
then the reward file, then the todo file again. -/
theorem CompleteCmd_saves_todo_first_example :
    (CompleteCmd (fun _ => none)
        ⟨⟨[⟨1, "buy milk", false, 10, false⟩], [], 2⟩, ⟨[], 0, false, 0⟩⟩
        "1" false false "").writes
      = [.todo ⟨[⟨1, "buy milk", true, 10, false⟩], [], 2⟩,
         .reward ⟨[], 10, true, 0⟩,
         .todo ⟨[⟨1, "buy milk", true, 10, true⟩], [], 2⟩] := by
  decide

/-! ## `storage.Load` and `storage.Save` -/

theorem storage_Load_of_data {α : Type} (unmarshal : List UInt8 → α → α × Option String)
    (fileData : List UInt8) (hne : fileData ≠ []) (data : α) :
    storage.Load unmarshal (true, none) (.data fileData) data = unmarshal fileData data := by
  have hlen : ¬ fileData.length = 0 := fun h => hne (List.length_eq_zero.mp h)
  simp [storage.Load, hlen]

/-- C26: with the lock acquired, `storage.Load` returns no error and leaves the
document as it was handed in (the zero value, in the loaders) when the file does
not exist or has zero bytes; when the file has bytes that `json.Unmarshal`
rejects for the type of the document, `storage.Load` returns that error, and the
loaders return no document and an error. -/
theorem storage_Load_missing_empty_corrupt {α : Type}
    (unmarshal : List UInt8 → α → α × Option String) (data : α) (notExistErr : String)
    (unmarshalTodo : List UInt8 → TodoList → TodoList × Option String)
    (unmarshalReward : List UInt8 → RewardSystem → RewardSystem × Option String)
    (filePath : String) :
    storage.Load unmarshal (true, none) (.notExist notExistErr) data = (data, none)
      ∧ storage.Load unmarshal (true, none) (.data []) data = (data, none)
      ∧ (∀ (fileData : List UInt8) (data1 : α) (err : String), fileData ≠ [] →
          unmarshal fileData data = (data1, some err) →
          (storage.Load unmarshal (true, none) (.data fileData) data).2 = some err)
      ∧ LoadTodoList unmarshalTodo (true, none) (.notExist notExistErr) filePath
          = (some zeroTodoList, none)
      ∧ LoadTodoList unmarshalTodo (true, none) (.data []) filePath = (some zeroTodoList, none)
      ∧ LoadRewardSystem unmarshalReward (true, none) (.notExist notExistErr) filePath
          = (some zeroRewardSystem, none)
      ∧ LoadRewardSystem unmarshalReward (true, none) (.data []) filePath
          = (some zeroRewardSystem, none)
      ∧ (∀ (fileData : List UInt8) (doc : TodoList) (err : String), fileData ≠ [] →
          unmarshalTodo fileData zeroTodoList = (doc, some err) →
          (LoadTodoList unmarshalTodo (true, none) (.data fileData) filePath).1 = none
            ∧ (LoadTodoList unmarshalTodo (true, none) (.data fileData) filePath).2 ≠ none)
      ∧ (∀ (fileData : List UInt8) (doc : RewardSystem) (err : String), fileData ≠ [] →
          unmarshalReward fileData zeroRewardSystem = (doc, some err) →
          (LoadRewardSystem unmarshalReward (true, none) (.data fileData) filePath).1 = none
            ∧ (LoadRewardSystem unmarshalReward (true, none) (.data fileData) filePath).2
              ≠ none) := by
  refine ⟨rfl, rfl, ?_, rfl, rfl, rfl, rfl, ?_, ?_⟩
  · intro fileData data1 err hne hun
    rw [storage_Load_of_data unmarshal fileData hne, hun]
  · intro fileData doc err hne hun
    simp [LoadTodoList, storage_Load_of_data unmarshalTodo fileData hne, hun]
  · intro fileData doc err hne hun
    simp [LoadRewardSystem, storage_Load_of_data unmarshalReward fileData hne, hun]

/-- A todo file holding the three bytes `abc`, which are not a JSON text:
`LoadTodoList` returns no document and an error; without a file it returns the
zero value. -/
theorem storage_Load_missing_empty_corrupt_witness :
    (LoadTodoList (Unmarshal (fun _ => none) unmarshalTodoList) (true, none)
        (.data [97, 98, 99]) "todo.json").1 = none
      ∧ (LoadTodoList (Unmarshal (fun _ => none) unmarshalTodoList) (true, none)
          (.data [97, 98, 99]) "todo.json").2 ≠ none
      ∧ LoadTodoList (Unmarshal (fun _ => none) unmarshalTodoList) (true, none)
          (.notExist "no such file or directory") "todo.json" = (some zeroTodoList, none) :=
  ⟨((storage_Load_missing_empty_corrupt (Unmarshal (fun _ => none) unmarshalTodoList)
      zeroTodoList "no such file or directory" (Unmarshal (fun _ => none) unmarshalTodoList)
      (Unmarshal (fun _ => none) unmarshalRewardSystem) "todo.json").2.2.2.2.2.2.2.1
      [97, 98, 99] zeroTodoList "invalid character looking for beginning of value"
      (by simp) rfl).1,
   ((storage_Load_missing_empty_corrupt (Unmarshal (fun _ => none) unmarshalTodoList)
      zeroTodoList "no such file or directory" (Unmarshal (fun _ => none) unmarshalTodoList)
      (Unmarshal (fun _ => none) unmarshalRewardSystem) "todo.json").2.2.2.2.2.2.2.1
      [97, 98, 99] zeroTodoList "invalid character looking for beginning of value"
      (by simp) rfl).2,
   (storage_Load_missing_empty_corrupt (Unmarshal (fun _ => none) unmarshalTodoList)
      zeroTodoList "no such file or directory" (Unmarshal (fun _ => none) unmarshalTodoList)
      (Unmarshal (fun _ => none) unmarshalRewardSystem) "todo.json").2.2.2.1⟩

/-! ## What `storage.Save` leaves in the directory -/

theorem ne_append_tmp (filename : String) : filename ≠ filename ++ ".tmp" := by
  intro h
  have hlen := congrArg String.length h
  rw [String.length_append] at hlen
  have h4 : (".tmp" : String).length = 4 := by decide
  omega

/-- C28: `storage.Save` writes the bytes of the document to the temporary file
`filename.tmp` and renames it over the target.  Whatever the lock, the
marshalling, the write and the rename return: when `Save` returns an error the
target holds what it held before the call (the bytes of the previous version, or
no file), also when the write failed and left a part of the document, which is
then in the temporary file; when `Save` returns no error the target holds the
whole document and the temporary file is gone; and no other path is touched.  So
the target never holds a part of a document.  A call that is cut short after a
step leaves the files as the call whose next step fails does. -/
theorem storage_Save_target_old_or_whole {α : Type}
    (marshalIndent : α → List UInt8 × Option String) (env : SaveEnv) (fs : Files)
    (filename : String) (data : α) :
    (∀ err, (storage.Save marshalIndent env fs filename data).2 = some err →
        (storage.Save marshalIndent env fs filename data).1 filename = fs filename)
      ∧ ((storage.Save marshalIndent env fs filename data).2 = none →
          (marshalIndent data).2 = none
            ∧ (storage.Save marshalIndent env fs filename data).1 filename
                = some (marshalIndent data).1
            ∧ (storage.Save marshalIndent env fs filename data).1 (filename ++ ".tmp") = none)
      ∧ (∀ path, path ≠ filename → path ≠ filename ++ ".tmp" →
          (storage.Save marshalIndent env fs filename data).1 path = fs path) := by
  have hne : filename ≠ filename ++ ".tmp" := ne_append_tmp filename
  have hne1 : ¬ filename ++ ".tmp" = filename := fun h => hne h.symm
  obtain ⟨lock, writeErr, left, renameErr⟩ := env
  obtain ⟨locked, lockErr⟩ := lock
  cases hm : marshalIndent data with
  | mk fileData marshalErr =>
  cases lockErr <;> cases locked <;> cases marshalErr <;> cases writeErr <;> cases renameErr <;>
    simp [storage.Save, hm, hne, hne1] <;>
    intro path h1 h2 <;> simp [h1, h2]

/-- A target that holds the four bytes `null`, and a document of two bytes: a
write that fails after one byte leaves `null` in the target and the one byte in
the temporary file; a rename that fails leaves `null` in the target; a call
without a failure leaves the two bytes in the target and no temporary file. -/
theorem storage_Save_target_old_or_whole_witness :
    (storage.Save (fun (_ : Unit) => ([123, 125], none))
        ⟨(true, none), some "no space left on device", some [123], none⟩
        (fun path => if path = "todo.json" then some [110, 117, 108, 108] else none)
        "todo.json" ()).1 "todo.json" = some [110, 117, 108, 108]
      ∧ (storage.Save (fun (_ : Unit) => ([123, 125], none))
          ⟨(true, none), some "no space left on device", some [123], none⟩
          (fun path => if path = "todo.json" then some [110, 117, 108, 108] else none)
          "todo.json" ()).1 "todo.json.tmp" = some [123]
      ∧ (storage.Save (fun (_ : Unit) => ([123, 125], none))
          ⟨(true, none), none, none, some "permission denied"⟩
          (fun path => if path = "todo.json" then some [110, 117, 108, 108] else none)
          "todo.json" ()).1 "todo.json" = some [110, 117, 108, 108]
      ∧ (storage.Save (fun (_ : Unit) => ([123, 125], none))
          ⟨(true, none), none, none, none⟩
          (fun path => if path = "todo.json" then some [110, 117, 108, 108] else none)
          "todo.json" ()).1 "todo.json" = some [123, 125]
      ∧ (storage.Save (fun (_ : Unit) => ([123, 125], none))
          ⟨(true, none), none, none, none⟩
          (fun path => if path = "todo.json" then some [110, 117, 108, 108] else none)
          "todo.json" ()).1 "todo.json.tmp" = none :=
  ⟨(storage_Save_target_old_or_whole (fun (_ : Unit) => ([123, 125], none))
      ⟨(true, none), some "no space left on device", some [123], none⟩
      (fun path => if path = "todo.json" then some [110, 117, 108, 108] else none)
      "todo.json" ()).1 "no space left on device" rfl,
   by decide,
   (storage_Save_target_old_or_whole (fun (_ : Unit) => ([123, 125], none))
      ⟨(true, none), none, none, some "permission denied"⟩
      (fun path => if path = "todo.json" then some [110, 117, 108, 108] else none)
      "todo.json" ()).1 "permission denied" rfl,
   ((storage_Save_target_old_or_whole (fun (_ : Unit) => ([123, 125], none))
      ⟨(true, none), none, none, none⟩
      (fun path => if path = "todo.json" then some [110, 117, 108, 108] else none)
      "todo.json" ()).2.1 rfl).2.1,
   ((storage_Save_target_old_or_whole (fun (_ : Unit) => ([123, 125], none))
      ⟨(true, none), none, none, none⟩
      (fun path => if path = "todo.json" then some [110, 117, 108, 108] else none)
      "todo.json" ()).2.1 rfl).2.2⟩

/-! ## Writing a document and reading it back -/

theorem unmarshalTask_toJSON (t old : Task) : unmarshalTask (Task.toJSON t) old = (t, none) := by
  simp [unmarshalTask, Task.toJSON, unmarshalTaskMember, unmarshalInt, unmarshalString,
    unmarshalBool, firstError]

theorem unmarshalTaskItems_toJSON (l : List Task) :
    unmarshalTaskItems (l.map Task.toJSON) = (l, none) := by
  induction l with
  | nil => rfl
  | cons t rest ih =>
    simp [unmarshalTaskItems, unmarshalTask_toJSON, ih, firstError]

theorem unmarshalTaskSlice_toJSON (isNil : Bool) (l old : List Task) :
    unmarshalTaskSlice (sliceToJSON isNil (l.map Task.toJSON)) old = (l, none) := by
  unfold sliceToJSON
  by_cases hnull : (isNil && (l.map Task.toJSON).isEmpty) = true
  · rw [if_pos hnull]
    simp only [Bool.and_eq_true, List.isEmpty_iff, List.map_eq_nil_iff] at hnull
    simp [unmarshalTaskSlice, hnull.2]
  · rw [if_neg hnull]
    simp [unmarshalTaskSlice, unmarshalTaskItems_toJSON]

theorem unmarshalTodoList_toJSON (nilTasks nilDeleted : Bool) (h old : TodoList) :
    unmarshalTodoList (TodoList.toJSON nilTasks nilDeleted h) old = (h, none) := by
  simp [unmarshalTodoList, TodoList.toJSON, unmarshalTodoListMember,
    unmarshalTaskSlice_toJSON, unmarshalInt, firstError]

theorem unmarshalReward_toJSON (r old : Reward) :
    unmarshalReward (Reward.toJSON r) old = (r, none) := by
  simp [unmarshalReward, Reward.toJSON, unmarshalRewardMember, unmarshalInt, unmarshalString,
    unmarshalBool, firstError]

theorem unmarshalRewardItems_toJSON (l : List Reward) :
    unmarshalRewardItems (l.map Reward.toJSON) = (l, none) := by
  induction l with
  | nil => rfl
  | cons r rest ih =>
    simp [unmarshalRewardItems, unmarshalReward_toJSON, ih, firstError]

theorem unmarshalRewardSlice_toJSON (isNil : Bool) (l old : List Reward) :
    unmarshalRewardSlice (sliceToJSON isNil (l.map Reward.toJSON)) old = (l, none) := by
  unfold sliceToJSON
  by_cases hnull : (isNil && (l.map Reward.toJSON).isEmpty) = true
  · rw [if_pos hnull]
    simp only [Bool.and_eq_true, List.isEmpty_iff, List.map_eq_nil_iff] at hnull
    simp [unmarshalRewardSlice, hnull.2]
  · rw [if_neg hnull]
    simp [unmarshalRewardSlice, unmarshalRewardItems_toJSON]

theorem unmarshalRewardSystem_toJSON (nilRewards : Bool) (r old : RewardSystem) :
    unmarshalRewardSystem (RewardSystem.toJSON nilRewards r) old = (r, none) := by
  simp [unmarshalRewardSystem, RewardSystem.toJSON, unmarshalRewardSystemMember,
    unmarshalRewardSlice_toJSON, unmarshalInt, unmarshalBool, firstError]

theorem storage_Save_file {α : Type} (marshalIndent : α → List UInt8 × Option String)
    (env : SaveEnv) (fs fs1 : Files) (filename : String) (data : α)
    (hsave : storage.Save marshalIndent env fs filename data = (fs1, none)) :
    fs1 filename = some (marshalIndent data).1 ∧ (marshalIndent data).2 = none := by
  unfold storage.Save at hsave
  split at hsave
  · simp at hsave
  · simp at hsave
  · split at hsave
    · simp at hsave
    · rename_i fileData hm
      simp only at hsave
      split at hsave
      · simp at hsave
      · split at hsave
        · simp at hsave
        · simp only [Prod.mk.injEq, and_true] at hsave
          rw [← hsave, hm]
          simp

theorem toNat_ofNat_of_lt (n : Nat) (h : n < 256) : (UInt8.ofNat n).toNat = n := by
  simp [UInt8.toNat, UInt8.ofNat, Nat.mod_eq_of_lt h]

theorem Char_toNat_valid (c : Char) :
    c.toNat < 0xD800 ∨ (0xDFFF < c.toNat ∧ c.toNat < 0x110000) := by
  have h := c.valid
  simpa [UInt32.isValidChar, Nat.isValidChar, Char.toNat] using h

theorem decodeRune_one (b0 : UInt8) (rest : List UInt8) (h : b0.toNat < 0x80) :
    decodeRune (b0 :: rest) = some (Char.ofNat b0.toNat, 1) := by
  simp [decodeRune, h]

theorem decodeRune_two (b0 b1 : UInt8) (rest : List UInt8)
    (h0 : 0xC2 ≤ b0.toNat ∧ b0.toNat ≤ 0xDF) (h1 : 0x80 ≤ b1.toNat ∧ b1.toNat ≤ 0xBF) :
    decodeRune (b0 :: b1 :: rest)
      = some (Char.ofNat ((b0.toNat - 0xC0) * 64 + (b1.toNat - 0x80)), 2) := by
  have hn : ¬ b0.toNat < 0x80 := by omega
  simp [decodeRune, isContinuation, hn, h0, h1]

theorem decodeRune_three (b0 b1 b2 : UInt8) (rest : List UInt8)
    (h0 : 0xE0 ≤ b0.toNat ∧ b0.toNat ≤ 0xEF)
    (h1 : (if b0.toNat = 0xE0 then 0xA0 else 0x80) ≤ b1.toNat
      ∧ b1.toNat ≤ (if b0.toNat = 0xED then 0x9F else 0xBF))
    (h2 : 0x80 ≤ b2.toNat ∧ b2.toNat ≤ 0xBF) :
    decodeRune (b0 :: b1 :: b2 :: rest)
      = some (Char.ofNat ((b0.toNat - 0xE0) * 4096 + (b1.toNat - 0x80) * 64
          + (b2.toNat - 0x80)), 3) := by
  have hn : ¬ b0.toNat < 0x80 := by omega
  have hn2 : ¬ (0xC2 ≤ b0.toNat ∧ b0.toNat ≤ 0xDF) := by omega
  simp only [decodeRune, isContinuation, if_neg hn, if_neg hn2, if_pos h0]
  rw [if_pos]
  exact ⟨h1.1, h1.2, by simpa using h2⟩

theorem decodeRune_four (b0 b1 b2 b3 : UInt8) (rest : List UInt8)
    (h0 : 0xF0 ≤ b0.toNat ∧ b0.toNat ≤ 0xF4)
    (h1 : (if b0.toNat = 0xF0 then 0x90 else 0x80) ≤ b1.toNat
      ∧ b1.toNat ≤ (if b0.toNat = 0xF4 then 0x8F else 0xBF))
    (h2 : 0x80 ≤ b2.toNat ∧ b2.toNat ≤ 0xBF) (h3 : 0x80 ≤ b3.toNat ∧ b3.toNat ≤ 0xBF) :
    decodeRune (b0 :: b1 :: b2 :: b3 :: rest)
      = some (Char.ofNat ((b0.toNat - 0xF0) * 262144 + (b1.toNat - 0x80) * 4096
          + (b2.toNat - 0x80) * 64 + (b3.toNat - 0x80)), 4) := by
  have hn : ¬ b0.toNat < 0x80 := by omega
  have hn2 : ¬ (0xC2 ≤ b0.toNat ∧ b0.toNat ≤ 0xDF) := by omega
  have hn3 : ¬ (0xE0 ≤ b0.toNat ∧ b0.toNat ≤ 0xEF) := by omega
  simp only [decodeRune, isContinuation, if_neg hn, if_neg hn2, if_neg hn3, if_pos h0]
  rw [if_pos]
  exact ⟨h1.1, h1.2, by simpa using h2, by simpa using h3⟩

theorem decodeRune_utf8EncodeChar (c : Char) (rest : List UInt8) :
    decodeRune (utf8EncodeChar c ++ rest) = some (c, (utf8EncodeChar c).length) := by
  have hv := Char_toNat_valid c
  have hc : Char.ofNat c.toNat = c := Char.ofNat_toNat c
  unfold utf8EncodeChar
  simp only
  by_cases h1 : c.toNat < 0x80
  · rw [if_pos h1]
    simp only [List.singleton_append, List.length_singleton]
    rw [decodeRune_one _ _ (by rw [toNat_ofNat_of_lt _ (by omega)]; exact h1),
      toNat_ofNat_of_lt _ (by omega), hc]
  · rw [if_neg h1]
    by_cases h2 : c.toNat < 0x800
    · rw [if_pos h2]
      have e0 := toNat_ofNat_of_lt (0xC0 + c.toNat / 64) (by omega)
      have e1 := toNat_ofNat_of_lt (0x80 + c.toNat % 64) (by omega)
      simp only [List.cons_append, List.nil_append, List.length_cons, List.length_nil]
      rw [decodeRune_two _ _ _ (by rw [e0]; omega) (by rw [e1]; omega), e0, e1]
      have : (0xC0 + c.toNat / 64 - 0xC0) * 64 + (0x80 + c.toNat % 64 - 0x80) = c.toNat := by
        omega
      rw [this, hc]
    · rw [if_neg h2]
      by_cases h3 : c.toNat < 0x10000
      · rw [if_pos h3]
        have e0 := toNat_ofNat_of_lt (0xE0 + c.toNat / 4096) (by omega)
        have e1 := toNat_ofNat_of_lt (0x80 + c.toNat / 64 % 64) (by omega)
        have e2 := toNat_ofNat_of_lt (0x80 + c.toNat % 64) (by omega)
        simp only [List.cons_append, List.nil_append, List.length_cons, List.length_nil]
        rw [decodeRune_three _ _ _ _ (by rw [e0]; omega)
          (by rw [e0, e1]; constructor <;> split <;> omega) (by rw [e2]; omega), e0, e1, e2]
        have : (0xE0 + c.toNat / 4096 - 0xE0) * 4096 + (0x80 + c.toNat / 64 % 64 - 0x80) * 64
            + (0x80 + c.toNat % 64 - 0x80) = c.toNat := by
          omega
        rw [this, hc]
      · rw [if_neg h3]
        have e0 := toNat_ofNat_of_lt (0xF0 + c.toNat / 262144) (by omega)
        have e1 := toNat_ofNat_of_lt (0x80 + c.toNat / 4096 % 64) (by omega)
        have e2 := toNat_ofNat_of_lt (0x80 + c.toNat / 64 % 64) (by omega)
        have e3 := toNat_ofNat_of_lt (0x80 + c.toNat % 64) (by omega)
        simp only [List.cons_append, List.nil_append, List.length_cons, List.length_nil]
        rw [decodeRune_four _ _ _ _ _ (by rw [e0]; omega)
          (by rw [e0, e1]; constructor <;> split <;> omega) (by rw [e2]; omega)
          (by rw [e3]; omega), e0, e1, e2, e3]
        have : (0xF0 + c.toNat / 262144 - 0xF0) * 262144
            + (0x80 + c.toNat / 4096 % 64 - 0x80) * 4096
            + (0x80 + c.toNat / 64 % 64 - 0x80) * 64
            + (0x80 + c.toNat % 64 - 0x80) = c.toNat := by
          omega
        rw [this, hc]

theorem utf8EncodeChar_ascii (c : Char) (h : c.toNat < 0x80) :
    utf8EncodeChar c = [UInt8.ofNat c.toNat] := by
  simp [utf8EncodeChar, h]

theorem utf8EncodeChar_head (c : Char) (h : ¬ c.toNat < 0x80) :
    ∃ b0 tail, utf8EncodeChar c = b0 :: tail ∧ 0xC2 ≤ b0.toNat := by
  have hv := Char_toNat_valid c
  unfold utf8EncodeChar
  simp only [if_neg h]
  by_cases h2 : c.toNat < 0x800
  · rw [if_pos h2]
    exact ⟨_, _, rfl, by rw [toNat_ofNat_of_lt _ (by omega)]; omega⟩
  · rw [if_neg h2]
    by_cases h3 : c.toNat < 0x10000
    · rw [if_pos h3]
      exact ⟨_, _, rfl, by rw [toNat_ofNat_of_lt _ (by omega)]; omega⟩
    · rw [if_neg h3]
      exact ⟨_, _, rfl, by rw [toNat_ofNat_of_lt _ (by omega)]; omega⟩

theorem appendStringBody_nil (fuel : Nat) : appendStringBody fuel [] = [] := by
  cases fuel <;> rfl

theorem appendStringBody_utf8EncodeChar (c : Char) (more : List UInt8) (fuel : Nat) :
    appendStringBody (fuel + 1) (utf8EncodeChar c ++ more)
      = escapeChar c ++ appendStringBody fuel more := by
  by_cases h : c.toNat < 0x80
  · rw [utf8EncodeChar_ascii c h]
    simp only [List.singleton_append, appendStringBody, escapeChar, if_pos h]
    rw [if_pos (by rw [toNat_ofNat_of_lt _ (by omega)]; exact h)]
  · obtain ⟨b0, tail, henc, hb0⟩ := utf8EncodeChar_head c h
    have hdec := decodeRune_utf8EncodeChar c more
    rw [henc] at hdec ⊢
    simp only [List.cons_append] at hdec ⊢
    simp only [appendStringBody]
    rw [if_neg (by omega), hdec]
    simp only [escapeChar, if_neg h]
    have htake : List.take (b0 :: tail).length (b0 :: (tail ++ more)) = b0 :: tail := by
      rw [← List.cons_append]
      exact List.take_left' rfl
    have hdrop : List.drop (b0 :: tail).length (b0 :: (tail ++ more)) = more := by
      rw [← List.cons_append]
      exact List.drop_left' rfl
    rw [htake, hdrop, henc]
    split <;> rfl

theorem utf8EncodeChar_length_pos (c : Char) : 1 ≤ (utf8EncodeChar c).length := by
  unfold utf8EncodeChar
  simp only
  split
  · simp
  · split
    · simp
    · split <;> simp

theorem appendStringBody_utf8Encode (s : List Char) :
    ∀ fuel, (s.flatMap utf8EncodeChar).length ≤ fuel →
      appendStringBody fuel (s.flatMap utf8EncodeChar) = s.flatMap escapeChar := by
  induction s with
  | nil => intro fuel _; simp [appendStringBody_nil]
  | cons c rest ih =>
    intro fuel hfuel
    simp only [List.flatMap_cons, List.length_append] at hfuel ⊢
    have hpos := utf8EncodeChar_length_pos c
    obtain ⟨fuel1, rfl⟩ : ∃ k, fuel = k + 1 := ⟨fuel - 1, by omega⟩
    rw [appendStringBody_utf8EncodeChar, ih fuel1 (by omega)]

theorem appendString_utf8Encode (s : String) :
    appendString (utf8Encode s) = [0x22] ++ s.data.flatMap escapeChar ++ [0x22] := by
  unfold appendString utf8Encode
  rw [appendStringBody_utf8Encode s.data _ (Nat.le_refl _)]

theorem hexValue_hexDigit (k : Nat) (hk : k < 16) : hexValue (hexDigit k) = some k := by
  unfold hexDigit hexValue
  by_cases h : k < 10
  · rw [if_pos h]
    simp only [toNat_ofNat_of_lt (48 + k) (by omega)]
    rw [if_pos (by omega)]
    congr 1
    omega
  · rw [if_neg h]
    simp only [toNat_ofNat_of_lt (87 + k) (by omega)]
    rw [if_neg (by omega), if_pos (by omega)]
    congr 1
    omega

theorem parseHex4_digits (a b c d : Nat) (ha : a < 16) (hb : b < 16) (hc : c < 16)
    (hd : d < 16) (rest : List UInt8) :
    parseHex4 (hexDigit a :: hexDigit b :: hexDigit c :: hexDigit d :: rest)
      = some (a * 4096 + b * 256 + c * 16 + d, rest) := by
  simp [parseHex4, hexValue_hexDigit, ha, hb, hc, hd]

theorem hexDigit_zero : hexDigit 0 = 0x30 := by decide
theorem hexDigit_two : hexDigit 2 = 0x32 := by decide

theorem unescapeUnicode_of_lt (u : Nat) (hu : u < 0xD800) (rest : List UInt8) :
    unescapeUnicode u rest = (Char.ofNat u, rest) := by
  unfold unescapeUnicode
  rw [if_neg (by omega), if_neg (by omega)]

theorem parseStringBody_step (fuel : Nat) (b : UInt8) (rest : List UInt8) (acc : List Char)
    (h1 : b.toNat ≠ 0x22) (h2 : b.toNat ≠ 0x5C) (h3 : ¬ b.toNat < 0x20) (h4 : b.toNat < 0x80) :
    parseStringBody (fuel + 1) (b :: rest) acc
      = parseStringBody fuel rest (Char.ofNat b.toNat :: acc) := by
  simp only [parseStringBody, if_neg h1, if_neg h2, if_neg h3, if_pos h4]

theorem parseStringBody_escape2 (fuel : Nat) (e : UInt8) (rest : List UInt8) (acc : List Char)
    (c : Char)
    (h : (e.toNat = 0x22 ∧ c = Char.ofNat 0x22) ∨ (e.toNat = 0x5C ∧ c = Char.ofNat 0x5C)
      ∨ (e.toNat = 0x62 ∧ c = Char.ofNat 0x08) ∨ (e.toNat = 0x66 ∧ c = Char.ofNat 0x0C)
      ∨ (e.toNat = 0x6E ∧ c = Char.ofNat 0x0A) ∨ (e.toNat = 0x72 ∧ c = Char.ofNat 0x0D)
      ∨ (e.toNat = 0x74 ∧ c = Char.ofNat 0x09)) :
    parseStringBody (fuel + 1) (0x5C :: e :: rest) acc = parseStringBody fuel rest (c :: acc) := by
  have h5C : (0x5C : UInt8).toNat = 0x5C := by decide
  simp only [parseStringBody, h5C]
  rcases h with h | h | h | h | h | h | h <;> obtain ⟨he, hc⟩ := h <;> subst hc <;>
    simp [he]

theorem parseStringBody_escapeU (fuel : Nat) (a b c d : Nat) (ha : a < 16) (hb : b < 16)
    (hc : c < 16) (hd : d < 16) (hlt : a * 4096 + b * 256 + c * 16 + d < 0xD800)
    (rest : List UInt8) (acc : List Char) :
    parseStringBody (fuel + 1)
        (0x5C :: 0x75 :: hexDigit a :: hexDigit b :: hexDigit c :: hexDigit d :: rest) acc
      = parseStringBody fuel rest (Char.ofNat (a * 4096 + b * 256 + c * 16 + d) :: acc) := by
  have h5C : (0x5C : UInt8).toNat = 0x5C := by decide
  have h75 : (0x75 : UInt8).toNat = 0x75 := by decide
  simp only [parseStringBody, h5C, h75]
  simp [parseHex4_digits a b c d ha hb hc hd, unescapeUnicode_of_lt _ hlt]

theorem parseStringBody_raw (fuel : Nat) (c : Char) (h : ¬ c.toNat < 0x80) (rest : List UInt8)
    (acc : List Char) :
    parseStringBody (fuel + 1) (utf8EncodeChar c ++ rest) acc
      = parseStringBody fuel rest (c :: acc) := by
  obtain ⟨b0, tail, henc, hb0⟩ := utf8EncodeChar_head c h
  have hdec := decodeRune_utf8EncodeChar c rest
  have hdrop : List.drop (utf8EncodeChar c).length (utf8EncodeChar c ++ rest) = rest :=
    List.drop_left' rfl
  rw [henc] at hdec hdrop ⊢
  simp only [List.cons_append] at hdec hdrop ⊢
  simp only [parseStringBody]
  rw [if_neg (by omega), if_neg (by omega), if_neg (by omega), if_neg (by omega), hdec]
  simp only
  rw [hdrop]

theorem parseStringBody_escapeChar (c : Char) (fuel : Nat) (rest : List UInt8)
    (acc : List Char) :
    parseStringBody (fuel + 1) (escapeChar c ++ rest) acc
      = parseStringBody fuel rest (c :: acc) := by
  have hc : Char.ofNat c.toNat = c := Char.ofNat_toNat c
  unfold escapeChar
  by_cases h : c.toNat < 0x80
  · rw [if_pos h]
    have hb : (UInt8.ofNat c.toNat).toNat = c.toNat := toNat_ofNat_of_lt _ (by omega)
    unfold appendASCII
    simp only [hb]
    by_cases h1 : c.toNat = 0x22 ∨ c.toNat = 0x5C
    · rw [if_pos h1]
      simp only [List.cons_append, List.nil_append]
      apply parseStringBody_escape2
      rw [hb]
      rcases h1 with h1 | h1
      · exact Or.inl ⟨h1, by rw [← h1, hc]⟩
      · exact Or.inr (Or.inl ⟨h1, by rw [← h1, hc]⟩)
    · rw [if_neg h1]
      by_cases h2 : c.toNat = 0x08
      · rw [if_pos h2]
        exact parseStringBody_escape2 fuel _ rest acc c
          (Or.inr (Or.inr (Or.inl ⟨by decide, by rw [← h2, hc]⟩)))
      · rw [if_neg h2]
        by_cases h3 : c.toNat = 0x0C
        · rw [if_pos h3]
          exact parseStringBody_escape2 fuel _ rest acc c
            (Or.inr (Or.inr (Or.inr (Or.inl ⟨by decide, by rw [← h3, hc]⟩))))
        · rw [if_neg h3]
          by_cases h4 : c.toNat = 0x0A
          · rw [if_pos h4]
            exact parseStringBody_escape2 fuel _ rest acc c
              (Or.inr (Or.inr (Or.inr (Or.inr (Or.inl ⟨by decide, by rw [← h4, hc]⟩)))))
          · rw [if_neg h4]
            by_cases h5 : c.toNat = 0x0D
            · rw [if_pos h5]
              exact parseStringBody_escape2 fuel _ rest acc c
                (Or.inr (Or.inr (Or.inr (Or.inr (Or.inr (Or.inl
                  ⟨by decide, by rw [← h5, hc]⟩))))))
            · rw [if_neg h5]
              by_cases h6 : c.toNat = 0x09
              · rw [if_pos h6]
                exact parseStringBody_escape2 fuel _ rest acc c
                  (Or.inr (Or.inr (Or.inr (Or.inr (Or.inr (Or.inr
                    ⟨by decide, by rw [← h6, hc]⟩))))))
              · rw [if_neg h6]
                by_cases h7 : c.toNat < 0x20 ∨ c.toNat = 0x3C ∨ c.toNat = 0x3E ∨ c.toNat = 0x26
                · rw [if_pos h7]
                  have hu := parseStringBody_escapeU fuel 0 0 (c.toNat / 16) (c.toNat % 16)
                    (by omega) (by omega) (by omega) (by omega) (by omega) rest acc
                  have hval : 0 * 4096 + 0 * 256 + c.toNat / 16 * 16 + c.toNat % 16 = c.toNat := by
                    omega
                  rw [hval, hc, hexDigit_zero] at hu
                  exact hu
                · rw [if_neg h7]
                  simp only [List.singleton_append]
                  rw [parseStringBody_step fuel _ rest acc (by rw [hb]; omega) (by rw [hb]; omega)
                    (by rw [hb]; omega) (by rw [hb]; exact h), hb, hc]
  · rw [if_neg h]
    by_cases h8 : c.toNat = 0x2028 ∨ c.toNat = 0x2029
    · rw [if_pos h8]
      have hu := parseStringBody_escapeU fuel 2 0 2 (c.toNat % 16)
        (by omega) (by omega) (by omega) (by omega) (by omega) rest acc
      have hval : 2 * 4096 + 0 * 256 + 2 * 16 + c.toNat % 16 = c.toNat := by
        omega
      rw [hval, hc, hexDigit_zero, hexDigit_two] at hu
      exact hu
    · rw [if_neg h8]
      exact parseStringBody_raw fuel c h rest acc

theorem escapeChar_length_pos (c : Char) : 1 ≤ (escapeChar c).length := by
  unfold escapeChar appendASCII
  simp only
  split
  · split
    · simp
    · split
      · simp
      · split
        · simp
        · split
          · simp
          · split
            · simp
            · split
              · simp
              · split <;> simp
  · split
    · simp
    · exact utf8EncodeChar_length_pos c

theorem parseStringBody_escaped (s : List Char) :
    ∀ (fuel : Nat) (rest : List UInt8) (acc : List Char), s.length + 1 ≤ fuel →
      parseStringBody fuel (s.flatMap escapeChar ++ 0x22 :: rest) acc
        = some (String.mk (acc.reverse ++ s), rest) := by
  induction s with
  | nil =>
    intro fuel rest acc hfuel
    obtain ⟨fuel1, rfl⟩ : ∃ k, fuel = k + 1 := ⟨fuel - 1, by simp at hfuel; omega⟩
    have h22 : (0x22 : UInt8).toNat = 0x22 := by decide
    simp [parseStringBody, h22]
  | cons c rest1 ih =>
    intro fuel rest acc hfuel
    simp only [List.length_cons] at hfuel
    obtain ⟨fuel1, rfl⟩ : ∃ k, fuel = k + 1 := ⟨fuel - 1, by omega⟩
    simp only [List.flatMap_cons, List.append_assoc]
    rw [parseStringBody_escapeChar, ih fuel1 rest (c :: acc) (by omega)]
    simp

theorem ofNat_toNat_eq (b : UInt8) : UInt8.ofNat b.toNat = b := by
  apply UInt8.ext
  rw [toNat_ofNat_of_lt _ (UInt8.toNat_lt b)]

theorem Char_toNat_ofNat (v : Nat) (h : v < 0xD800 ∨ (0xDFFF < v ∧ v < 0x110000)) :
    (Char.ofNat v).toNat = v := by
  have hv : v.isValidChar := h
  unfold Char.ofNat
  rw [dif_pos hv]
  simp [Char.ofNatAux, Char.toNat, Char.ofNat, UInt32.toNat]

theorem utf8EncodeChar_ofNat_one (b0 : UInt8) (h : b0.toNat < 0x80) :
    utf8EncodeChar (Char.ofNat b0.toNat) = [b0] := by
  unfold utf8EncodeChar
  simp only [Char_toNat_ofNat b0.toNat (by omega), if_pos h, ofNat_toNat_eq]

theorem utf8EncodeChar_ofNat_two (b0 b1 : UInt8)
    (h0 : 0xC2 ≤ b0.toNat ∧ b0.toNat ≤ 0xDF) (h1 : 0x80 ≤ b1.toNat ∧ b1.toNat ≤ 0xBF) :
    utf8EncodeChar (Char.ofNat ((b0.toNat - 0xC0) * 64 + (b1.toNat - 0x80))) = [b0, b1] := by
  unfold utf8EncodeChar
  simp only [Char_toNat_ofNat ((b0.toNat - 0xC0) * 64 + (b1.toNat - 0x80)) (by omega)]
  rw [if_neg (by omega), if_pos (by omega)]
  have e0 : 0xC0 + ((b0.toNat - 0xC0) * 64 + (b1.toNat - 0x80)) / 64 = b0.toNat := by omega
  have e1 : 0x80 + ((b0.toNat - 0xC0) * 64 + (b1.toNat - 0x80)) % 64 = b1.toNat := by omega
  rw [e0, e1, ofNat_toNat_eq, ofNat_toNat_eq]

theorem utf8EncodeChar_ofNat_three (b0 b1 b2 : UInt8)
    (h0 : 0xE0 ≤ b0.toNat ∧ b0.toNat ≤ 0xEF)
    (h1 : (if b0.toNat = 0xE0 then 0xA0 else 0x80) ≤ b1.toNat
      ∧ b1.toNat ≤ (if b0.toNat = 0xED then 0x9F else 0xBF))
    (h2 : 0x80 ≤ b2.toNat ∧ b2.toNat ≤ 0xBF) :
    utf8EncodeChar (Char.ofNat ((b0.toNat - 0xE0) * 4096 + (b1.toNat - 0x80) * 64
        + (b2.toNat - 0x80))) = [b0, b1, b2] := by
  have hlo : 0x80 ≤ b1.toNat ∧ b1.toNat ≤ 0xBF
      ∧ (b0.toNat = 0xE0 → 0xA0 ≤ b1.toNat) ∧ (b0.toNat = 0xED → b1.toNat ≤ 0x9F) := by
    obtain ⟨h1a, h1b⟩ := h1
    split at h1a <;> split at h1b <;> omega
  unfold utf8EncodeChar
  simp only [Char_toNat_ofNat ((b0.toNat - 0xE0) * 4096 + (b1.toNat - 0x80) * 64
    + (b2.toNat - 0x80)) (by omega)]
  rw [if_neg (by omega), if_neg (by omega), if_pos (by omega)]
  have e0 : 0xE0 + ((b0.toNat - 0xE0) * 4096 + (b1.toNat - 0x80) * 64 + (b2.toNat - 0x80))
      / 4096 = b0.toNat := by omega
  have e1 : 0x80 + ((b0.toNat - 0xE0) * 4096 + (b1.toNat - 0x80) * 64 + (b2.toNat - 0x80))
      / 64 % 64 = b1.toNat := by omega
  have e2 : 0x80 + ((b0.toNat - 0xE0) * 4096 + (b1.toNat - 0x80) * 64 + (b2.toNat - 0x80))
      % 64 = b2.toNat := by omega
  rw [e0, e1, e2, ofNat_toNat_eq, ofNat_toNat_eq, ofNat_toNat_eq]

theorem utf8EncodeChar_ofNat_four (b0 b1 b2 b3 : UInt8)
    (h0 : 0xF0 ≤ b0.toNat ∧ b0.toNat ≤ 0xF4)
    (h1 : (if b0.toNat = 0xF0 then 0x90 else 0x80) ≤ b1.toNat
      ∧ b1.toNat ≤ (if b0.toNat = 0xF4 then 0x8F else 0xBF))
    (h2 : 0x80 ≤ b2.toNat ∧ b2.toNat ≤ 0xBF) (h3 : 0x80 ≤ b3.toNat ∧ b3.toNat ≤ 0xBF) :
    utf8EncodeChar (Char.ofNat ((b0.toNat - 0xF0) * 262144 + (b1.toNat - 0x80) * 4096
        + (b2.toNat - 0x80) * 64 + (b3.toNat - 0x80))) = [b0, b1, b2, b3] := by
  have hlo : 0x80 ≤ b1.toNat ∧ b1.toNat ≤ 0xBF
      ∧ (b0.toNat = 0xF0 → 0x90 ≤ b1.toNat) ∧ (b0.toNat = 0xF4 → b1.toNat ≤ 0x8F) := by
    obtain ⟨h1a, h1b⟩ := h1
    split at h1a <;> split at h1b <;> omega
  unfold utf8EncodeChar
  simp only [Char_toNat_ofNat ((b0.toNat - 0xF0) * 262144 + (b1.toNat - 0x80) * 4096
    + (b2.toNat - 0x80) * 64 + (b3.toNat - 0x80)) (by omega)]
  rw [if_neg (by omega), if_neg (by omega), if_neg (by omega)]
  have e0 : 0xF0 + ((b0.toNat - 0xF0) * 262144 + (b1.toNat - 0x80) * 4096
      + (b2.toNat - 0x80) * 64 + (b3.toNat - 0x80)) / 262144 = b0.toNat := by omega
  have e1 : 0x80 + ((b0.toNat - 0xF0) * 262144 + (b1.toNat - 0x80) * 4096
      + (b2.toNat - 0x80) * 64 + (b3.toNat - 0x80)) / 4096 % 64 = b1.toNat := by omega
  have e2 : 0x80 + ((b0.toNat - 0xF0) * 262144 + (b1.toNat - 0x80) * 4096
      + (b2.toNat - 0x80) * 64 + (b3.toNat - 0x80)) / 64 % 64 = b2.toNat := by omega
  have e3 : 0x80 + ((b0.toNat - 0xF0) * 262144 + (b1.toNat - 0x80) * 4096
      + (b2.toNat - 0x80) * 64 + (b3.toNat - 0x80)) % 64 = b3.toNat := by omega
  rw [e0, e1, e2, e3, ofNat_toNat_eq, ofNat_toNat_eq, ofNat_toNat_eq, ofNat_toNat_eq]

/-- The bytes a character was decoded from are its encoding. -/
theorem utf8EncodeChar_of_decodeRune (bs : List UInt8) (c : Char) (n : Nat)
    (h : decodeRune bs = some (c, n)) : utf8EncodeChar c ++ bs.drop n = bs ∧ 1 ≤ n := by
  cases bs with
  | nil => simp [decodeRune] at h
  | cons b0 rest0 =>
    simp only [decodeRune] at h
    by_cases c1 : b0.toNat < 0x80
    · rw [if_pos c1] at h
      simp only [Option.some.injEq, Prod.mk.injEq] at h
      obtain ⟨hc, hn⟩ := h
      subst hc hn
      rw [utf8EncodeChar_ofNat_one b0 c1]
      simp
    · rw [if_neg c1] at h
      by_cases c2 : 0xC2 ≤ b0.toNat ∧ b0.toNat ≤ 0xDF
      · rw [if_pos c2] at h
        cases rest0 with
        | nil => simp at h
        | cons b1 rest1 =>
          simp only [isContinuation] at h
          by_cases k1 : 0x80 ≤ b1.toNat ∧ b1.toNat ≤ 0xBF
          · simp only [k1, and_self, decide_True, if_true, Option.some.injEq,
              Prod.mk.injEq] at h
            obtain ⟨hc, hn⟩ := h
            subst hc hn
            rw [utf8EncodeChar_ofNat_two b0 b1 c2 k1]
            simp
          · simp [k1] at h
      · rw [if_neg c2] at h
        by_cases c3 : 0xE0 ≤ b0.toNat ∧ b0.toNat ≤ 0xEF
        · rw [if_pos c3] at h
          match rest0, h with
          | b1 :: b2 :: rest2, h =>
            dsimp only at h
            by_cases hcond : (if b0.toNat = 0xE0 then 0xA0 else 0x80) ≤ b1.toNat
                ∧ b1.toNat ≤ (if b0.toNat = 0xED then 0x9F else 0xBF)
                ∧ isContinuation b2 = true
            · rw [if_pos hcond] at h
              simp only [Option.some.injEq, Prod.mk.injEq] at h
              obtain ⟨hc, hn⟩ := h
              subst hc hn
              rw [utf8EncodeChar_ofNat_three b0 b1 b2 c3 ⟨hcond.1, hcond.2.1⟩
                (by simpa [isContinuation] using hcond.2.2)]
              simp
            · rw [if_neg hcond] at h
              simp at h
          | [], h => simp at h
          | [_], h => simp at h
        · rw [if_neg c3] at h
          by_cases c4 : 0xF0 ≤ b0.toNat ∧ b0.toNat ≤ 0xF4
          · rw [if_pos c4] at h
            match rest0, h with
            | b1 :: b2 :: b3 :: rest3, h =>
              dsimp only at h
              by_cases hcond : (if b0.toNat = 0xF0 then 0x90 else 0x80) ≤ b1.toNat
                  ∧ b1.toNat ≤ (if b0.toNat = 0xF4 then 0x8F else 0xBF)
                  ∧ isContinuation b2 = true ∧ isContinuation b3 = true
              · rw [if_pos hcond] at h
                simp only [Option.some.injEq, Prod.mk.injEq] at h
                obtain ⟨hc, hn⟩ := h
                subst hc hn
                rw [utf8EncodeChar_ofNat_four b0 b1 b2 b3 c4 ⟨hcond.1, hcond.2.1⟩
                  (by simpa [isContinuation] using hcond.2.2.1)
                  (by simpa [isContinuation] using hcond.2.2.2)]
                simp
              · rw [if_neg hcond] at h
                simp at h
            | [], h => simp at h
            | [_], h => simp at h
            | [_, _], h => simp at h
          · rw [if_neg c4] at h
            simp at h

theorem utf8DecodeChars_sound (fuel : Nat) :
    ∀ (bs : List UInt8) (cs : List Char), utf8DecodeChars fuel bs = some cs →
      cs.flatMap utf8EncodeChar = bs := by
  induction fuel with
  | zero =>
    intro bs cs h
    cases bs with
    | nil =>
      simp only [utf8DecodeChars, Option.some.injEq] at h
      rw [← h]
      rfl
    | cons b rest => simp [utf8DecodeChars] at h
  | succ k ih =>
    intro bs cs h
    cases bs with
    | nil =>
      simp only [utf8DecodeChars, Option.some.injEq] at h
      rw [← h]
      rfl
    | cons b rest =>
      simp only [utf8DecodeChars] at h
      cases hdec : decodeRune (b :: rest) with
      | none => simp [hdec] at h
      | some p =>
        obtain ⟨c, size⟩ := p
        simp only [hdec] at h
        cases hrest : utf8DecodeChars k (List.drop size (b :: rest)) with
        | none => simp [hrest] at h
        | some cs1 =>
          simp only [hrest, Option.some.injEq] at h
          rw [← h, List.flatMap_cons, ih _ cs1 hrest]
          exact (utf8EncodeChar_of_decodeRune (b :: rest) c size hdec).1

/-- A text that `utf8Decode` reads from bytes has these bytes as its UTF-8
encoding. -/
theorem utf8Encode_of_utf8Decode (bs : List UInt8) (s : String) (h : utf8Decode bs = some s) :
    utf8Encode s = bs := by
  unfold utf8Decode at h
  cases hcs : utf8DecodeChars bs.length bs with
  | none => simp [hcs] at h
  | some cs =>
    simp only [hcs, Option.some.injEq] at h
    rw [← h]
    exact utf8DecodeChars_sound _ bs cs hcs

theorem utf8DecodeChars_flatMap (s : List Char) :
    ∀ fuel, s.length ≤ fuel → utf8DecodeChars fuel (s.flatMap utf8EncodeChar) = some s := by
  induction s with
  | nil => intro fuel _; cases fuel <;> rfl
  | cons c rest ih =>
    intro fuel hfuel
    simp only [List.length_cons] at hfuel
    obtain ⟨k, rfl⟩ : ∃ k, fuel = k + 1 := ⟨fuel - 1, by omega⟩
    have hpos := utf8EncodeChar_length_pos c
    have hdec := decodeRune_utf8EncodeChar c (rest.flatMap utf8EncodeChar)
    have hdrop : List.drop (utf8EncodeChar c).length
        (utf8EncodeChar c ++ rest.flatMap utf8EncodeChar) = rest.flatMap utf8EncodeChar :=
      List.drop_left' rfl
    rw [List.flatMap_cons]
    cases henc : utf8EncodeChar c with
    | nil => rw [henc] at hpos; simp at hpos
    | cons b tail =>
      rw [henc] at hdec hdrop
      simp only [List.cons_append] at hdec hdrop ⊢
      simp only [utf8DecodeChars, hdec, hdrop, ih k (by omega)]

theorem flatMap_utf8EncodeChar_length (s : List Char) :
    s.length ≤ (s.flatMap utf8EncodeChar).length := by
  induction s with
  | nil => simp
  | cons c rest ih =>
    have := utf8EncodeChar_length_pos c
    simp only [List.flatMap_cons, List.length_append, List.length_cons]
    omega

/-- The UTF-8 encoding of a text is valid UTF-8 and holds the text. -/
theorem utf8Decode_utf8Encode (s : String) : utf8Decode (utf8Encode s) = some s := by
  unfold utf8Decode utf8Encode
  rw [utf8DecodeChars_flatMap s.data _ (flatMap_utf8EncodeChar_length s.data)]

theorem RawTask.toRaw_of_toTask? (t : RawTask) (x : Task) (h : t.toTask? = some x) :
    x.toRaw = t := by
  unfold RawTask.toTask? at h
  cases hd : utf8Decode t.Text with
  | none => simp [hd] at h
  | some text =>
    simp only [hd, Option.some.injEq] at h
    rw [← h]
    simp only [Task.toRaw, utf8Encode_of_utf8Decode t.Text text hd]

theorem toRaw_of_toTasks? (l : List RawTask) :
    ∀ xs : List Task, toTasks? l = some xs → xs.map Task.toRaw = l := by
  induction l with
  | nil =>
    intro xs h
    simp only [toTasks?, Option.some.injEq] at h
    rw [← h]
    rfl
  | cons t rest ih =>
    intro xs h
    simp only [toTasks?] at h
    cases ht : t.toTask? with
    | none => simp [ht] at h
    | some x =>
      cases hr : toTasks? rest with
      | none => simp [ht, hr] at h
      | some xs1 =>
        simp only [ht, hr, Option.some.injEq] at h
        rw [← h, List.map_cons, RawTask.toRaw_of_toTask? t x ht, ih xs1 hr]

/-- A task ledger read from a ledger with valid texts is held by the program as
that ledger. -/
theorem RawTodoList.toRaw_of_toTodoList? (h : RawTodoList) (T : TodoList)
    (hv : h.toTodoList? = some T) : T.toRaw = h := by
  unfold RawTodoList.toTodoList? at hv
  cases h1 : toTasks? h.Tasks with
  | none => simp [h1] at hv
  | some tasks =>
    cases h2 : toTasks? h.DeletedTasks with
    | none => simp [h1, h2] at hv
    | some deleted =>
      simp only [h1, h2, Option.some.injEq] at hv
      rw [← hv]
      simp only [TodoList.toRaw, toRaw_of_toTasks? _ _ h1, toRaw_of_toTasks? _ _ h2]

theorem RawReward.toRaw_of_toReward? (r : RawReward) (x : Reward) (h : r.toReward? = some x) :
    x.toRaw = r := by
  unfold RawReward.toReward? at h
  cases hd : utf8Decode r.Description with
  | none => simp [hd] at h
  | some text =>
    simp only [hd, Option.some.injEq] at h
    rw [← h]
    simp only [Reward.toRaw, utf8Encode_of_utf8Decode r.Description text hd]

theorem toRaw_of_toRewards? (l : List RawReward) :
    ∀ xs : List Reward, toRewards? l = some xs → xs.map Reward.toRaw = l := by
  induction l with
  | nil =>
    intro xs h
    simp only [toRewards?, Option.some.injEq] at h
    rw [← h]
    rfl
  | cons r rest ih =>
    intro xs h
    simp only [toRewards?] at h
    cases ht : r.toReward? with
    | none => simp [ht] at h
    | some x =>
      cases hr : toRewards? rest with
      | none => simp [ht, hr] at h
      | some xs1 =>
        simp only [ht, hr, Option.some.injEq] at h
        rw [← h, List.map_cons, RawReward.toRaw_of_toReward? r x ht, ih xs1 hr]

/-- A reward ledger read from a ledger with valid descriptions is held by the
program as that ledger. -/
theorem RawRewardSystem.toRaw_of_toRewardSystem? (r : RawRewardSystem) (R : RewardSystem)
    (hv : r.toRewardSystem? = some R) : R.toRaw = r := by
  unfold RawRewardSystem.toRewardSystem? at hv
  cases h1 : toRewards? r.Rewards with
  | none => simp [h1] at hv
  | some rewards =>
    simp only [h1, Option.some.injEq] at hv
    rw [← hv]
    simp only [RewardSystem.toRaw, toRaw_of_toRewards? _ _ h1]

theorem toTasks?_map_toRaw (l : List Task) : toTasks? (l.map Task.toRaw) = some l := by
  induction l with
  | nil => rfl
  | cons t rest ih =>
    simp [toTasks?, RawTask.toTask?, Task.toRaw, utf8Decode_utf8Encode, ih]

/-- Every task ledger with valid texts is read from the ledger the program
holds for it. -/
theorem TodoList.toTodoList?_toRaw (T : TodoList) : T.toRaw.toTodoList? = some T := by
  simp [RawTodoList.toTodoList?, TodoList.toRaw, toTasks?_map_toRaw]

theorem toRewards?_map_toRaw (l : List Reward) : toRewards? (l.map Reward.toRaw) = some l := by
  induction l with
  | nil => rfl
  | cons r rest ih =>
    simp [toRewards?, RawReward.toReward?, Reward.toRaw, utf8Decode_utf8Encode, ih]

/-- Every reward ledger with valid descriptions is read from the ledger the
program holds for it. -/
theorem RewardSystem.toRewardSystem?_toRaw (R : RewardSystem) :
    R.toRaw.toRewardSystem? = some R := by
  simp [RawRewardSystem.toRewardSystem?, RewardSystem.toRaw, toRewards?_map_toRaw]

theorem isDigit_ofNat (d : Nat) (hd : d < 10) : isDigit (UInt8.ofNat (48 + d)) = true := by
  unfold isDigit
  rw [toNat_ofNat_of_lt _ (by omega)]
  simp
  omega

theorem decimalDigits_isDigit (fuel : Nat) :
    ∀ n, ∀ b ∈ decimalDigits fuel n, isDigit b = true := by
  induction fuel with
  | zero => intro n b hb; simp [decimalDigits] at hb
  | succ k ih =>
    intro n b hb
    unfold decimalDigits at hb
    by_cases h : n < 10
    · rw [if_pos h] at hb
      simp only [List.mem_singleton] at hb
      rw [hb]
      exact isDigit_ofNat n h
    · rw [if_neg h] at hb
      simp only [List.mem_append, List.mem_singleton] at hb
      rcases hb with hb | hb
      · exact ih _ b hb
      · rw [hb]
        exact isDigit_ofNat _ (by omega)

theorem decimalValue_append (ds : List UInt8) (d : UInt8) :
    decimalValue (ds ++ [d]) = decimalValue ds * 10 + (d.toNat - 48) := by
  simp [decimalValue, List.foldl_append]

theorem decimalValue_decimalDigits (fuel : Nat) :
    ∀ n, n < fuel → decimalValue (decimalDigits fuel n) = n := by
  induction fuel with
  | zero => intro n h; omega
  | succ k ih =>
    intro n hn
    unfold decimalDigits
    by_cases h : n < 10
    · rw [if_pos h]
      simp [decimalValue, toNat_ofNat_of_lt (48 + n) (by omega)]
    · rw [if_neg h, decimalValue_append, ih (n / 10) (by omega),
        toNat_ofNat_of_lt _ (by omega)]
      omega

/-- The digits start with a digit that is not `0`, unless the number is 0, whose
only digit is `0`. -/
theorem decimalDigits_head (fuel : Nat) :
    ∀ n, n < fuel → ∃ d ds, decimalDigits fuel n = d :: ds
      ∧ (1 ≤ n → d.toNat ≠ 0x30) ∧ (n = 0 → ds = []) ∧ 48 ≤ d.toNat ∧ d.toNat ≤ 57 := by
  induction fuel with
  | zero => intro n h; omega
  | succ k ih =>
    intro n hn
    unfold decimalDigits
    by_cases h : n < 10
    · rw [if_pos h]
      refine ⟨_, [], rfl, ?_, fun _ => rfl, ?_, ?_⟩ <;>
        rw [toNat_ofNat_of_lt (48 + n) (by omega)] <;> omega
    · rw [if_neg h]
      obtain ⟨d, ds, hds, h1, _, h3, h4⟩ := ih (n / 10) (by omega)
      rw [hds]
      exact ⟨d, ds ++ [UInt8.ofNat (48 + n % 10)], by simp, fun _ => h1 (by omega),
        fun h0 => by omega, h3, h4⟩

theorem spanDigits_append (ds rest : List UInt8) (hds : ∀ b ∈ ds, isDigit b = true)
    (hrest : ∀ b tail, rest = b :: tail → isDigit b = false) :
    spanDigits (ds ++ rest) = (ds, rest) := by
  induction ds with
  | nil =>
    cases rest with
    | nil => rfl
    | cons b tail => simp [spanDigits, hrest b tail rfl]
  | cons d ds1 ih =>
    have hd := hds d (List.mem_cons_self _ _)
    have ih1 := ih (fun b hb => hds b (List.mem_cons_of_mem _ hb))
    simp [spanDigits, hd, ih1]

theorem ValueEnd_not_digit (rest : List UInt8) (hend : ValueEnd rest) :
    ∀ b tail, rest = b :: tail → isDigit b = false := by
  intro b tail hrest
  subst hrest
  simp only [ValueEnd] at hend
  unfold isDigit
  simp
  omega

theorem parseFraction_of_ValueEnd (rest : List UInt8) (hend : ValueEnd rest) :
    parseFraction rest = some ([], rest) := by
  cases rest with
  | nil => rfl
  | cons b tail =>
    simp only [ValueEnd] at hend
    simp only [parseFraction]
    rw [if_neg (by omega)]

theorem parseExponent_of_ValueEnd (rest : List UInt8) (hend : ValueEnd rest) :
    parseExponent rest = some ([], rest) := by
  cases rest with
  | nil => rfl
  | cons b tail =>
    simp only [ValueEnd] at hend
    simp only [parseExponent]
    rw [if_neg (by omega)]

theorem parseNumber_appendInt (n : Int) (hn : InInt64Range n) (rest : List UInt8)
    (hend : ValueEnd rest) : parseNumber (appendInt n ++ rest) = some (.number n, rest) := by
  obtain ⟨d, ds, hds, h1, h0, h3, h4⟩ := decimalDigits_head (n.natAbs + 1) n.natAbs (by omega)
  have hdigits := decimalDigits_isDigit (n.natAbs + 1) n.natAbs
  have hval := decimalValue_decimalDigits (n.natAbs + 1) n.natAbs (by omega)
  have hspan := spanDigits_append (decimalDigits (n.natAbs + 1) n.natAbs) rest hdigits
    (ValueEnd_not_digit rest hend)
  rw [hds] at hdigits hval hspan
  simp only [List.cons_append] at hspan
  have hzero : ¬ (d.toNat = 0x30 ∧ ¬ ds.isEmpty = true) := by
    intro hz
    by_cases hn0 : n.natAbs = 0
    · rw [h0 hn0] at hz
      simp at hz
    · exact h1 (by omega) hz.1
  unfold appendInt
  by_cases hneg : n < 0
  · rw [if_pos hneg, hds]
    have h2D : (0x2D : UInt8).toNat = 0x2D := by decide
    simp only [parseNumber, List.cons_append, List.nil_append, h2D, decide_True, if_true,
      List.drop_succ_cons, List.drop_zero, hspan, if_neg hzero,
      parseFraction_of_ValueEnd rest hend, parseExponent_of_ValueEnd rest hend, hval]
    have hv : -((n.natAbs : Nat) : Int) = n := by omega
    rw [hv]
    have hn1 : -9223372036854775808 ≤ n ∧ n < 9223372036854775808 := hn
    simp [hn1]
  · rw [if_neg hneg, hds]
    have hd2D : ¬ d.toNat = 0x2D := by omega
    simp only [parseNumber, List.cons_append, hd2D, decide_False, Bool.false_eq_true, if_false,
      hspan, if_neg hzero,
      parseFraction_of_ValueEnd rest hend, parseExponent_of_ValueEnd rest hend, hval]
    have hv : ((n.natAbs : Nat) : Int) = n := by omega
    rw [hv]
    have hn1 : -9223372036854775808 ≤ n ∧ n < 9223372036854775808 := hn
    simp [hn1]

theorem appendInt_head (n : Int) :
    ∃ b tail, appendInt n = b :: tail ∧ (b.toNat = 0x2D ∨ (48 ≤ b.toNat ∧ b.toNat ≤ 57)) := by
  obtain ⟨d, ds, hds, _, _, h3, h4⟩ := decimalDigits_head (n.natAbs + 1) n.natAbs (by omega)
  unfold appendInt
  by_cases hneg : n < 0
  · rw [if_pos hneg]
    exact ⟨0x2D, _, rfl, Or.inl (by decide)⟩
  · rw [if_neg hneg, hds]
    exact ⟨d, ds, rfl, Or.inr ⟨h3, h4⟩⟩

theorem skipSpace_cons_of_not_space (b : UInt8) (x : List UInt8) (h : isSpace b = false) :
    skipSpace (b :: x) = b :: x := by
  simp [skipSpace, h]

theorem skipSpace_space (x : List UInt8) : skipSpace (0x20 :: x) = skipSpace x := by
  have h : isSpace 0x20 = true := by decide
  simp [skipSpace, h]

theorem skipSpace_replicate (k : Nat) (x : List UInt8) :
    skipSpace (List.replicate k 0x20 ++ x) = skipSpace x := by
  induction k with
  | zero => rfl
  | succ k ih =>
    rw [List.replicate_succ, List.cons_append, skipSpace_space, ih]

theorem skipSpace_newlineIndent (depth : Nat) (x : List UInt8) :
    skipSpace (newlineIndent depth ++ x) = skipSpace x := by
  have h : isSpace 0x0A = true := by decide
  unfold newlineIndent
  simp only [List.cons_append, List.nil_append, List.append_assoc, skipSpace, h, if_true]
  exact skipSpace_replicate _ x

theorem skipSpace_idem (x : List UInt8) : skipSpace (skipSpace x) = skipSpace x := by
  induction x with
  | nil => rfl
  | cons b rest ih =>
    by_cases h : isSpace b = true
    · simp only [skipSpace, h, if_true]
      exact ih
    · simp only [Bool.not_eq_true] at h
      rw [skipSpace_cons_of_not_space b rest h, skipSpace_cons_of_not_space b rest h]

theorem isSpace_eq_false (b : UInt8)
    (h : b.toNat ≠ 0x20 ∧ b.toNat ≠ 0x0A ∧ b.toNat ≠ 0x0D ∧ b.toNat ≠ 0x09) :
    isSpace b = false := by
  unfold isSpace
  simp
  omega

/-- White space before a value is skipped. -/
theorem parseValue_skipSpace (fuel : Nat) (x : List UInt8) :
    parseValue fuel (skipSpace x) = parseValue fuel x := by
  cases fuel with
  | zero => simp [parseValue]
  | succ k => simp only [parseValue, skipSpace_idem]

theorem parseValue_space (fuel : Nat) (x : List UInt8) :
    parseValue fuel (0x20 :: x) = parseValue fuel x := by
  rw [← parseValue_skipSpace fuel (0x20 :: x), skipSpace_space, parseValue_skipSpace]

theorem parseValue_newlineIndent (fuel depth : Nat) (x : List UInt8) :
    parseValue fuel (newlineIndent depth ++ x) = parseValue fuel x := by
  rw [← parseValue_skipSpace fuel (newlineIndent depth ++ x), skipSpace_newlineIndent,
    parseValue_skipSpace]

theorem parseMembers_skipSpace (fuel : Nat) (x : List UInt8) (acc : List (String × JSON)) :
    parseMembers fuel (skipSpace x) acc = parseMembers fuel x acc := by
  cases fuel with
  | zero => simp [parseMembers]
  | succ k => simp only [parseMembers, skipSpace_idem]

theorem parseItems_skipSpace (fuel : Nat) (x : List UInt8) (acc : List JSON) :
    parseItems fuel (skipSpace x) acc = parseItems fuel x acc := by
  cases fuel with
  | zero => simp [parseItems]
  | succ k => simp only [parseItems, parseValue_skipSpace]

theorem ParsesTo_appendInt (n : Int) (hn : InInt64Range n) :
    ParsesTo (appendInt n) (.number n) := by
  intro fuel rest hend hfuel
  obtain ⟨k, rfl⟩ : ∃ k, fuel = k + 1 := ⟨fuel - 1, by omega⟩
  have hnum := parseNumber_appendInt n hn rest hend
  obtain ⟨b, tail, hb, hhead⟩ := appendInt_head n
  rw [hb] at hnum ⊢
  simp only [List.cons_append] at hnum ⊢
  have hsp : isSpace b = false := isSpace_eq_false b (by omega)
  simp only [parseValue, skipSpace_cons_of_not_space b _ hsp]
  rw [if_neg (by omega), if_neg (by omega), if_neg (by omega), if_neg (by omega),
    if_neg (by omega), if_neg (by omega)]
  exact hnum

theorem flatMap_escapeChar_length (s : List Char) : s.length ≤ (s.flatMap escapeChar).length := by
  induction s with
  | nil => simp
  | cons c rest ih =>
    have := escapeChar_length_pos c
    simp only [List.flatMap_cons, List.length_append, List.length_cons]
    omega

theorem ParsesTo_appendString (s : String) :
    ParsesTo (appendString (utf8Encode s)) (.string s) := by
  intro fuel rest _ hfuel
  obtain ⟨k, rfl⟩ : ∃ k, fuel = k + 1 := ⟨fuel - 1, by omega⟩
  rw [appendString_utf8Encode]
  have h22 : (0x22 : UInt8).toNat = 0x22 := by decide
  have hsp : isSpace 0x22 = false := by decide
  have hlen := flatMap_escapeChar_length s.data
  simp only [List.cons_append, List.nil_append, List.append_assoc, parseValue,
    skipSpace_cons_of_not_space _ _ hsp, h22]
  have hbody := parseStringBody_escaped s.data
    (s.data.flatMap escapeChar ++ 0x22 :: rest).length rest []
    (by rw [List.length_append, List.length_cons]; omega)
  simp only [List.reverse_nil, List.nil_append] at hbody
  simp only [if_true, hbody]
  rw [if_neg (by decide), if_neg (by decide)]

theorem stripBytes_append (lit rest : List UInt8) : stripBytes lit (lit ++ rest) = some rest := by
  induction lit with
  | nil => cases rest <;> rfl
  | cons a lit1 ih => simp [stripBytes, ih]

theorem ParsesTo_appendBool (b : Bool) : ParsesTo (appendBool b) (.bool b) := by
  intro fuel rest _ hfuel
  obtain ⟨k, rfl⟩ : ∃ k, fuel = k + 1 := ⟨fuel - 1, by omega⟩
  cases b with
  | true =>
    have hsp : isSpace 0x74 = false := by decide
    have h74 : (0x74 : UInt8).toNat = 0x74 := by decide
    have hs := stripBytes_append [0x72, 0x75, 0x65] rest
    simp only [List.cons_append, List.nil_append] at hs
    simp only [appendBool, if_true, List.cons_append, List.nil_append, parseValue,
      skipSpace_cons_of_not_space _ _ hsp, h74]
    simp [hs]
  | false =>
    have hsp : isSpace 0x66 = false := by decide
    have h66 : (0x66 : UInt8).toNat = 0x66 := by decide
    have hs := stripBytes_append [0x61, 0x6C, 0x73, 0x65] rest
    simp only [List.cons_append, List.nil_append] at hs
    simp only [appendBool, Bool.false_eq_true, if_false, List.cons_append, List.nil_append,
      parseValue, skipSpace_cons_of_not_space _ _ hsp, h66]
    simp [hs]

theorem ParsesTo_nullBytes : ParsesTo nullBytes .null := by
  intro fuel rest _ hfuel
  obtain ⟨k, rfl⟩ : ∃ k, fuel = k + 1 := ⟨fuel - 1, by omega⟩
  have hsp : isSpace 0x6E = false := by decide
  have h6E : (0x6E : UInt8).toNat = 0x6E := by decide
  have hs := stripBytes_append [0x75, 0x6C, 0x6C] rest
  simp only [List.cons_append, List.nil_append] at hs
  simp only [nullBytes, List.cons_append, List.nil_append, parseValue,
    skipSpace_cons_of_not_space _ _ hsp, h6E]
  simp [hs]

/-- One member of an object: the key, the colon and the value are read, and what
follows decides how the object goes on. -/
theorem parseMembers_member (k depth : Nat) (key : String) (bytes : List UInt8) (v : JSON)
    (hv : ParsesTo bytes v) (tail : List UInt8) (acc : List (String × JSON))
    (hend : ValueEnd tail) (hfuel : 2 * (bytes ++ tail).length + 1 ≤ k) :
    parseMembers (k + 1)
        (newlineIndent depth ++ (appendString (utf8Encode key) ++ 0x3A :: 0x20 :: (bytes ++ tail)))
        acc
      = match skipSpace tail with
        | [] => none
        | b :: rest4 =>
          if b.toNat = 0x2C then parseMembers k rest4 ((key, v) :: acc)
          else if b.toNat = 0x7D then some (.object ((key, v) :: acc).reverse, rest4)
          else none := by
  have hsp22 : isSpace 0x22 = false := by decide
  have hsp3A : isSpace 0x3A = false := by decide
  have h22 : (0x22 : UInt8).toNat = 0x22 := by decide
  have h3A : (0x3A : UInt8).toNat = 0x3A := by decide
  have hlen := flatMap_escapeChar_length key.data
  have hbody := parseStringBody_escaped key.data
    (key.data.flatMap escapeChar ++ 0x22 :: ([0x3A, 0x20] ++ (bytes ++ tail))).length
    ([0x3A, 0x20] ++ (bytes ++ tail)) []
    (by rw [List.length_append, List.length_cons]; omega)
  simp only [List.reverse_nil, List.nil_append, List.cons_append] at hbody
  have hval := hv k tail hend hfuel
  rw [appendString_utf8Encode]
  simp only [parseMembers, skipSpace_newlineIndent, List.cons_append, List.nil_append,
    List.append_assoc, skipSpace_cons_of_not_space _ _ hsp22, h22, if_true, hbody,
    skipSpace_cons_of_not_space _ _ hsp3A, h3A, parseValue_space, hval]

theorem ValueEnd_comma (x : List UInt8) : ValueEnd (0x2C :: x) := by
  simp only [ValueEnd]
  exact Or.inl (by decide)

theorem ValueEnd_newlineIndent (depth : Nat) (x : List UInt8) :
    ValueEnd (newlineIndent depth ++ x) := by
  simp only [newlineIndent, List.cons_append, List.nil_append, ValueEnd]
  exact Or.inr (by decide)

theorem skipSpace_closing (depth : Nat) (b : UInt8) (rest : List UInt8)
    (hb : isSpace b = false) : skipSpace (newlineIndent depth ++ b :: rest) = b :: rest := by
  rw [skipSpace_newlineIndent, skipSpace_cons_of_not_space b rest hb]

/-- The members of an object as `json.MarshalIndent` lays them out, up to the
closing brace, read back as the object of their values. -/
theorem parseMembers_marshalMembers (members : List (String × List UInt8)) (vals : List JSON)
    (h : List.Forall₂ (fun m v => ParsesTo m.2 v) members vals) :
    members ≠ [] → ∀ (fuel depth : Nat) (rest : List UInt8) (acc : List (String × JSON)),
      2 * (marshalMembers depth members ++ (newlineIndent depth ++ 0x7D :: rest)).length + 1
          ≤ fuel →
      parseMembers fuel (marshalMembers depth members ++ (newlineIndent depth ++ 0x7D :: rest))
          acc
        = some (.object (acc.reverse ++ (members.map Prod.fst).zip vals), rest) := by
  induction h with
  | nil => intro hne; exact absurd rfl hne
  | @cons m v ms vs hmv hrest ih =>
    intro _ fuel depth rest acc hfuel
    obtain ⟨k, rfl⟩ : ∃ k, fuel = k + 1 := ⟨fuel - 1, by omega⟩
    have hsp7D : isSpace 0x7D = false := by decide
    have hsp2C : isSpace 0x2C = false := by decide
    have h7D : (0x7D : UInt8).toNat = 0x7D := by decide
    have h2C : (0x2C : UInt8).toNat = 0x2C := by decide
    by_cases hms : ms = []
    · subst hms
      cases hrest
      simp only [marshalMembers, List.isEmpty_nil, if_true, List.append_nil, List.append_assoc,
        List.cons_append, List.nil_append] at hfuel ⊢
      rw [parseMembers_member k (depth + 1) m.1 m.2 v hmv _ acc
        (ValueEnd_newlineIndent depth _)
        (by simp only [List.length_append, List.length_cons] at hfuel ⊢; omega)]
      rw [skipSpace_closing depth _ rest hsp7D]
      simp only [h7D, if_true]
      simp
    · have hempty : ms.isEmpty = false := by
        cases ms with
        | nil => exact absurd rfl hms
        | cons _ _ => rfl
      simp only [marshalMembers, hempty, Bool.false_eq_true, if_false, List.append_assoc,
        List.cons_append, List.nil_append] at hfuel ⊢
      rw [parseMembers_member k (depth + 1) m.1 m.2 v hmv _ acc (ValueEnd_comma _)
        (by simp only [List.length_append, List.length_cons] at hfuel ⊢; omega)]
      rw [skipSpace_cons_of_not_space _ _ hsp2C]
      simp only [h2C, if_true]
      rw [ih hms k depth rest ((m.1, v) :: acc)
        (by simp only [List.length_append, List.length_cons] at hfuel ⊢; omega)]
      simp

theorem marshalMembers_skipSpace (depth : Nat) (m : String × List UInt8)
    (ms : List (String × List UInt8)) (x : List UInt8) :
    ∃ y, skipSpace (marshalMembers depth (m :: ms) ++ x) = 0x22 :: y := by
  have hsp22 : isSpace 0x22 = false := by decide
  simp only [marshalMembers, appendString, List.append_assoc, List.cons_append,
    List.nil_append, skipSpace_newlineIndent, skipSpace_cons_of_not_space _ _ hsp22]
  exact ⟨_, rfl⟩

/-- An object as `json.MarshalIndent` lays it out reads back as the object of
the values its members read back as. -/
theorem ParsesTo_marshalObject (depth : Nat) (members : List (String × List UInt8))
    (vals : List JSON) (h : List.Forall₂ (fun m v => ParsesTo m.2 v) members vals) :
    ParsesTo (marshalObject depth members) (.object ((members.map Prod.fst).zip vals)) := by
  intro fuel rest _ hfuel
  obtain ⟨k, rfl⟩ : ∃ k, fuel = k + 1 := ⟨fuel - 1, by omega⟩
  have hsp7B : isSpace 0x7B = false := by decide
  have hsp7D : isSpace 0x7D = false := by decide
  have h7B : (0x7B : UInt8).toNat = 0x7B := by decide
  have h7D : (0x7D : UInt8).toNat = 0x7D := by decide
  cases members with
  | nil =>
    cases h
    simp only [marshalObject, List.isEmpty_nil, if_true, List.cons_append, List.nil_append,
      parseValue, skipSpace_cons_of_not_space _ _ hsp7B,
      skipSpace_cons_of_not_space _ _ hsp7D, h7B, h7D]
    simp
  | cons m ms =>
    have hmem := parseMembers_marshalMembers (m :: ms) vals h (by simp) k depth rest []
    obtain ⟨y, hy⟩ := marshalMembers_skipSpace depth m ms (newlineIndent depth ++ 0x7D :: rest)
    have hskip := parseMembers_skipSpace k
      (marshalMembers depth (m :: ms) ++ (newlineIndent depth ++ 0x7D :: rest)) []
    rw [hy] at hskip
    simp only [marshalObject, List.isEmpty_cons, Bool.false_eq_true, if_false,
      List.append_assoc, List.cons_append, List.nil_append] at hfuel ⊢
    simp only [parseValue, skipSpace_cons_of_not_space _ _ hsp7B, h7B, if_true, hy]
    have h22 : (0x22 : UInt8).toNat = 0x22 := by decide
    simp only [h22, hskip]
    rw [hmem (by simp only [List.length_append, List.length_cons] at hfuel ⊢; omega)]
    simp

/-- One element of an array: the value is read, and what follows decides how the
array goes on. -/
theorem parseItems_item (k depth : Nat) (bytes : List UInt8) (v : JSON)
    (hv : ParsesTo bytes v) (tail : List UInt8) (acc : List JSON)
    (hend : ValueEnd tail) (hfuel : 2 * (bytes ++ tail).length + 1 ≤ k) :
    parseItems (k + 1) (newlineIndent depth ++ (bytes ++ tail)) acc
      = match skipSpace tail with
        | [] => none
        | b :: rest1 =>
          if b.toNat = 0x2C then parseItems k rest1 (v :: acc)
          else if b.toNat = 0x5D then some (.array (v :: acc).reverse, rest1)
          else none := by
  have hval := hv k tail hend hfuel
  simp only [parseItems, parseValue_newlineIndent, hval]

/-- The elements of an array as `json.MarshalIndent` lays them out, up to the
closing bracket, read back as the array of their values. -/
theorem parseItems_marshalItems (items : List (List UInt8)) (vals : List JSON)
    (h : List.Forall₂ ParsesTo items vals) :
    items ≠ [] → ∀ (fuel depth : Nat) (rest : List UInt8) (acc : List JSON),
      2 * (marshalItems depth items ++ (newlineIndent depth ++ 0x5D :: rest)).length + 2
          ≤ fuel →
      parseItems fuel (marshalItems depth items ++ (newlineIndent depth ++ 0x5D :: rest)) acc
        = some (.array (acc.reverse ++ vals), rest) := by
  induction h with
  | nil => intro hne; exact absurd rfl hne
  | @cons item v ms vs hmv hrest ih =>
    intro _ fuel depth rest acc hfuel
    obtain ⟨k, rfl⟩ : ∃ k, fuel = k + 1 := ⟨fuel - 1, by omega⟩
    have hsp5D : isSpace 0x5D = false := by decide
    have hsp2C : isSpace 0x2C = false := by decide
    have h5D : (0x5D : UInt8).toNat = 0x5D := by decide
    have h2C : (0x2C : UInt8).toNat = 0x2C := by decide
    by_cases hms : ms = []
    · subst hms
      cases hrest
      simp only [marshalItems, List.isEmpty_nil, if_true, List.append_nil, List.append_assoc,
        List.cons_append, List.nil_append] at hfuel ⊢
      rw [parseItems_item k (depth + 1) item v hmv _ acc (ValueEnd_newlineIndent depth _)
        (by simp only [List.length_append, List.length_cons] at hfuel ⊢; omega)]
      rw [skipSpace_closing depth _ rest hsp5D]
      simp only [h5D, if_true]
      simp
    · have hempty : ms.isEmpty = false := by
        cases ms with
        | nil => exact absurd rfl hms
        | cons _ _ => rfl
      simp only [marshalItems, hempty, Bool.false_eq_true, if_false, List.append_assoc,
        List.cons_append, List.nil_append] at hfuel ⊢
      rw [parseItems_item k (depth + 1) item v hmv _ acc (ValueEnd_comma _)
        (by simp only [List.length_append, List.length_cons] at hfuel ⊢; omega)]
      rw [skipSpace_cons_of_not_space _ _ hsp2C]
      simp only [h2C, if_true]
      rw [ih hms k depth rest (v :: acc)
        (by simp only [List.length_append, List.length_cons] at hfuel ⊢; omega)]
      simp

/-- An array of objects as `json.MarshalIndent` lays it out reads back as the
array of the values its elements read back as. -/
theorem ParsesTo_marshalArray (depth : Nat) (items : List (List UInt8)) (vals : List JSON)
    (h : List.Forall₂ ParsesTo items vals)
    (hhead : ∀ item ∈ items, ∃ tail, item = 0x7B :: tail) :
    ParsesTo (marshalArray depth items) (.array vals) := by
  intro fuel rest _ hfuel
  obtain ⟨k, rfl⟩ : ∃ k, fuel = k + 1 := ⟨fuel - 1, by omega⟩
  have hsp5B : isSpace 0x5B = false := by decide
  have hsp5D : isSpace 0x5D = false := by decide
  have hsp7B : isSpace 0x7B = false := by decide
  have h5B : (0x5B : UInt8).toNat = 0x5B := by decide
  have h5D : (0x5D : UInt8).toNat = 0x5D := by decide
  have h7B : (0x7B : UInt8).toNat = 0x7B := by decide
  cases items with
  | nil =>
    cases h
    simp only [marshalArray, List.isEmpty_nil, if_true, List.cons_append, List.nil_append,
      parseValue, skipSpace_cons_of_not_space _ _ hsp5B,
      skipSpace_cons_of_not_space _ _ hsp5D, h5B, h5D]
    simp
  | cons item ms =>
    have hitems := parseItems_marshalItems (item :: ms) vals h (by simp) k depth rest []
    obtain ⟨tail, htail⟩ := hhead item (List.mem_cons_self _ _)
    have hy : skipSpace (marshalItems depth (item :: ms) ++ (newlineIndent depth ++ 0x5D :: rest))
        = 0x7B :: (tail ++ ((if ms.isEmpty then [] else [0x2C]) ++ (marshalItems depth ms
            ++ (newlineIndent depth ++ 0x5D :: rest)))) := by
      simp only [marshalItems, htail, List.append_assoc, List.cons_append,
        skipSpace_newlineIndent, skipSpace_cons_of_not_space _ _ hsp7B]
    have hskip := parseItems_skipSpace k
      (marshalItems depth (item :: ms) ++ (newlineIndent depth ++ 0x5D :: rest)) []
    rw [hy] at hskip
    simp only [marshalArray, List.isEmpty_cons, Bool.false_eq_true, if_false,
      List.append_assoc, List.cons_append, List.nil_append] at hfuel ⊢
    simp only [parseValue, skipSpace_cons_of_not_space _ _ hsp5B, h5B, if_true, hy]
    simp only [h7B, hskip]
    rw [hitems (by simp only [List.length_append, List.length_cons] at hfuel ⊢; omega)]
    simp

theorem marshalObject_head (depth : Nat) (members : List (String × List UInt8)) :
    ∃ tail, marshalObject depth members = 0x7B :: tail := by
  unfold marshalObject
  split
  · exact ⟨_, rfl⟩
  · exact ⟨_, rfl⟩

/-- A task with a valid text, as `json.MarshalIndent` writes it, reads back as
its JSON value. -/
theorem ParsesTo_marshalTask (depth : Nat) (t : Task) (hid : InInt64Range t.ID)
    (hpoints : InInt64Range t.TaskPoints) :
    ParsesTo (marshalTask depth t.toRaw) (Task.toJSON t) :=
  ParsesTo_marshalObject depth
    [("id", appendInt t.ID), ("text", appendString (utf8Encode t.Text)),
      ("isComplete", appendBool t.IsComplete), ("taskPoints", appendInt t.TaskPoints),
      ("isTaskPointsReceive", appendBool t.IsTaskPointsReceive)]
    [.number t.ID, .string t.Text, .bool t.IsComplete, .number t.TaskPoints,
      .bool t.IsTaskPointsReceive]
    (.cons (ParsesTo_appendInt t.ID hid)
      (.cons (ParsesTo_appendString t.Text)
        (.cons (ParsesTo_appendBool t.IsComplete)
          (.cons (ParsesTo_appendInt t.TaskPoints hpoints)
            (.cons (ParsesTo_appendBool t.IsTaskPointsReceive) .nil)))))

theorem ParsesTo_marshalTask_list (depth : Nat) (l : List Task)
    (hl : ∀ t ∈ l, InInt64Range t.ID ∧ InInt64Range t.TaskPoints) :
    List.Forall₂ ParsesTo ((l.map Task.toRaw).map (marshalTask depth)) (l.map Task.toJSON) := by
  induction l with
  | nil => exact .nil
  | cons t rest ih =>
    have ht := hl t (List.mem_cons_self _ _)
    exact .cons (ParsesTo_marshalTask depth t ht.1 ht.2)
      (ih (fun x hx => hl x (List.mem_cons_of_mem _ hx)))

theorem ParsesTo_marshalTaskSlice (depth : Nat) (isNil : Bool) (l : List Task)
    (hl : ∀ t ∈ l, InInt64Range t.ID ∧ InInt64Range t.TaskPoints) :
    ParsesTo (marshalTaskSlice depth isNil (l.map Task.toRaw))
      (sliceToJSON isNil (l.map Task.toJSON)) := by
  unfold marshalTaskSlice sliceToJSON
  by_cases hnull : (isNil && l.isEmpty) = true
  · have h1 : (isNil && (l.map Task.toRaw).isEmpty) = true := by simpa using hnull
    have h2 : (isNil && (l.map Task.toJSON).isEmpty) = true := by simpa using hnull
    rw [if_pos h1, if_pos h2]
    exact ParsesTo_nullBytes
  · have h1 : ¬ (isNil && (l.map Task.toRaw).isEmpty) = true := by simpa using hnull
    have h2 : ¬ (isNil && (l.map Task.toJSON).isEmpty) = true := by simpa using hnull
    rw [if_neg h1, if_neg h2]
    apply ParsesTo_marshalArray depth _ _ (ParsesTo_marshalTask_list (depth + 1) l hl)
    intro item hitem
    simp only [List.mem_map] at hitem
    obtain ⟨t, _, rfl⟩ := hitem
    exact marshalObject_head _ _

/-- A task ledger with valid texts, as `json.MarshalIndent` writes it, reads back
as its JSON value. -/
theorem ParsesTo_marshalIndentTodoList (nilTasks nilDeleted : Bool) (h : TodoList)
    (hr : h.IntsInRange) :
    ParsesTo (marshalIndentTodoList nilTasks nilDeleted h.toRaw).1
      (TodoList.toJSON nilTasks nilDeleted h) :=
  ParsesTo_marshalObject 0
    [("tasks", marshalTaskSlice 1 nilTasks (h.Tasks.map Task.toRaw)),
      ("deletedTasks", marshalTaskSlice 1 nilDeleted (h.DeletedTasks.map Task.toRaw)),
      ("nextId", appendInt h.NextID)]
    [sliceToJSON nilTasks (h.Tasks.map Task.toJSON),
      sliceToJSON nilDeleted (h.DeletedTasks.map Task.toJSON), .number h.NextID]
    (.cons (ParsesTo_marshalTaskSlice 1 nilTasks h.Tasks hr.1)
      (.cons (ParsesTo_marshalTaskSlice 1 nilDeleted h.DeletedTasks hr.2.1)
        (.cons (ParsesTo_appendInt h.NextID hr.2.2) .nil)))

theorem ParsesTo_marshalReward (depth : Nat) (r : Reward) (hid : InInt64Range r.ID)
    (hprice : InInt64Range r.PriceOfReward) :
    ParsesTo (marshalReward depth r.toRaw) (Reward.toJSON r) :=
  ParsesTo_marshalObject depth
    [("id", appendInt r.ID), ("description", appendString (utf8Encode r.Description)),
      ("priceOfReward", appendInt r.PriceOfReward), ("isAvailable", appendBool r.IsAvailable)]
    [.number r.ID, .string r.Description, .number r.PriceOfReward, .bool r.IsAvailable]
    (.cons (ParsesTo_appendInt r.ID hid)
      (.cons (ParsesTo_appendString r.Description)
        (.cons (ParsesTo_appendInt r.PriceOfReward hprice)
          (.cons (ParsesTo_appendBool r.IsAvailable) .nil))))

theorem ParsesTo_marshalReward_list (depth : Nat) (l : List Reward)
    (hl : ∀ r ∈ l, InInt64Range r.ID ∧ InInt64Range r.PriceOfReward) :
    List.Forall₂ ParsesTo ((l.map Reward.toRaw).map (marshalReward depth))
      (l.map Reward.toJSON) := by
  induction l with
  | nil => exact .nil
  | cons r rest ih =>
    have hr := hl r (List.mem_cons_self _ _)
    exact .cons (ParsesTo_marshalReward depth r hr.1 hr.2)
      (ih (fun x hx => hl x (List.mem_cons_of_mem _ hx)))

theorem ParsesTo_marshalRewardSlice (depth : Nat) (isNil : Bool) (l : List Reward)
    (hl : ∀ r ∈ l, InInt64Range r.ID ∧ InInt64Range r.PriceOfReward) :
    ParsesTo (marshalRewardSlice depth isNil (l.map Reward.toRaw))
      (sliceToJSON isNil (l.map Reward.toJSON)) := by
  unfold marshalRewardSlice sliceToJSON
  by_cases hnull : (isNil && l.isEmpty) = true
  · have h1 : (isNil && (l.map Reward.toRaw).isEmpty) = true := by simpa using hnull
    have h2 : (isNil && (l.map Reward.toJSON).isEmpty) = true := by simpa using hnull
    rw [if_pos h1, if_pos h2]
    exact ParsesTo_nullBytes
  · have h1 : ¬ (isNil && (l.map Reward.toRaw).isEmpty) = true := by simpa using hnull
    have h2 : ¬ (isNil && (l.map Reward.toJSON).isEmpty) = true := by simpa using hnull
    rw [if_neg h1, if_neg h2]
    apply ParsesTo_marshalArray depth _ _ (ParsesTo_marshalReward_list (depth + 1) l hl)
    intro item hitem
    simp only [List.mem_map] at hitem
    obtain ⟨r, _, rfl⟩ := hitem
    exact marshalObject_head _ _

/-- A reward ledger with valid descriptions, as `json.MarshalIndent` writes it,
reads back as its JSON value. -/
theorem ParsesTo_marshalIndentRewardSystem (nilRewards : Bool) (r : RewardSystem)
    (hr : r.IntsInRange) :
    ParsesTo (marshalIndentRewardSystem nilRewards r.toRaw).1
      (RewardSystem.toJSON nilRewards r) :=
  ParsesTo_marshalObject 0
    [("rewards", marshalRewardSlice 1 nilRewards (r.Rewards.map Reward.toRaw)),
      ("userPoints", appendInt r.UserPoints),
      ("isUserPointsUpdate", appendBool r.IsUserPointsUpdate),
      ("nextId", appendInt r.NextID)]
    [sliceToJSON nilRewards (r.Rewards.map Reward.toJSON), .number r.UserPoints,
      .bool r.IsUserPointsUpdate, .number r.NextID]
    (.cons (ParsesTo_marshalRewardSlice 1 nilRewards r.Rewards hr.1)
      (.cons (ParsesTo_appendInt r.UserPoints hr.2.1)
        (.cons (ParsesTo_appendBool r.IsUserPointsUpdate)
          (.cons (ParsesTo_appendInt r.NextID hr.2.2) .nil))))

/-- Bytes that read back as a value, alone in a file, are a JSON text of that
value. -/
theorem parseJSON_of_ParsesTo (bytes : List UInt8) (v : JSON) (h : ParsesTo bytes v) :
    parseJSON bytes = some v := by
  have hp := h (2 * bytes.length + 2) [] trivial (by simp)
  rw [List.append_nil] at hp
  simp [parseJSON, hp, skipSpace]

/-- The whole trip of a document through a file: if the bytes written read back
as a JSON value that decodes to `doc`, then loading the saved file gives `doc`. -/
theorem storage_Load_Save {α β : Type} (marshalIndent : α → List UInt8 × Option String)
    (decode : JSON → β → β × Option String) (env : SaveEnv) (fs fs1 : Files)
    (filename : String) (data : α) (zero doc : β) (v : JSON)
    (hsave : storage.Save marshalIndent env fs filename data = (fs1, none))
    (hparse : ParsesTo (marshalIndent data).1 v) (hhead : (marshalIndent data).1 ≠ [])
    (hdecode : decode v zero = (doc, none)) :
    storage.Load (Unmarshal parseJSON decode) (true, none) (readFile fs1 filename) zero
      = (doc, none) := by
  have hfile := (storage_Save_file marshalIndent env fs fs1 filename data hsave).1
  simp only [readFile, hfile]
  rw [storage_Load_of_data _ _ hhead]
  simp [Unmarshal, parseJSON_of_ParsesTo _ v hparse, hdecode]

theorem marshalIndentTodoList_ne_nil (nilTasks nilDeleted : Bool) (h : RawTodoList) :
    (marshalIndentTodoList nilTasks nilDeleted h).1 ≠ [] := by
  obtain ⟨tail, htail⟩ := marshalObject_head 0
    [("tasks", marshalTaskSlice 1 nilTasks h.Tasks),
      ("deletedTasks", marshalTaskSlice 1 nilDeleted h.DeletedTasks),
      ("nextId", appendInt h.NextID)]
  simp [marshalIndentTodoList, htail]

theorem marshalIndentRewardSystem_ne_nil (nilRewards : Bool) (r : RawRewardSystem) :
    (marshalIndentRewardSystem nilRewards r).1 ≠ [] := by
  obtain ⟨tail, htail⟩ := marshalObject_head 0
    [("rewards", marshalRewardSlice 1 nilRewards r.Rewards),
      ("userPoints", appendInt r.UserPoints),
      ("isUserPointsUpdate", appendBool r.IsUserPointsUpdate),
      ("nextId", appendInt r.NextID)]
  simp [marshalIndentRewardSystem, htail]

set_option maxRecDepth 100000 in
/-- C27, as stated, fails: a task whose text is the four bytes `63 61 66 E9`
(`caf` and a byte that is not UTF-8, as `add` receives them from the command
line) is saved without an error; `json.MarshalIndent` writes the escape of U+FFFD
for the last byte, and `storage.Load` gives back a text that ends in U+FFFD,
which the program holds as the six bytes `63 61 66 EF BF BD`. -/
theorem Save_then_Load_changes_invalid_UTF8 :
    (storage.Save (marshalIndentTodoList false true) ⟨(true, none), none, none, none⟩
        (fun _ => none) "todo.json"
        ⟨[⟨1, [0x63, 0x61, 0x66, 0xE9], false, 0, false⟩], [], 2⟩).2 = none
      ∧ appendString [0x63, 0x61, 0x66, 0xE9]
          = [0x22, 0x63, 0x61, 0x66, 0x5C, 0x75, 0x66, 0x66, 0x66, 0x64, 0x22]
      ∧ storage.Load (Unmarshal parseJSON unmarshalTodoList) (true, none)
          (readFile
            (storage.Save (marshalIndentTodoList false true) ⟨(true, none), none, none, none⟩
              (fun _ => none) "todo.json"
              ⟨[⟨1, [0x63, 0x61, 0x66, 0xE9], false, 0, false⟩], [], 2⟩).1
            "todo.json")
          zeroTodoList
        = (⟨[⟨1, String.mk [Char.ofNat 0x63, Char.ofNat 0x61, Char.ofNat 0x66,
              Char.ofNat 0xFFFD], false, 0, false⟩], [], 2⟩, none)
      ∧ TodoList.toRaw ⟨[⟨1, String.mk [Char.ofNat 0x63, Char.ofNat 0x61, Char.ofNat 0x66,
            Char.ofNat 0xFFFD], false, 0, false⟩], [], 2⟩
        = ⟨[⟨1, [0x63, 0x61, 0x66, 0xEF, 0xBF, 0xBD], false, 0, false⟩], [], 2⟩
      ∧ (⟨[⟨1, [0x63, 0x61, 0x66, 0xEF, 0xBF, 0xBD], false, 0, false⟩], [], 2⟩ : RawTodoList)
        ≠ ⟨[⟨1, [0x63, 0x61, 0x66, 0xE9], false, 0, false⟩], [], 2⟩ := by
  decide

/-- The trip through a file of the ledgers with valid texts: a task ledger `T`
and a reward ledger `R`, held by the program as `T.toRaw` and `R.toRaw`, come
back from a `storage.Save` without error and a `storage.Load` into the zero
value. -/
theorem storage_Load_Save_toRaw (T : TodoList) (nilTasks nilDeleted : Bool)
    (R : RewardSystem) (nilRewards : Bool) (hT : T.IntsInRange) (hR : R.IntsInRange)
    (envT envR : SaveEnv) (fs fsT fsR : Files) (pathT pathR : String)
    (hsaveT : storage.Save (marshalIndentTodoList nilTasks nilDeleted) envT fs pathT T.toRaw
      = (fsT, none))
    (hsaveR : storage.Save (marshalIndentRewardSystem nilRewards) envR fs pathR R.toRaw
      = (fsR, none)) :
    storage.Load (Unmarshal parseJSON unmarshalTodoList) (true, none) (readFile fsT pathT)
        zeroTodoList = (T, none)
      ∧ storage.Load (Unmarshal parseJSON unmarshalRewardSystem) (true, none)
          (readFile fsR pathR) zeroRewardSystem = (R, none) :=
  ⟨storage_Load_Save (marshalIndentTodoList nilTasks nilDeleted) unmarshalTodoList
      envT fs fsT pathT T.toRaw zeroTodoList T (TodoList.toJSON nilTasks nilDeleted T) hsaveT
      (ParsesTo_marshalIndentTodoList nilTasks nilDeleted T hT)
      (marshalIndentTodoList_ne_nil _ _ _) (unmarshalTodoList_toJSON _ _ _ _),
   storage_Load_Save (marshalIndentRewardSystem nilRewards) unmarshalRewardSystem
      envR fs fsR pathR R.toRaw zeroRewardSystem R (RewardSystem.toJSON nilRewards R) hsaveR
      (ParsesTo_marshalIndentRewardSystem nilRewards R hR)
      (marshalIndentRewardSystem_ne_nil _ _) (unmarshalRewardSystem_toJSON _ _ _)⟩

/-- C27, amended: let `h` be a task ledger and `r` a reward ledger as the program
holds them, all of whose texts are valid UTF-8, so that `h` read as UTF-8 is `T`
and `r` read as UTF-8 is `R`, and whose integers are values of a 64-bit `int`.
Then a `storage.Save` of the ledger that returns no error, followed by a
`storage.Load` of the same path into the zero value, gives back the ledger
without an error: the same tasks with all their fields, the same deleted buffer
and `NextID`; the same rewards, balance, dirty flag and `NextID`; the loaded
ledger is held by the program as the bytes that were saved; and the loaders
return it without an error.  Nothing is assumed of `encoding/json`:
`marshalIndentTodoList`, `marshalIndentRewardSystem` and `parseJSON` are its
writing and its reading. -/
theorem Save_then_Load_gives_back_valid_UTF8 (h : RawTodoList) (T : TodoList)
    (nilTasks nilDeleted : Bool) (r : RawRewardSystem) (R : RewardSystem) (nilRewards : Bool)
    (hvalidT : h.toTodoList? = some T) (hvalidR : r.toRewardSystem? = some R)
    (hT : T.IntsInRange) (hR : R.IntsInRange)
    (envT envR : SaveEnv) (fs fsT fsR : Files) (pathT pathR : String)
    (hsaveT : storage.Save (marshalIndentTodoList nilTasks nilDeleted) envT fs pathT h
      = (fsT, none))
    (hsaveR : storage.Save (marshalIndentRewardSystem nilRewards) envR fs pathR r
      = (fsR, none)) :
    storage.Load (Unmarshal parseJSON unmarshalTodoList) (true, none) (readFile fsT pathT)
        zeroTodoList = (T, none)
      ∧ T.toRaw = h
      ∧ storage.Load (Unmarshal parseJSON unmarshalRewardSystem) (true, none)
          (readFile fsR pathR) zeroRewardSystem = (R, none)
      ∧ R.toRaw = r
      ∧ LoadTodoList (Unmarshal parseJSON unmarshalTodoList) (true, none) (readFile fsT pathT)
          pathT = (some T, none)
      ∧ LoadRewardSystem (Unmarshal parseJSON unmarshalRewardSystem) (true, none)
          (readFile fsR pathR) pathR = (some R, none) := by
  have hrawT := RawTodoList.toRaw_of_toTodoList? h T hvalidT
  have hrawR := RawRewardSystem.toRaw_of_toRewardSystem? r R hvalidR
  rw [← hrawT] at hsaveT
  rw [← hrawR] at hsaveR
  obtain ⟨h1, h2⟩ := storage_Load_Save_toRaw T nilTasks nilDeleted R nilRewards hT hR
    envT envR fs fsT fsR pathT pathR hsaveT hsaveR
  refine ⟨h1, hrawT, h2, hrawR, ?_, ?_⟩
  · simp [LoadTodoList, h1]
  · simp [LoadRewardSystem, h2]

/-- A task ledger and a reward ledger with texts outside ASCII, given by their
bytes (`café`, `<b> & co` and `thé` in UTF-8), saved into an empty directory and
loaded again. -/
theorem Save_then_Load_gives_back_valid_UTF8_witness :
    RawTodoList.toTodoList?
        ⟨[⟨1, [0x63, 0x61, 0x66, 0xC3, 0xA9], true, 10, true⟩,
          ⟨2, [0x3C, 0x62, 0x3E, 0x20, 0x26, 0x20, 0x63, 0x6F], false, -3, false⟩], [], 3⟩
        = some ⟨[⟨1, "café", true, 10, true⟩, ⟨2, "<b> & co", false, -3, false⟩], [], 3⟩
      ∧ storage.Load (Unmarshal parseJSON unmarshalTodoList) (true, none)
          (readFile
            (storage.Save (marshalIndentTodoList false true) ⟨(true, none), none, none, none⟩
              (fun _ => none) "todo.json"
              ⟨[⟨1, [0x63, 0x61, 0x66, 0xC3, 0xA9], true, 10, true⟩,
                ⟨2, [0x3C, 0x62, 0x3E, 0x20, 0x26, 0x20, 0x63, 0x6F], false, -3, false⟩],
                [], 3⟩).1
            "todo.json")
          zeroTodoList
        = (⟨[⟨1, "café", true, 10, true⟩, ⟨2, "<b> & co", false, -3, false⟩], [], 3⟩, none)
      ∧ storage.Load (Unmarshal parseJSON unmarshalRewardSystem) (true, none)
          (readFile
            (storage.Save (marshalIndentRewardSystem false) ⟨(true, none), none, none, none⟩
              (fun _ => none) "rewards.json"
              ⟨[⟨1, [0x74, 0x68, 0xC3, 0xA9], 5, true⟩], 10, true, 2⟩).1
            "rewards.json")
          zeroRewardSystem
        = (⟨[⟨1, "thé", 5, true⟩], 10, true, 2⟩, none) :=
  ⟨by decide,
   (Save_then_Load_gives_back_valid_UTF8
      ⟨[⟨1, [0x63, 0x61, 0x66, 0xC3, 0xA9], true, 10, true⟩,
        ⟨2, [0x3C, 0x62, 0x3E, 0x20, 0x26, 0x20, 0x63, 0x6F], false, -3, false⟩], [], 3⟩
      ⟨[⟨1, "café", true, 10, true⟩, ⟨2, "<b> & co", false, -3, false⟩], [], 3⟩ false true
      ⟨[⟨1, [0x74, 0x68, 0xC3, 0xA9], 5, true⟩], 10, true, 2⟩
      ⟨[⟨1, "thé", 5, true⟩], 10, true, 2⟩ false
      (by decide) (by decide)
      (by simp [TodoList.IntsInRange, InInt64Range])
      (by simp [RewardSystem.IntsInRange, InInt64Range])
      ⟨(true, none), none, none, none⟩ ⟨(true, none), none, none, none⟩ (fun _ => none) _ _
      "todo.json" "rewards.json" rfl rfl).1,
   (Save_then_Load_gives_back_valid_UTF8
      ⟨[⟨1, [0x63, 0x61, 0x66, 0xC3, 0xA9], true, 10, true⟩,
        ⟨2, [0x3C, 0x62, 0x3E, 0x20, 0x26, 0x20, 0x63, 0x6F], false, -3, false⟩], [], 3⟩
      ⟨[⟨1, "café", true, 10, true⟩, ⟨2, "<b> & co", false, -3, false⟩], [], 3⟩ false true
      ⟨[⟨1, [0x74, 0x68, 0xC3, 0xA9], 5, true⟩], 10, true, 2⟩
      ⟨[⟨1, "thé", 5, true⟩], 10, true, 2⟩ false
      (by decide) (by decide)
      (by simp [TodoList.IntsInRange, InInt64Range])
      (by simp [RewardSystem.IntsInRange, InInt64Range])
      ⟨(true, none), none, none, none⟩ ⟨(true, none), none, none, none⟩ (fun _ => none) _ _
      "todo.json" "rewards.json" rfl rfl).2.2.1⟩

/-! ## The id counter and the deleted buffer -/

theorem DeletedIDsBelowNext_of_same (h h1 : TodoList) (hd : h1.DeletedTasks = h.DeletedTasks)
    (hn : h1.NextID = h.NextID) (hinv : DeletedIDsBelowNext h) : DeletedIDsBelowNext h1 := by
  unfold DeletedIDsBelowNext at *
  rw [hd, hn]
  exact hinv

theorem Delete_DeletedTasks (h h1 : TodoList) (i : Nat) (hd : Delete h i = some h1) :
    ∃ t ∈ h.Tasks, h1.DeletedTasks = h.DeletedTasks ++ [t] := by
  unfold Delete at hd
  cases hget : h.Tasks[i]? with
  | none => simp [hget] at hd
  | some t =>
    simp only [hget, Option.some.injEq] at hd
    rw [← hd]
    exact ⟨t, List.mem_iff_getElem?.mpr ⟨i, hget⟩, rfl⟩

/-- One call keeps: the ids of the deleted buffer are below `NextID` unless the
buffer is stale. -/
theorem fresh_deleted_applyOp (stale : Bool) (h h1 : TodoList) (op : TaskOp)
    (hstep : applyOp h op = some h1) (hact : ActiveIDsFresh h)
    (hinv : stale = false → DeletedIDsBelowNext h) :
    staleAfter stale h op h1 = false → DeletedIDsBelowNext h1 := by
  intro hst
  simp only [staleAfter, Bool.and_eq_false_imp, Bool.not_eq_true', List.isEmpty_eq_false,
    Bool.or_eq_false_iff] at hst
  by_cases hempty : h1.DeletedTasks = []
  · intro t ht
    rw [hempty] at ht
    simp at ht
  · have hst1 := hst (by simpa using hempty)
    obtain ⟨hs, hreset⟩ := hst1
    have hold := hinv hs
    cases op with
    | add text points =>
      simp only [resetsCounter, decide_eq_false_iff_not, List.length_eq_zero] at hreset
      simp only [applyOp, Option.some.injEq] at hstep
      rw [← hstep, Add_of_ne_nil h text points hreset]
      intro t ht
      have := hold t ht
      simp only
      omega
    | complete i =>
      simp only [applyOp] at hstep
      cases hc : Complete h i with
      | none => simp [hc] at hstep
      | some pr =>
        obtain ⟨h2, err⟩ := pr
        rw [hc] at hstep
        simp only [Option.map_some', Option.some.injEq] at hstep
        subst hstep
        exact DeletedIDsBelowNext_of_same h h2 (Complete_DeletedTasks h h2 i err hc)
          (Complete_same_ids h h2 i err hc).2 hold
    | notCompleted i =>
      simp only [applyOp] at hstep
      cases hc : NotCompleted h i with
      | none => simp [hc] at hstep
      | some pr =>
        obtain ⟨h2, err⟩ := pr
        rw [hc] at hstep
        simp only [Option.map_some', Option.some.injEq] at hstep
        subst hstep
        exact DeletedIDsBelowNext_of_same h h2 (NotCompleted_DeletedTasks h h2 i err hc)
          (NotCompleted_same_ids h h2 i err hc).2 hold
    | edit i newText =>
      exact DeletedIDsBelowNext_of_same h h1 (Edit_DeletedTasks h h1 i newText hstep)
        (Edit_same_ids h h1 i newText hstep).2 hold
    | editTaskPoints i p =>
      exact DeletedIDsBelowNext_of_same h h1 (EditTaskPoints_DeletedTasks h h1 i p hstep)
        (EditTaskPoints_same_ids h h1 i p hstep).2 hold
    | delete i =>
      simp only [applyOp] at hstep
      obtain ⟨t, htmem, hdel⟩ := Delete_DeletedTasks h h1 i hstep
      have hn := Delete_NextID h h1 i hstep
      intro x hx
      rw [hdel] at hx
      rw [hn]
      simp only [List.mem_append, List.mem_singleton] at hx
      rcases hx with hx | hx
      · exact hold x hx
      · rw [hx]
        exact hact.1 t.ID (List.mem_map_of_mem Task.ID htmem)
    | cancelLastDelete =>
      simp only [applyOp, Option.some.injEq] at hstep
      rw [← hstep]
      by_cases hnil : h.DeletedTasks = []
      · rw [CancelLastDelete_of_nil h hnil]
        exact hold
      · exfalso
        apply hempty
        rw [← hstep, CancelLastDelete_of_ne_nil h hnil]
    | clearAllTasks =>
      simp [resetsCounter] at hreset

theorem fresh_deleted_runOps (ops : List TaskOp) :
    ∀ (stale : Bool) (h h1 : TodoList), runOps h ops = some h1 → ActiveIDsFresh h →
      (stale = false → DeletedIDsBelowNext h) →
      runStale stale h ops = false → DeletedIDsBelowNext h1 := by
  induction ops with
  | nil =>
    intro stale h h1 hrun _ hinv hst
    simp only [runOps, Option.some.injEq] at hrun
    simp only [runStale] at hst
    rw [← hrun]
    exact hinv hst
  | cons op rest ih =>
    intro stale h h1 hrun hact hinv hst
    simp only [runOps] at hrun
    cases hstep : applyOp h op with
    | none => simp [hstep] at hrun
    | some h2 =>
      simp only [hstep] at hrun
      simp only [runStale, hstep] at hst
      exact ih (staleAfter stale h op h2) h2 h1 hrun (ActiveIDsFresh_applyOp h h2 op hstep hact)
        (fresh_deleted_applyOp stale h h2 op hstep hact hinv) hst

theorem applyOp_DeletedTasks_of_resets (h h1 : TodoList) (op : TaskOp)
    (hstep : applyOp h op = some h1) (hreset : resetsCounter h op = true) :
    h1.DeletedTasks = h.DeletedTasks := by
  cases op with
  | add text points =>
    simp only [applyOp, Option.some.injEq] at hstep
    rw [← hstep, Add_eq]
  | clearAllTasks =>
    simp only [applyOp, Option.some.injEq] at hstep
    rw [← hstep]
    rfl
  | complete i => simp [resetsCounter] at hreset
  | notCompleted i => simp [resetsCounter] at hreset
  | edit i newText => simp [resetsCounter] at hreset
  | editTaskPoints i p => simp [resetsCounter] at hreset
  | delete i => simp [resetsCounter] at hreset
  | cancelLastDelete => simp [resetsCounter] at hreset

theorem runStale_of_noResetOverDeleted (ops : List TaskOp) :
    ∀ h : TodoList, noResetOverDeleted h ops = true → runStale false h ops = false := by
  induction ops with
  | nil => intro h _; rfl
  | cons op rest ih =>
    intro h hno
    simp only [noResetOverDeleted, Bool.and_eq_true, Bool.not_eq_true', Bool.and_eq_false_imp,
      Bool.not_eq_false'] at hno
    simp only [runStale]
    cases hstep : applyOp h op with
    | none => rfl
    | some h1 =>
      simp only [hstep] at hno ⊢
      have hst : staleAfter false h op h1 = false := by
        simp only [staleAfter, Bool.false_or, Bool.and_eq_false_imp, Bool.not_eq_true',
          List.isEmpty_eq_false]
        intro hne
        cases hreset : resetsCounter h op with
        | false => rfl
        | true =>
          exfalso
          have hd := applyOp_DeletedTasks_of_resets h h1 op hstep hreset
          have := hno.1 hreset
          rw [List.isEmpty_iff] at this
          rw [hd, this] at hne
          simp at hne
      rw [hst]
      exact ih h1 hno.2

/-- The run of the counterexample to C4 sets `NextID` back to 1 (its last `Add`
finds the active list empty) while the deleted buffer holds two tasks. -/
theorem runStale_after_reset_over_deleted :
    runStale false zeroTodoList [.add "a" 1, .add "b" 2, .delete 0, .delete 0, .add "c" 3]
        = true
      ∧ noResetOverDeleted zeroTodoList
          [.add "a" 1, .add "b" 2, .delete 0, .delete 0, .add "c" 3] = false := by
  decide

/-- C4, amended: in a ledger reached from one with no active and no deleted task
by any sequence of `Add`, `Complete`, `NotCompleted`, `Edit`, `EditTaskPoints`,
`Delete` (inside the list), `CancelLastDelete` and `ClearAllTasks`, `NextID` is
strictly greater than the id of every task in the active list; and it is
strictly greater than the id of every task in the deleted buffer unless the
buffer holds a task that was already in it when `NextID` was last set back to 1
(by `ClearAllTasks`, or by `Add` on an empty active list).  In particular it is
strictly greater than every id in the deleted buffer on every run in which no
call sets `NextID` back to 1 while the buffer holds a task. -/
theorem NextID_above_active_and_fresh_deleted_ids (s : TodoList) (hs : s.Tasks = [])
    (hd : s.DeletedTasks = []) (ops : List TaskOp) (h : TodoList)
    (hrun : runOps s ops = some h) :
    (∀ t ∈ h.Tasks, t.ID < h.NextID)
      ∧ (runStale false s ops = false → ∀ t ∈ h.DeletedTasks, t.ID < h.NextID)
      ∧ (noResetOverDeleted s ops = true → ∀ t ∈ h.DeletedTasks, t.ID < h.NextID) := by
  have hact := ActiveIDsFresh_of_Tasks_nil s hs
  have hdel : false = false → DeletedIDsBelowNext s := by
    intro _ t ht
    rw [hd] at ht
    simp at ht
  refine ⟨?_, ?_, ?_⟩
  · intro t ht
    exact (ActiveIDsFresh_runOps ops s h hrun hact).1 t.ID (List.mem_map_of_mem Task.ID ht)
  · intro hst
    exact fresh_deleted_runOps ops false s h hrun hact hdel hst
  · intro hno
    exact fresh_deleted_runOps ops false s h hrun hact hdel
      (runStale_of_noResetOverDeleted ops s hno)

/-- Add two tasks, delete the first, clear the active list (which sets `NextID`
back to 1 over the deleted task), restore the deleted task (which empties the
buffer), add a third task and delete the restored one: the buffer holds id 1,
the active list id 2, and `NextID` is 3. -/
theorem NextID_above_active_and_fresh_deleted_ids_witness :
    zeroTodoList.Tasks = []
      ∧ zeroTodoList.DeletedTasks = []
      ∧ runOps zeroTodoList
          [.add "a" 1, .add "b" 2, .delete 0, .clearAllTasks, .cancelLastDelete, .add "c" 3,
            .delete 0]
          = some ⟨[⟨2, "c", false, 3, false⟩], [⟨1, "a", false, 1, false⟩], 3⟩
      ∧ runStale false zeroTodoList
          [.add "a" 1, .add "b" 2, .delete 0, .clearAllTasks, .cancelLastDelete, .add "c" 3,
            .delete 0] = false
      ∧ (∀ t ∈ ([⟨2, "c", false, 3, false⟩] : List Task), t.ID < (3 : Int))
      ∧ (∀ t ∈ ([⟨1, "a", false, 1, false⟩] : List Task), t.ID < (3 : Int)) := by
  have hrun : runOps zeroTodoList
      [.add "a" 1, .add "b" 2, .delete 0, .clearAllTasks, .cancelLastDelete, .add "c" 3,
        .delete 0]
      = some ⟨[⟨2, "c", false, 3, false⟩], [⟨1, "a", false, 1, false⟩], 3⟩ := by decide
  have hstale : runStale false zeroTodoList
      [.add "a" 1, .add "b" 2, .delete 0, .clearAllTasks, .cancelLastDelete, .add "c" 3,
        .delete 0] = false := by decide
  have hthm := NextID_above_active_and_fresh_deleted_ids zeroTodoList rfl rfl _ _ hrun
  exact ⟨rfl, rfl, hrun, hstale, hthm.1, hthm.2.1 hstale⟩

end TodoCli
